import Mathlib

/-!
# Lazy segment tree (`efgen/segtree.hpp`) and discrete Fourier transform (`efgen/dft.hpp`)

A shallow embedding of the `SegTree<TraitsT>` class template, of the example
traits `MyTraits` from `examples/segtree.cpp`, and of the function templates
`dft_permute` and `dft`, followed by the properties proved about them.

Conventions of the embedding.

* `size_t` values are natural numbers.  Where the source can leave 64 bits (the
  shift in `calc_nleaves`, the product `2 * m_nleaves`, the decrements `k - 1`,
  `m - 1` and `--i` of the wrapping loop in `update`) the result is reduced modulo
  `2 ^ 64` explicitly.  The sums `m_nleaves + first` and `m_nleaves + last - 1`
  are formed after the clamp `last ≤ m_length`, so they stay below `2 ^ 64` on
  every constructed tree.
* `std::vector<Node>` is a `List Node`.  `m_data[i]` outside the vector is
  undefined in C++; the embedding reads the default node there and ignores the
  write.  The correctness theorems are about trees whose vector has
  `2 * m_nleaves` entries, on which no such access occurs.
* `while`/`for` loops are structural recursions.  Counting loops recurse on their
  counter; the halving loops take a fuel argument, for which `query`/`update` pass
  the pointer `p` (or the sum `p + q` for the two-pointer loops).  This always
  suffices because every iteration at least halves the pointers, and the theorems
  establish the results for exactly this fuel.
-/

namespace Efgen

/-- The static interface `TraitsT` of the class template: the value type, the
modification type and the five static operations. -/
structure Traits (Val Mod : Type) where
  neutral : Val
  ident : Mod
  join : Val → Val → Val
  compose : Mod → Mod → Mod
  apply : Mod → Val → Val

/-- `SegTree::Node`. -/
structure Node (Val Mod : Type) where
  val : Val
  mod : Mod
deriving DecidableEq, Repr

/-- `SegTree` data members. -/
structure SegTree (Val Mod : Type) where
  m_length : Nat
  m_nleaves : Nat
  m_data : List (Node Val Mod)
deriving DecidableEq, Repr

section Code

variable {Val Mod : Type} (T : Traits Val Mod)

/-- The default member initialisers `val{neutral()}`, `mod{ident()}`. -/
def Node.dflt : Node Val Mod := ⟨T.neutral, T.ident⟩

/-- `Node::modval`. -/
def Node.modval (nd : Node Val Mod) : Val := T.apply nd.mod nd.val

/-- Read of `m_data[i]`. -/
def rd (d : List (Node Val Mod)) (i : Nat) : Node Val Mod := d.getD i (Node.dflt T)

/-- Assignment `m_data[i].val = v`. -/
def setVal (d : List (Node Val Mod)) (i : Nat) (v : Val) : List (Node Val Mod) :=
  d.set i ⟨v, (rd T d i).mod⟩

/-- Assignment `m_data[i].mod = m`. -/
def setMod (d : List (Node Val Mod)) (i : Nat) (m : Mod) : List (Node Val Mod) :=
  d.set i ⟨(rd T d i).val, m⟩

/-- Width of `unsigned long long`. -/
def digits : Nat := 64

/-- Leading zero bits of `x` among its `b` lowest bits, scanned from bit `b - 1`
downwards. -/
def clz_scan (x : Nat) : Nat → Nat
  | 0 => 0
  | b + 1 => if x < 2 ^ b then clz_scan x b + 1 else 0

/-- `__builtin_clzll(x)` for `0 < x < 2 ^ 64`: the number of leading zero bits of
the 64-bit word.  The builtin is undefined at `0`, where the scan gives 64. -/
def clzll (x : Nat) : Nat := clz_scan x digits

/-- `SegTree::calc_nleaves`.  For `n > 2 ^ 63` the shift count is 64, which C++
leaves undefined; the embedding reduces modulo `2 ^ 64` there. -/
def calc_nleaves (n : Nat) : Nat :=
  if n ≤ 4 then 4 else (1 <<< (digits - clzll (n - 1))) % 2 ^ 64

/-- `SegTree::recalc`. -/
def recalc (d : List (Node Val Mod)) (node : Nat) : List (Node Val Mod) :=
  setVal T d node
    (T.join ((rd T d (2 * node + 0)).modval T) ((rd T d (2 * node + 1)).modval T))

/-- `SegTree::downprop`. -/
def downprop (d : List (Node Val Mod)) (node : Nat) (update_val : Bool) :
    List (Node Val Mod) :=
  let d1 := if update_val then setVal T d node ((rd T d node).modval T) else d
  let d2 := setMod T d1 (2 * node + 0) (T.compose (rd T d1 node).mod (rd T d1 (2 * node + 0)).mod)
  let d3 := setMod T d2 (2 * node + 1) (T.compose (rd T d2 node).mod (rd T d2 (2 * node + 1)).mod)
  setMod T d3 node T.ident

/-- `SegTree(size_t length)`: the vector is value-initialised with
`2 * m_nleaves` (a `size_t` product) default nodes. -/
def SegTree.new_length (length : Nat) : SegTree Val Mod :=
  { m_length := length
    m_nleaves := calc_nleaves length
    m_data := List.replicate ((2 * calc_nleaves length) % 2 ^ 64) (Node.dflt T) }

/-- The loop `for (i = 0; i < m_length; ++i) m_data[m_nleaves + i].val = value;`
with `cnt` iterations left and `i` the current counter. -/
def fill_leaves (base : Nat) (value : Val) :
    Nat → Nat → List (Node Val Mod) → List (Node Val Mod)
  | 0, _, d => d
  | cnt + 1, i, d => fill_leaves base value cnt (i + 1) (setVal T d (base + i) value)

/-- The loop `for (i = 0; i < m_length; ++i) { m_data[m_nleaves + i].val = *first; ++first; }`
over the remaining input `xs`, with `i` the current counter. -/
def copy_leaves (base : Nat) :
    List Val → Nat → List (Node Val Mod) → List (Node Val Mod)
  | [], _, d => d
  | x :: xs, i, d => copy_leaves base xs (i + 1) (setVal T d (base + i) x)

/-- The loop `for (i = m_nleaves - 1; i > 0; --i) m_data[i].val = join(m_data[2*i].val, m_data[2*i+1].val);`
started at counter `i`. -/
def build_pass : Nat → List (Node Val Mod) → List (Node Val Mod)
  | 0, d => d
  | i + 1, d =>
    build_pass i
      (setVal T d (i + 1) (T.join (rd T d (2 * (i + 1) + 0)).val (rd T d (2 * (i + 1) + 1)).val))

/-- `SegTree(size_t length, const Val &value)`. -/
def SegTree.fill (length : Nat) (value : Val) : SegTree Val Mod :=
  let t : SegTree Val Mod := SegTree.new_length T length
  let d1 := fill_leaves T t.m_nleaves value t.m_length 0 t.m_data
  { t with m_data := build_pass T (t.m_nleaves - 1) d1 }

/-- `SegTree(from_iter_tag, Iter first, Iter last)`; the range is the list `xs`
and `std::distance(first, last)` its length. -/
def SegTree.from_iter (xs : List Val) : SegTree Val Mod :=
  let t : SegTree Val Mod := SegTree.new_length T xs.length
  let d1 := copy_leaves T t.m_nleaves xs 0 t.m_data
  { t with m_data := build_pass T (t.m_nleaves - 1) d1 }

/-- The loop `while (p / 2 != q / 2) { ... }` of `query`; returns the final
`(p, q, left, right)`. -/
def query_loop (d : List (Node Val Mod)) :
    Nat → Nat → Nat → Val → Val → Nat × Nat × Val × Val
  | 0, p, q, left, right => (p, q, left, right)
  | fuel + 1, p, q, left, right =>
    if p / 2 ≠ q / 2 then
      let left1 := if p % 2 = 0 then T.join left ((rd T d (p + 1)).modval T) else left
      let right1 := if q % 2 = 1 then T.join ((rd T d (q - 1)).modval T) right else right
      let p1 := p / 2
      let q1 := q / 2
      query_loop d fuel p1 q1 (T.apply (rd T d p1).mod left1) (T.apply (rd T d q1).mod right1)
    else (p, q, left, right)

/-- The loop `while (p /= 2) { left = apply(m_data[p].mod, left); }` of `query`. -/
def query_climb (d : List (Node Val Mod)) : Nat → Nat → Val → Val
  | 0, _, left => left
  | fuel + 1, p, left =>
    let p1 := p / 2
    if p1 ≠ 0 then query_climb d fuel p1 (T.apply (rd T d p1).mod left) else left

/-- `SegTree::query`. -/
def SegTree.query (t : SegTree Val Mod) (first last : Nat) : Val :=
  let last := if last > t.m_length then t.m_length else last
  if last ≤ first then T.neutral
  else
    let p := t.m_nleaves + first
    let q := t.m_nleaves + last - 1
    let left := (rd T t.m_data p).modval T
    if p ≠ q then
      let right := (rd T t.m_data q).modval T
      let r := query_loop T t.m_data (p + q) p q left right
      query_climb T t.m_data r.1 r.1 (T.join r.2.2.1 r.2.2.2)
    else query_climb T t.m_data p p left

/-- The loop `for (size_t i = k - 1; i > 0; --i) downprop(p >> i, false);` of the
single-leaf branch of `update`, started at counter `i`. -/
def push_single (p : Nat) : Nat → List (Node Val Mod) → List (Node Val Mod)
  | 0, d => d
  | i + 1, d => push_single p i (downprop T d (p >>> (i + 1)) false)

/-- The decrement `--i` on a `size_t`, wrapping below zero. -/
def wrap_dec (i : Nat) : Nat := (i + 2 ^ 64 - 1) % 2 ^ 64

/-- The loop `for (size_t i = k - 1; i < k; --i) downprop(lca >> i, false);` of
`update`, which leaves through the wrap-around of `i`; `i` is the current
counter. -/
def push_lca (lca k : Nat) : Nat → Nat → List (Node Val Mod) → List (Node Val Mod)
  | 0, _, d => d
  | fuel + 1, i, d =>
    if i < k then push_lca lca k fuel (wrap_dec i) (downprop T d (lca >>> i) false) else d

/-- The loop `for (size_t i = m - 1; i > 0; --i) { downprop(p >> i, false); downprop(q >> i, false); }`
of `update`, started at counter `i`. -/
def push_pair (p q : Nat) : Nat → List (Node Val Mod) → List (Node Val Mod)
  | 0, d => d
  | i + 1, d =>
    push_pair p q i (downprop T (downprop T d (p >>> (i + 1)) false) (q >>> (i + 1)) false)

/-- The loop `while (p / 2 != q / 2) { ... recalc(p); recalc(q); }` of `update`;
returns the final `p` and the vector. -/
def update_loop (f : Mod) :
    Nat → Nat → Nat → List (Node Val Mod) → Nat × List (Node Val Mod)
  | 0, p, _, d => (p, d)
  | fuel + 1, p, q, d =>
    if p / 2 ≠ q / 2 then
      let d1 := if p % 2 = 0 then setMod T d (p + 1) (T.compose f (rd T d (p + 1)).mod) else d
      let d2 := if q % 2 = 1 then setMod T d1 (q - 1) (T.compose f (rd T d1 (q - 1)).mod) else d1
      let p1 := p / 2
      let q1 := q / 2
      update_loop f fuel p1 q1 (recalc T (recalc T d2 p1) q1)
    else (p, d)

/-- The loop `while (p /= 2) { recalc(p); }` of `update`. -/
def update_climb : Nat → Nat → List (Node Val Mod) → List (Node Val Mod)
  | 0, _, d => d
  | fuel + 1, p, d =>
    let p1 := p / 2
    if p1 ≠ 0 then update_climb fuel p1 (recalc T d p1) else d

/-- The push-down phase of `SegTree::update` (both branches of `if (p == q)`). -/
def push_phase (d : List (Node Val Mod)) (p q : Nat) : List (Node Val Mod) :=
  if p = q then
    let k := digits - clzll p
    push_single T p (wrap_dec k) d
  else
    let m := digits - clzll (p ^^^ q)
    let lca := p >>> m
    let k := digits - clzll lca
    let d1 := push_lca T lca k (k + 1) (wrap_dec k) d
    push_pair T p q (wrap_dec m) d1

/-- `SegTree::update`. -/
def SegTree.update (t : SegTree Val Mod) (first last : Nat) (f : Mod) : SegTree Val Mod :=
  let last := if last > t.m_length then t.m_length else last
  if last ≤ first then t
  else
    let p := t.m_nleaves + first
    let q := t.m_nleaves + last - 1
    let d0 := push_phase T t.m_data p q
    let d1 := setMod T d0 p (T.compose f (rd T d0 p).mod)
    if p ≠ q then
      let d2 := setMod T d1 q (T.compose f (rd T d1 q).mod)
      let r := update_loop T f (p + q) p q d2
      { t with m_data := update_climb T r.1 r.1 r.2 }
    else { t with m_data := update_climb T p p d1 }

end Code

/-- The example traits `MyTraits` of `examples/segtree.cpp`: values are
`(sum, count)` pairs, a modification is an amount added to every element.
`long long` and `int` are unbounded integers here (signed overflow is undefined in
C++ and the examples stay far from it). -/
def MyTraits : Traits (Int × Int) Int where
  neutral := (0, 1)
  ident := 0
  join := fun a b => (a.1 + b.1, a.2 + b.2)
  compose := fun f g => f + g
  apply := fun f x => (x.1 + f * x.2, x.2)

/-- An algebra satisfying the contract in which neither `join` nor `compose`
commutes: values are sequences of integers joined by concatenation, and the
modification `(a, b)` maps every element `v` to `a * v + b`.  It instantiates the
general theorems below. -/
def AffTraits : Traits (List Int) (Int × Int) where
  neutral := []
  ident := (1, 0)
  join := fun x y => x ++ y
  compose := fun f g => (f.1 * g.1, f.1 * g.2 + f.2)
  apply := fun f x => x.map (fun v => f.1 * v + f.2)

/-- The array `data` of `main` in `examples/segtree.cpp`. -/
def example_data : List (Int × Int) := [(2, 1), (1, 1), (3, 1), (7, 1)]

/-- The object `tree` of `main` in `examples/segtree.cpp`. -/
def example_tree : SegTree (Int × Int) Int := SegTree.from_iter MyTraits example_data

/-! ## Specification vocabulary

The notions used to state and prove the properties: views of the node vector, the
algebra contract, logical leaf values, and the well-formedness of a tree. -/

section Spec

variable {Val Mod : Type} (T : Traits Val Mod)

/-- The `val` field of `m_data[i]`. -/
def vals (d : List (Node Val Mod)) (i : Nat) : Val := (rd T d i).val

/-- The `mod` field of `m_data[i]`. -/
def mods (d : List (Node Val Mod)) (i : Nat) : Mod := (rd T d i).mod

/-- The axioms of the algebra contract: `neutral` is a two-sided unit of the
associative `join`; `ident` is a two-sided unit of the associative `compose` and
acts trivially; `apply` distributes over `join` and turns `compose` into
composition. -/
structure Traits.Lawful {Val Mod : Type} (T : Traits Val Mod) : Prop where
  neutral_join : ∀ x, T.join T.neutral x = x
  join_neutral : ∀ x, T.join x T.neutral = x
  join_assoc : ∀ x y z, T.join (T.join x y) z = T.join x (T.join y z)
  apply_ident : ∀ x, T.apply T.ident x = x
  compose_ident : ∀ f, T.compose f T.ident = f
  ident_compose : ∀ f, T.compose T.ident f = f
  compose_assoc : ∀ f g h, T.compose (T.compose f g) h = T.compose f (T.compose g h)
  apply_join : ∀ f x y, T.apply f (T.join x y) = T.join (T.apply f x) (T.apply f y)
  apply_compose : ∀ f g x, T.apply (T.compose f g) x = T.apply f (T.apply g x)

/-- Join of a sequence taken left to right, starting from its first element;
`neutral` for the empty sequence. -/
def foldJoin {Val Mod : Type} (T : Traits Val Mod) : List Val → Val
  | [] => T.neutral
  | x :: rest => rest.foldl T.join x

/-- Node `v` lies at depth `e` of the implicit tree (the root `1` at depth 0). -/
def Lvl (e v : Nat) : Prop := 2 ^ e ≤ v ∧ v < 2 ^ (e + 1)

/-- The pending modifications of the `h` nearest proper ancestors of `v`, applied
to `x` from the parent of `v` upwards. -/
def liftN (d : List (Node Val Mod)) : Nat → Nat → Val → Val
  | 0, _, x => x
  | h + 1, v, x => liftN d h (v / 2) (T.apply (mods T d (v / 2)) x)

/-- The current logical value of the leaf with index `j` in a tree of depth `D`:
its stored value under its own and all its ancestors pending modifications. -/
def pt (d : List (Node Val Mod)) (D j : Nat) : Val :=
  liftN T d D j (T.apply (mods T d j) (vals T d j))

/-- Left-to-right join of the logical values of the `n` leaves from index `a`. -/
def leafAgg (d : List (Node Val Mod)) (D a n : Nat) : Val :=
  foldJoin T ((List.range' a n).map (pt T d D))

/-- The stored value of the internal node `v` is the join of the modified values
of its two children. -/
def NodeOK (d : List (Node Val Mod)) (v : Nat) : Prop :=
  vals T d v =
    T.join (T.apply (mods T d (2 * v)) (vals T d (2 * v)))
      (T.apply (mods T d (2 * v + 1)) (vals T d (2 * v + 1)))

/-- Well-formed tree of depth `D`: `m_nleaves = 2 ^ D`, the vector has
`2 * m_nleaves` entries, the logical length fits, and every internal node stores
the join of the modified values of its children. -/
structure WF (t : SegTree Val Mod) (D : Nat) : Prop where
  depth_ge : 2 ≤ D
  depth_le : D ≤ 62
  nleaves_eq : t.m_nleaves = 2 ^ D
  length_le : t.m_length ≤ t.m_nleaves
  size_eq : t.m_data.length = 2 * t.m_nleaves
  node_ok : ∀ v, 1 ≤ v → v < t.m_nleaves → NodeOK T t.m_data v

/-- The pending modifications of `v` and of its `h - 1` nearest proper ancestors,
applied to `x` from `v` upwards. -/
def lowN (d : List (Node Val Mod)) : Nat → Nat → Val → Val
  | 0, _, x => x
  | h + 1, v, x => lowN d h (v / 2) (T.apply (mods T d v) x)

/-- Push-downs at the nodes of `L`, in list order. -/
def pushList (d : List (Node Val Mod)) (L : List Nat) : List (Node Val Mod) :=
  L.foldl (fun d w => downprop T d w false) d

/-- The nodes `p >> i, p >> (i - 1), ..., p >> 1`. -/
def ancList (p : Nat) : Nat → List Nat
  | 0 => []
  | i + 1 => (p >>> (i + 1)) :: ancList p i

/-- The nodes `p >> i, q >> i, p >> (i - 1), q >> (i - 1), ..., p >> 1, q >> 1`. -/
def pairList (p q : Nat) : Nat → List Nat
  | 0 => []
  | i + 1 => (p >>> (i + 1)) :: (q >>> (i + 1)) :: pairList p q i

/-- Node `v` is `p` shifted right by at least one position: a proper ancestor of
`p` (or the unused index 0). -/
def PA (v p : Nat) : Prop := ∃ i, 1 ≤ i ∧ v = p / 2 ^ i

/-- Every proper ancestor of `p` has the identity as pending modification. -/
def AncIdent (d : List (Node Val Mod)) (p : Nat) : Prop :=
  ∀ i, 1 ≤ i → 1 ≤ p / 2 ^ i → mods T d (p / 2 ^ i) = T.ident

/-- The nodes visited by the push-down phase of `update`, in order. -/
def pushNodes (p q : Nat) : List Nat :=
  if p = q then ancList p (digits - clzll p - 1)
  else
    ancList (2 * (p >>> (digits - clzll (p ^^^ q))))
        (digits - clzll (p >>> (digits - clzll (p ^^^ q)))) ++
      pairList p q (digits - clzll (p ^^^ q) - 1)

/-- Relative to the reference vector `d0`, the vector `d` has `f` applied to the
logical value of exactly the leaves in `S`. -/
def Applied (D : Nat) (f : Mod) (d0 d : List (Node Val Mod)) (S : Nat → Prop) : Prop :=
  ∀ j, Lvl D j →
    (S j → pt T d D j = T.apply f (pt T d0 D j)) ∧ (¬ S j → pt T d D j = pt T d0 D j)

/-- The vector computed by `update` from the boundary leaves `p` and `q` (the body
of `SegTree::update` after the range has been clamped). -/
def update_data (d : List (Node Val Mod)) (p q : Nat) (f : Mod) : List (Node Val Mod) :=
  if p ≠ q then
    update_climb T
      (update_loop T f (p + q) p q
        (setMod T (setMod T (push_phase T d p q) p (T.compose f (mods T (push_phase T d p q) p))) q
          (T.compose f
            (mods T (setMod T (push_phase T d p q) p
              (T.compose f (mods T (push_phase T d p q) p))) q)))).1
      (update_loop T f (p + q) p q
        (setMod T (setMod T (push_phase T d p q) p (T.compose f (mods T (push_phase T d p q) p))) q
          (T.compose f
            (mods T (setMod T (push_phase T d p q) p
              (T.compose f (mods T (push_phase T d p q) p))) q)))).1
      (update_loop T f (p + q) p q
        (setMod T (setMod T (push_phase T d p q) p (T.compose f (mods T (push_phase T d p q) p))) q
          (T.compose f
            (mods T (setMod T (push_phase T d p q) p
              (T.compose f (mods T (push_phase T d p q) p))) q)))).2
  else
    update_climb T p p
      (setMod T (push_phase T d p q) p (T.compose f (mods T (push_phase T d p q) p)))

/-- The current logical value at position `i` of a tree of depth `D`. -/
def lv (t : SegTree Val Mod) (D i : Nat) : Val := pt T t.m_data D (t.m_nleaves + i)

/-- Trees obtained from one of the three constructors (with a length for which
the constructor allocates the full node vector, `length ≤ 2 ^ 62`) by any finite
sequence of `update` calls. -/
inductive Reachable : SegTree Val Mod → Prop
  | new_length (n : Nat) (hn : n ≤ 2 ^ 62) : Reachable (SegTree.new_length T n)
  | fill (n : Nat) (x : Val) (hn : n ≤ 2 ^ 62) : Reachable (SegTree.fill T n x)
  | from_iter (xs : List Val) (hn : xs.length ≤ 2 ^ 62) : Reachable (SegTree.from_iter T xs)
  | update (t : SegTree Val Mod) (first last : Nat) (f : Mod) (ht : Reachable t) :
      Reachable (t.update T first last f)

/-- The shape of a constructed tree of depth `D`, independent of the algebra:
`m_nleaves = 2 ^ D` with `2 ≤ D ≤ 62`, the logical length fits, and the vector has
`2 * m_nleaves` entries. -/
structure Shape (t : SegTree Val Mod) (D : Nat) : Prop where
  depth_ge : 2 ≤ D
  depth_le : D ≤ 62
  nleaves_eq : t.m_nleaves = 2 ^ D
  length_le : t.m_length ≤ t.m_nleaves
  size_eq : t.m_data.length = 2 * t.m_nleaves

/-- Node `u` lies strictly between the ancestors of `p` and of `q` on its level
and is the sibling of one of them: the nodes, besides `p` and `q`, onto which the
walk of `update` composes the modification. -/
def Target (p q u : Nat) : Prop :=
  ∃ h, p / 2 ^ h < u ∧ u < q / 2 ^ h ∧ (u / 2 = p / 2 ^ (h + 1) ∨ u / 2 = q / 2 ^ (h + 1))

/-- The padding of a tree of depth `D` is clean: every leaf beyond the logical
length stores `neutral()`, and neither it nor any of its ancestors carries a
pending modification. -/
def PadClean (t : SegTree Val Mod) (D : Nat) : Prop :=
  ∀ j, Lvl D j → t.m_nleaves + t.m_length ≤ j →
    vals T t.m_data j = T.neutral ∧ ∀ i, i ≤ D → mods T t.m_data (j / 2 ^ i) = T.ident

/-! ### Checked execution

A second reading of `query` and `update` in which every step the C++ leaves
undefined, or that would run forever, is an explicit failure `none`: a vector
access outside `[1, 2 * nleaves)` or outside the vector, `recalc`/`downprop` on a
node that is not internal, `__builtin_clzll(0)`, and a halving or wrapping loop
whose fuel runs out while its condition still holds. -/

/-- Checked read of `m_data[i]`. -/
def rdC (N : Nat) (d : List (Node Val Mod)) (i : Nat) : Option (Node Val Mod) :=
  if 1 ≤ i ∧ i < 2 * N ∧ i < d.length then some (rd T d i) else none

/-- Checked assignment `m_data[i].val = v`. -/
def setValC (N : Nat) (d : List (Node Val Mod)) (i : Nat) (v : Val) :
    Option (List (Node Val Mod)) :=
  if 1 ≤ i ∧ i < 2 * N ∧ i < d.length then some (setVal T d i v) else none

/-- Checked assignment `m_data[i].mod = m`. -/
def setModC (N : Nat) (d : List (Node Val Mod)) (i : Nat) (m : Mod) :
    Option (List (Node Val Mod)) :=
  if 1 ≤ i ∧ i < 2 * N ∧ i < d.length then some (setMod T d i m) else none

/-- Checked `__builtin_clzll`: undefined at 0. -/
def clzllC (x : Nat) : Option Nat := if x = 0 then none else some (clzll x)

/-- Checked `calc_nleaves`. -/
def calc_nleavesC (n : Nat) : Option Nat :=
  if n ≤ 4 then some 4 else (clzllC (n - 1)).map fun c => (1 <<< (digits - c)) % 2 ^ 64

/-- Checked `recalc`: the node must be internal. -/
def recalcC (N : Nat) (d : List (Node Val Mod)) (node : Nat) : Option (List (Node Val Mod)) :=
  if node < N then
    (rdC T N d (2 * node + 0)).bind fun l =>
    (rdC T N d (2 * node + 1)).bind fun r =>
    setValC T N d node (T.join (l.modval T) (r.modval T))
  else none

/-- Checked `downprop`: the node must be internal. -/
def downpropC (N : Nat) (d : List (Node Val Mod)) (node : Nat) (update_val : Bool) :
    Option (List (Node Val Mod)) :=
  if node < N then
    (if update_val then (rdC T N d node).bind fun nd => setValC T N d node (nd.modval T)
      else some d).bind fun d1 =>
    (rdC T N d1 node).bind fun a =>
    (rdC T N d1 (2 * node + 0)).bind fun b =>
    (setModC T N d1 (2 * node + 0) (T.compose a.mod b.mod)).bind fun d2 =>
    (rdC T N d2 node).bind fun a2 =>
    (rdC T N d2 (2 * node + 1)).bind fun c =>
    (setModC T N d2 (2 * node + 1) (T.compose a2.mod c.mod)).bind fun d3 =>
    setModC T N d3 node T.ident
  else none

/-- Checked two-pointer loop of `query`. -/
def query_loopC (N : Nat) (d : List (Node Val Mod)) :
    Nat → Nat → Nat → Val → Val → Option (Nat × Nat × Val × Val)
  | 0, p, q, left, right => if p / 2 ≠ q / 2 then none else some (p, q, left, right)
  | fuel + 1, p, q, left, right =>
    if p / 2 ≠ q / 2 then
      (if p % 2 = 0 then (rdC T N d (p + 1)).map fun nd => T.join left (nd.modval T)
        else some left).bind fun left1 =>
      (if q % 2 = 1 then (rdC T N d (q - 1)).map fun nd => T.join (nd.modval T) right
        else some right).bind fun right1 =>
      (rdC T N d (p / 2)).bind fun np =>
      (rdC T N d (q / 2)).bind fun nq =>
      query_loopC N d fuel (p / 2) (q / 2) (T.apply np.mod left1) (T.apply nq.mod right1)
    else some (p, q, left, right)

/-- Checked climbing loop of `query`. -/
def query_climbC (N : Nat) (d : List (Node Val Mod)) : Nat → Nat → Val → Option Val
  | 0, p, left => if p / 2 ≠ 0 then none else some left
  | fuel + 1, p, left =>
    if p / 2 ≠ 0 then
      (rdC T N d (p / 2)).bind fun nd => query_climbC N d fuel (p / 2) (T.apply nd.mod left)
    else some left

/-- Checked `SegTree::query`. -/
def SegTree.queryC (t : SegTree Val Mod) (first last : Nat) : Option Val :=
  let last := if last > t.m_length then t.m_length else last
  if last ≤ first then some T.neutral
  else
    let p := t.m_nleaves + first
    let q := t.m_nleaves + last - 1
    (rdC T t.m_nleaves t.m_data p).bind fun np =>
    if p ≠ q then
      (rdC T t.m_nleaves t.m_data q).bind fun nq =>
      (query_loopC T t.m_nleaves t.m_data (p + q) p q (np.modval T) (nq.modval T)).bind fun r =>
      query_climbC T t.m_nleaves t.m_data r.1 r.1 (T.join r.2.2.1 r.2.2.2)
    else query_climbC T t.m_nleaves t.m_data p p (np.modval T)

/-- Checked single-leaf push-down loop. -/
def push_singleC (N p : Nat) : Nat → List (Node Val Mod) → Option (List (Node Val Mod))
  | 0, d => some d
  | i + 1, d => (downpropC T N d (p >>> (i + 1)) false).bind fun d1 => push_singleC N p i d1

/-- Checked wrapping push-down loop. -/
def push_lcaC (N lca k : Nat) :
    Nat → Nat → List (Node Val Mod) → Option (List (Node Val Mod))
  | 0, i, d => if i < k then none else some d
  | fuel + 1, i, d =>
    if i < k then
      (downpropC T N d (lca >>> i) false).bind fun d1 => push_lcaC N lca k fuel (wrap_dec i) d1
    else some d

/-- Checked two-sided push-down loop. -/
def push_pairC (N p q : Nat) : Nat → List (Node Val Mod) → Option (List (Node Val Mod))
  | 0, d => some d
  | i + 1, d =>
    (downpropC T N d (p >>> (i + 1)) false).bind fun d1 =>
    (downpropC T N d1 (q >>> (i + 1)) false).bind fun d2 => push_pairC N p q i d2

/-- Checked push-down phase of `update`. -/
def push_phaseC (N : Nat) (d : List (Node Val Mod)) (p q : Nat) :
    Option (List (Node Val Mod)) :=
  if p = q then
    (clzllC p).bind fun c => push_singleC T N p (wrap_dec (digits - c)) d
  else
    (clzllC (p ^^^ q)).bind fun c1 =>
    (clzllC (p >>> (digits - c1))).bind fun c2 =>
    (push_lcaC T N (p >>> (digits - c1)) (digits - c2) (digits - c2 + 1)
      (wrap_dec (digits - c2)) d).bind fun d1 =>
    push_pairC T N p q (wrap_dec (digits - c1)) d1

/-- Checked two-pointer loop of `update`. -/
def update_loopC (N : Nat) (f : Mod) :
    Nat → Nat → Nat → List (Node Val Mod) → Option (Nat × List (Node Val Mod))
  | 0, p, q, d => if p / 2 ≠ q / 2 then none else some (p, d)
  | fuel + 1, p, q, d =>
    if p / 2 ≠ q / 2 then
      (if p % 2 = 0 then
        (rdC T N d (p + 1)).bind fun nd => setModC T N d (p + 1) (T.compose f nd.mod)
        else some d).bind fun d1 =>
      (if q % 2 = 1 then
        (rdC T N d1 (q - 1)).bind fun nd => setModC T N d1 (q - 1) (T.compose f nd.mod)
        else some d1).bind fun d2 =>
      (recalcC T N d2 (p / 2)).bind fun d3 =>
      (recalcC T N d3 (q / 2)).bind fun d4 => update_loopC N f fuel (p / 2) (q / 2) d4
    else some (p, d)

/-- Checked final loop of `update`. -/
def update_climbC (N : Nat) : Nat → Nat → List (Node Val Mod) → Option (List (Node Val Mod))
  | 0, p, d => if p / 2 ≠ 0 then none else some d
  | fuel + 1, p, d =>
    if p / 2 ≠ 0 then (recalcC T N d (p / 2)).bind fun d1 => update_climbC N fuel (p / 2) d1
    else some d

/-- Checked `SegTree::update`. -/
def SegTree.updateC (t : SegTree Val Mod) (first last : Nat) (f : Mod) :
    Option (SegTree Val Mod) :=
  let last := if last > t.m_length then t.m_length else last
  if last ≤ first then some t
  else
    let p := t.m_nleaves + first
    let q := t.m_nleaves + last - 1
    (push_phaseC T t.m_nleaves t.m_data p q).bind fun d0 =>
    (rdC T t.m_nleaves d0 p).bind fun np =>
    (setModC T t.m_nleaves d0 p (T.compose f np.mod)).bind fun d1 =>
    if p ≠ q then
      (rdC T t.m_nleaves d1 q).bind fun nq =>
      (setModC T t.m_nleaves d1 q (T.compose f nq.mod)).bind fun d2 =>
      (update_loopC T t.m_nleaves f (p + q) p q d2).bind fun r =>
      (update_climbC T t.m_nleaves r.1 r.1 r.2).map fun d3 =>
        (⟨t.m_length, t.m_nleaves, d3⟩ : SegTree Val Mod)
    else
      (update_climbC T t.m_nleaves p p d1).map fun d3 =>
        (⟨t.m_length, t.m_nleaves, d3⟩ : SegTree Val Mod)

end Spec

/-- The tree used to instantiate the theorems about reachable trees: built from
`[[1], [2], [3], [4], [5]]` in the affine algebra and updated once on `[1, 4)`. -/
def sample_tree : SegTree (List Int) (Int × Int) :=
  (SegTree.from_iter AffTraits [[1], [2], [3], [4], [5]]).update AffTraits 1 4 (2, 1)

/-- The tree used against C13: built from `[[1], [2], [3], [4], [5]]` in the
affine algebra and updated on `[0, 5)`, which leaves a pending modification on the
internal node 5. -/
def lazy_tree : SegTree (List Int) (Int × Int) :=
  (SegTree.from_iter AffTraits [[1], [2], [3], [4], [5]]).update AffTraits 0 5 (2, 1)


/-! ## Discrete Fourier transform (`efgen/dft.hpp`)

The element type `T` of the templates is a commutative ring `R`.  The array
argument `T A[]` is a function from indices to elements and an assignment
`A[i] = v` is `Function.update`.  The counting loops recurse on the number of
iterations left; the loop `for (i = 0; i < n; i += blocksz)` takes fuel and fails
with `none` when the fuel is used up before `i` reaches `n`.  A failed `assert`
is `none` as well. -/

section DftCode

variable {R : Type} [CommRing R]

/-- The loop `for (int b = 0; b < k; ++b) j = (j << 1) | ((i >> b) & 1);` of
`dft_permute`, with `cnt` iterations left. -/
def revbits_loop (i : Nat) : Nat → Nat → Nat → Nat
  | 0, _, j => j
  | cnt + 1, b, j => revbits_loop i cnt (b + 1) (((j <<< 1) % 2 ^ 64) ||| ((i >>> b) &&& 1))

/-- `std::swap(A[i], A[j])`. -/
def swap (A : Nat → R) (i j : Nat) : Nat → R :=
  Function.update (Function.update A i (A j)) j (A i)

/-- The loop `for (size_t i = 0; i < n; ++i) { ... if (i < j) std::swap(A[i], A[j]); }`
of `dft_permute`, with `cnt` iterations left. -/
def permute_loop (k : Nat) : Nat → Nat → (Nat → R) → (Nat → R)
  | 0, _, A => A
  | cnt + 1, i, A =>
    let j := revbits_loop i k 0 0
    permute_loop k cnt (i + 1) (if i < j then swap A i j else A)

/-- `dft_permute`. -/
def dft_permute (k : Nat) (A : Nat → R) : Nat → R :=
  let n := (1 <<< k) % 2 ^ 64
  permute_loop k n 0 A

/-- The loop `for (size_t lvl = k-1; lvl > 0; --lvl) omegas[lvl] = omegas[lvl+1] * omegas[lvl+1];`
of `dft`, started at counter `lvl`. -/
def omegas_loop : Nat → (Nat → R) → (Nat → R)
  | 0, omegas => omegas
  | lvl + 1, omegas =>
    omegas_loop lvl (Function.update omegas (lvl + 1) (omegas (lvl + 1 + 1) * omegas (lvl + 1 + 1)))

/-- The innermost loop `for (size_t j = 0; j < blocksz/2; ++j) { ... }` of `dft`
for the block starting at `i`, with `half = blocksz/2`, `w = omegas[lvl]` and
`cnt` iterations left. -/
def butterfly_loop (w : R) (i half : Nat) : Nat → Nat → R → (Nat → R) → (Nat → R)
  | 0, _, _, A => A
  | cnt + 1, j, ompow, A =>
    let a := A (i + j)
    let b := ompow * A (i + half + j)
    let A1 := Function.update A (i + j) (a + b)
    let A2 := Function.update A1 (i + half + j) (a - b)
    butterfly_loop w i half cnt (j + 1) (ompow * w) A2

/-- The loop `for (size_t i = 0; i < n; i += blocksz) { T ompow = 1; ... }` of
`dft`. -/
def block_loop (n blocksz : Nat) (w : R) : Nat → Nat → (Nat → R) → Option (Nat → R)
  | 0, i, A => if i < n then none else some A
  | fuel + 1, i, A =>
    if i < n then
      block_loop n blocksz w fuel ((i + blocksz) % 2 ^ 64)
        (butterfly_loop w i (blocksz / 2) (blocksz / 2) 0 1 A)
    else some A

/-- The loop `for (size_t lvl = 1; lvl <= k; ++lvl) { size_t blocksz = size_t(1) << lvl; ... }`
of `dft`, with `cnt` iterations left. -/
def level_loop (n : Nat) (omegas : Nat → R) : Nat → Nat → (Nat → R) → Option (Nat → R)
  | 0, _, A => some A
  | cnt + 1, lvl, A =>
    (block_loop n ((1 <<< lvl) % 2 ^ 64) (omegas lvl) n 0 A).bind fun A1 =>
      level_loop n omegas cnt (lvl + 1) A1

/-- `dft`.  The array `omegas` is uninitialised in the source except for the
entries the loop writes; the embedding starts it at zero. -/
def dft (n : Nat) (A : Nat → R) (omega : R) : Option (Nat → R) :=
  if n ≤ 1 then some A
  else
    let k := digits - clzll (n - 1)
    if n = (1 <<< k) % 2 ^ 64 then
      let A1 := dft_permute k A
      let omegas := omegas_loop (wrap_dec k) (Function.update (fun _ => (0 : R)) k omega)
      level_loop n omegas k 1 A1
    else none

end DftCode

/-! ### Vocabulary for the transform -/

/-- The number whose `k` low bits are those of `i` in reverse order:
`bitrev (b + 1) i = 2 * bitrev b i + bit b of i`. -/
def bitrev : Nat → Nat → Nat
  | 0, _ => 0
  | b + 1, i => 2 * bitrev b i + (i / 2 ^ b) % 2

/-- The `j`-th coefficient of the discrete Fourier transform of `A[0..n)` at
`omega`. -/
def dft_sum {R : Type} [CommRing R] (n : Nat) (A : Nat → R) (omega : R) (j : Nat) : R :=
  Finset.sum (Finset.range n) fun i => A i * omega ^ (i * j)

/-- Between levels `l` and `l + 1` of `dft` the array holds, in block `b` of size
`2 ^ l`, the transform of the subsequence of `a` with stride `2 ^ m` and offset
`bitrev m b`, at `omega ^ (2 ^ m)`. -/
def DftInv {R : Type} [CommRing R] (a : Nat → R) (omega : R) (l m : Nat) (A : Nat → R) : Prop :=
  ∀ b j, b < 2 ^ m → j < 2 ^ l →
    A (b * 2 ^ l + j) =
      Finset.sum (Finset.range (2 ^ l)) fun t => a (t * 2 ^ m + bitrev m b) * (omega ^ 2 ^ m) ^ (t * j)


/-! ## Reading and writing the node vector -/

section Views

variable {Val Mod : Type} (T : Traits Val Mod)

theorem modval_rd (d : List (Node Val Mod)) (i : Nat) :
    (rd T d i).modval T = T.apply (mods T d i) (vals T d i) := rfl

theorem rd_set (d : List (Node Val Mod)) (i j : Nat) (x : Node Val Mod) :
    rd T (d.set i x) j = if j = i ∧ i < d.length then x else rd T d j := by
  unfold rd
  rw [List.getD_eq_getElem?_getD, List.getD_eq_getElem?_getD, List.getElem?_set]
  by_cases h : i = j
  · subst h
    by_cases h2 : i < d.length
    · simp [h2]
    · simp [h2, List.getElem?_eq_none (Nat.le_of_not_lt h2)]
  · have h3 : ¬ j = i := fun e => h e.symm
    simp [h, h3]

@[simp] theorem length_setVal (d : List (Node Val Mod)) (i : Nat) (v : Val) :
    (setVal T d i v).length = d.length := by
  simp [setVal]

@[simp] theorem length_setMod (d : List (Node Val Mod)) (i : Nat) (m : Mod) :
    (setMod T d i m).length = d.length := by
  simp [setMod]

@[simp] theorem mods_setVal (d : List (Node Val Mod)) (i j : Nat) (v : Val) :
    mods T (setVal T d i v) j = mods T d j := by
  unfold mods setVal
  rw [rd_set]
  split
  · rename_i h; rw [h.1]
  · rfl

@[simp] theorem vals_setMod (d : List (Node Val Mod)) (i j : Nat) (m : Mod) :
    vals T (setMod T d i m) j = vals T d j := by
  unfold vals setMod
  rw [rd_set]
  split
  · rename_i h; rw [h.1]
  · rfl

theorem vals_setVal (d : List (Node Val Mod)) (i j : Nat) (v : Val) (hi : i < d.length) :
    vals T (setVal T d i v) j = if j = i then v else vals T d j := by
  unfold vals setVal
  rw [rd_set]
  by_cases h : j = i <;> simp [h, hi]

theorem mods_setMod (d : List (Node Val Mod)) (i j : Nat) (m : Mod) (hi : i < d.length) :
    mods T (setMod T d i m) j = if j = i then m else mods T d j := by
  unfold mods setMod
  rw [rd_set]
  by_cases h : j = i <;> simp [h, hi]

@[simp] theorem length_recalc (d : List (Node Val Mod)) (v : Nat) :
    (recalc T d v).length = d.length := by
  simp [recalc]

@[simp] theorem mods_recalc (d : List (Node Val Mod)) (v j : Nat) :
    mods T (recalc T d v) j = mods T d j := by
  simp [recalc]

theorem vals_recalc (d : List (Node Val Mod)) (v j : Nat) (hv : v < d.length) :
    vals T (recalc T d v) j =
      if j = v then
        T.join (T.apply (mods T d (2 * v)) (vals T d (2 * v)))
          (T.apply (mods T d (2 * v + 1)) (vals T d (2 * v + 1)))
      else vals T d j := by
  unfold recalc
  rw [vals_setVal T d v j _ hv]
  rfl

@[simp] theorem length_downprop (d : List (Node Val Mod)) (v : Nat) (b : Bool) :
    (downprop T d v b).length = d.length := by
  cases b <;> simp [downprop]

@[simp] theorem vals_downprop (d : List (Node Val Mod)) (v j : Nat) :
    vals T (downprop T d v false) j = vals T d j := by
  simp [downprop]

theorem mods_downprop (d : List (Node Val Mod)) (v j : Nat) (hv : 1 ≤ v)
    (hlen : 2 * v + 1 < d.length) :
    mods T (downprop T d v false) j =
      if j = v then T.ident
      else if j = 2 * v then T.compose (mods T d v) (mods T d (2 * v))
      else if j = 2 * v + 1 then T.compose (mods T d v) (mods T d (2 * v + 1))
      else mods T d j := by
  simp only [downprop, Bool.false_eq_true, if_false, Nat.add_zero]
  rw [mods_setMod T _ v j _ (by simp; omega)]
  by_cases h1 : j = v
  · simp [h1]
  · rw [if_neg h1, if_neg h1, mods_setMod T _ (2 * v + 1) j _ (by simp; omega)]
    by_cases h2 : j = 2 * v + 1
    · have h3 : ¬ (2 * v + 1 = 2 * v) := by omega
      have h4 : ¬ (v = 2 * v) := by omega
      subst h2
      simp only [if_true, if_neg h3]
      show T.compose (mods T _ v) (mods T _ (2 * v + 1)) = _
      rw [mods_setMod T _ (2 * v) v _ (by omega), mods_setMod T _ (2 * v) (2 * v + 1) _ (by omega),
        if_neg h4, if_neg h3]
    · rw [if_neg h2, if_neg h2, mods_setMod T _ (2 * v) j _ (by omega)]
      by_cases h5 : j = 2 * v
      · simp only [h5, if_true]; rfl
      · simp [h5]

end Views

/-! ## The algebra contract and the meaning of a tree -/

section Meaning

variable {Val Mod : Type} (T : Traits Val Mod)

theorem Lvl.half {e v : Nat} (h : Lvl (e + 1) v) : Lvl e (v / 2) := by
  unfold Lvl at *
  have h1 : 2 ^ (e + 1) = 2 * 2 ^ e := by rw [pow_succ]; omega
  have h2 : 2 ^ (e + 1 + 1) = 2 * 2 ^ (e + 1) := by rw [pow_succ]; omega
  omega

theorem Lvl.pos {e v : Nat} (h : Lvl e v) : 1 ≤ v := by
  have := Nat.one_le_two_pow (n := e)
  unfold Lvl at h
  omega

theorem Lvl.div_pow {e v : Nat} (i : Nat) (h : Lvl (e + i) v) : Lvl e (v / 2 ^ i) := by
  induction i generalizing v with
  | zero => simpa using h
  | succ i ih =>
    have h1 : Lvl (e + i) (v / 2) := Lvl.half (by simpa [Nat.add_assoc] using h)
    have h2 := ih h1
    rwa [Nat.div_div_eq_div_mul, ← pow_succ'] at h2

theorem Lvl.unique {e e2 v : Nat} (h : Lvl e v) (h2 : Lvl e2 v) : e = e2 := by
  unfold Lvl at *
  by_contra hne
  rcases Nat.lt_or_gt_of_ne hne with hl | hl
  · have := Nat.pow_le_pow_right (n := 2) (by norm_num) (Nat.succ_le_of_lt hl)
    omega
  · have := Nat.pow_le_pow_right (n := 2) (by norm_num) (Nat.succ_le_of_lt hl)
    omega

theorem div_pow_succ (v i : Nat) : v / 2 / 2 ^ i = v / 2 ^ (i + 1) := by
  rw [Nat.div_div_eq_div_mul, ← pow_succ']

theorem liftN_congr (d1 d2 : List (Node Val Mod)) (h v : Nat) (x : Val)
    (hm : ∀ i, 1 ≤ i → i ≤ h → mods T d1 (v / 2 ^ i) = mods T d2 (v / 2 ^ i)) :
    liftN T d1 h v x = liftN T d2 h v x := by
  induction h generalizing v x with
  | zero => rfl
  | succ h ih =>
    simp only [liftN]
    have h1 := hm 1 (le_refl 1) (by omega)
    simp only [pow_one] at h1
    rw [h1]
    apply ih
    intro i hi1 hi2
    rw [div_pow_succ]
    exact hm (i + 1) (by omega) (by omega)

theorem liftN_ident (hT : T.Lawful) (d : List (Node Val Mod)) (h v : Nat) (x : Val)
    (hm : ∀ i, 1 ≤ i → i ≤ h → mods T d (v / 2 ^ i) = T.ident) :
    liftN T d h v x = x := by
  induction h generalizing v x with
  | zero => rfl
  | succ h ih =>
    simp only [liftN]
    have h1 := hm 1 (le_refl 1) (by omega)
    simp only [pow_one] at h1
    rw [h1, hT.apply_ident]
    apply ih
    intro i hi1 hi2
    rw [div_pow_succ]
    exact hm (i + 1) (by omega) (by omega)

theorem liftN_join (hT : T.Lawful) (d : List (Node Val Mod)) (h v : Nat) (x y : Val) :
    liftN T d h v (T.join x y) = T.join (liftN T d h v x) (liftN T d h v y) := by
  induction h generalizing v x y with
  | zero => rfl
  | succ h ih => simp only [liftN]; rw [hT.apply_join, ih]

theorem liftN_add (d : List (Node Val Mod)) (a b v : Nat) (x : Val) :
    liftN T d (a + b) v x = liftN T d b (v / 2 ^ a) (liftN T d a v x) := by
  induction a generalizing v x with
  | zero => simp [liftN]
  | succ a ih =>
    rw [show a + 1 + b = (a + b) + 1 by omega]
    simp only [liftN]
    rw [ih, div_pow_succ]

theorem liftN_sibling (d : List (Node Val Mod)) (h v w : Nat) (x : Val) (hvw : v / 2 = w / 2) :
    liftN T d h v x = liftN T d h w x := by
  cases h with
  | zero => rfl
  | succ h => simp only [liftN]; rw [hvw]

theorem query_climb_eq (d : List (Node Val Mod)) (e fuel p : Nat) (x : Val)
    (hp : Lvl e p) (hf : p ≤ fuel) :
    query_climb T d fuel p x = liftN T d e p x := by
  induction e generalizing fuel p x with
  | zero =>
    have hp1 : p = 1 := by unfold Lvl at hp; simp at hp; omega
    subst hp1
    cases fuel with
    | zero => rfl
    | succ fuel => simp [query_climb, liftN]
  | succ e ih =>
    have hh := Lvl.half hp
    have hpos := Lvl.pos hh
    cases fuel with
    | zero => have := Lvl.pos hp; omega
    | succ fuel =>
      simp only [query_climb, liftN]
      rw [if_pos (by omega)]
      exact ih fuel (p / 2) _ hh (by omega)

theorem foldl_join_eq (hT : T.Lawful) (a : Val) (l : List Val) :
    l.foldl T.join a = T.join a (foldJoin T l) := by
  induction l generalizing a with
  | nil => simp [foldJoin, hT.join_neutral]
  | cons x rest ih =>
    simp only [List.foldl_cons, foldJoin]
    rw [ih (T.join a x), ih x, hT.join_assoc]

theorem foldJoin_append (hT : T.Lawful) (l1 l2 : List Val) :
    foldJoin T (l1 ++ l2) = T.join (foldJoin T l1) (foldJoin T l2) := by
  cases l1 with
  | nil => simp [foldJoin, hT.neutral_join]
  | cons x rest =>
    show List.foldl T.join x (rest ++ l2) = T.join (List.foldl T.join x rest) (foldJoin T l2)
    rw [List.foldl_append, foldl_join_eq T hT]

theorem foldJoin_eq_foldl (hT : T.Lawful) (l : List Val) :
    foldJoin T l = l.foldl T.join T.neutral := by
  rw [foldl_join_eq T hT, hT.neutral_join]

theorem leafAgg_add (hT : T.Lawful) (d : List (Node Val Mod)) (D a m n : Nat) :
    leafAgg T d D a (m + n) = T.join (leafAgg T d D a m) (leafAgg T d D (a + m) n) := by
  unfold leafAgg
  have h := List.range'_append a m n 1
  rw [Nat.one_mul] at h
  rw [show m + n = n + m by omega, ← h, List.map_append, foldJoin_append T hT]

theorem leafAgg_one (d : List (Node Val Mod)) (D a : Nat) :
    leafAgg T d D a 1 = pt T d D a := by
  simp [leafAgg, foldJoin]

theorem Lvl.double {e v : Nat} (h : Lvl e v) : Lvl (e + 1) (2 * v) := by
  unfold Lvl at *
  have h1 : 2 ^ (e + 1) = 2 * 2 ^ e := by rw [pow_succ]; omega
  have h2 : 2 ^ (e + 1 + 1) = 2 * 2 ^ (e + 1) := by rw [pow_succ]; omega
  omega

theorem Lvl.double_succ {e v : Nat} (h : Lvl e v) : Lvl (e + 1) (2 * v + 1) := by
  unfold Lvl at *
  have h1 : 2 ^ (e + 1) = 2 * 2 ^ e := by rw [pow_succ]; omega
  have h2 : 2 ^ (e + 1 + 1) = 2 * 2 ^ (e + 1) := by rw [pow_succ]; omega
  omega

theorem Lvl.lt_of_lt {e e2 v : Nat} (h : Lvl e v) (he : e < e2) : v < 2 ^ e2 := by
  have := Nat.pow_le_pow_right (n := 2) (by norm_num) (Nat.succ_le_of_lt he)
  unfold Lvl at h
  omega

/-- The modified value of a node, lifted through its ancestors, is the join of the
logical values of the leaves below it. -/
theorem subtree_agg (hT : T.Lawful) (d : List (Node Val Mod)) (D : Nat)
    (hok : ∀ u, 1 ≤ u → u < 2 ^ D → NodeOK T d u) (h e v : Nat) (hD : e + h = D)
    (hv : Lvl e v) :
    liftN T d e v (T.apply (mods T d v) (vals T d v)) = leafAgg T d D (v * 2 ^ h) (2 ^ h) := by
  induction h generalizing e v with
  | zero =>
    have he : e = D := by omega
    subst he
    simp only [pow_zero, Nat.mul_one]
    rw [leafAgg_one]
    rfl
  | succ h ih =>
    have hvok := hok v hv.pos (hv.lt_of_lt (by omega))
    unfold NodeOK at hvok
    rw [hvok, hT.apply_join, liftN_join T hT]
    have i1 := ih (e + 1) (2 * v) (by omega) hv.double
    have i2 := ih (e + 1) (2 * v + 1) (by omega) hv.double_succ
    simp only [liftN] at i1 i2
    rw [show 2 * v / 2 = v by omega] at i1
    rw [show (2 * v + 1) / 2 = v by omega] at i2
    rw [i1, i2, pow_succ, show 2 ^ h * 2 = 2 ^ h + 2 ^ h by omega, leafAgg_add T hT]
    have e1 : v * (2 ^ h + 2 ^ h) = 2 * v * 2 ^ h := by ring
    have e2 : 2 * v * 2 ^ h + 2 ^ h = (2 * v + 1) * 2 ^ h := by ring
    rw [e1, e2]

theorem half_mul (p X : Nat) : p / 2 * (2 * X) + (p % 2) * X = p * X := by
  conv_rhs => rw [← Nat.div_add_mod p 2]
  ring

theorem query_loop_spec (hT : T.Lawful) (d : List (Node Val Mod)) (D : Nat)
    (hok : ∀ u, 1 ≤ u → u < 2 ^ D → NodeOK T d u) (P0 Q0 : Nat) :
    ∀ (fuel h e p q : Nat) (left right : Val), e + h = D → Lvl e p → Lvl e q → p < q →
      p + q ≤ fuel → p * 2 ^ h ≤ P0 → P0 < p * 2 ^ h + 2 ^ h → q * 2 ^ h ≤ Q0 →
      Q0 < q * 2 ^ h + 2 ^ h →
      liftN T d e p left = leafAgg T d D P0 (p * 2 ^ h + 2 ^ h - P0) →
      liftN T d e q right = leafAgg T d D (q * 2 ^ h) (Q0 + 1 - q * 2 ^ h) →
      query_climb T d (query_loop T d fuel p q left right).1
          (query_loop T d fuel p q left right).1
          (T.join (query_loop T d fuel p q left right).2.2.1
            (query_loop T d fuel p q left right).2.2.2)
        = leafAgg T d D P0 (Q0 + 1 - P0) := by
  intro fuel
  induction fuel with
  | zero =>
    intro h e p q left right _ hp hq hpq hf
    have := hp.pos
    omega
  | succ fuel ih =>
    intro h e p q left right hD hp hq hpq hf hP1 hP2 hQ1 hQ2 hl hr
    by_cases hne : p / 2 ≠ q / 2
    · -- one more level
      cases e with
      | zero =>
        unfold Lvl at hp hq
        simp at hp hq
        omega
      | succ e =>
        simp only [query_loop, if_pos hne]
        have hX : 2 ^ (h + 1) = 2 * 2 ^ h := by rw [pow_succ]; omega
        have hpm := half_mul p (2 ^ h)
        have hqm := half_mul q (2 ^ h)
        have hp1 : Lvl (e + 1) (p + 1) := by unfold Lvl at *; omega
        have hq1 : Lvl (e + 1) (q - 1) := by unfold Lvl at *; omega
        apply ih (h + 1) e (p / 2) (q / 2) _ _ (by omega) hp.half hq.half (by omega) (by omega)
        · rw [hX]
          rcases Nat.mod_two_eq_zero_or_one p with h0 | h0 <;> rw [h0] at hpm <;> simp at hpm <;> omega
        · rw [hX]
          rcases Nat.mod_two_eq_zero_or_one p with h0 | h0 <;> rw [h0] at hpm <;> simp at hpm <;> omega
        · rw [hX]
          rcases Nat.mod_two_eq_zero_or_one q with h0 | h0 <;> rw [h0] at hqm <;> simp at hqm <;> omega
        · rw [hX]
          rcases Nat.mod_two_eq_zero_or_one q with h0 | h0 <;> rw [h0] at hqm <;> simp at hqm <;> omega
        · -- left accumulator
          show liftN T d (e + 1) p _ = _
          rw [hX]
          rcases Nat.mod_two_eq_zero_or_one p with h0 | h0
          · rw [if_pos h0, liftN_join T hT, hl, liftN_sibling T d (e + 1) p (p + 1) _ (by omega),
              modval_rd, subtree_agg T hT d D hok h (e + 1) (p + 1) hD hp1]
            rw [h0] at hpm
            simp at hpm
            rw [show p / 2 * (2 * 2 ^ h) + 2 * 2 ^ h - P0 = (p * 2 ^ h + 2 ^ h - P0) + 2 ^ h by omega,
              leafAgg_add T hT]
            congr 2
            rw [Nat.add_mul]
            omega
          · rw [if_neg (by omega), hl]
            rw [h0] at hpm
            simp at hpm
            congr 1
            omega
        · -- right accumulator
          show liftN T d (e + 1) q _ = _
          rw [hX]
          rcases Nat.mod_two_eq_zero_or_one q with h0 | h0
          · rw [if_neg (by omega), hr]
            rw [h0] at hqm
            simp at hqm
            rw [hqm]
          · rw [if_pos h0, liftN_join T hT, hr, liftN_sibling T d (e + 1) q (q - 1) _ (by omega),
              modval_rd, subtree_agg T hT d D hok h (e + 1) (q - 1) hD hq1]
            rw [h0] at hqm
            simp at hqm
            have e1 : (q - 1) * 2 ^ h = q / 2 * (2 * 2 ^ h) := by
              rw [Nat.sub_mul]
              omega
            rw [show Q0 + 1 - q / 2 * (2 * 2 ^ h) = 2 ^ h + (Q0 + 1 - q * 2 ^ h) by omega,
              leafAgg_add T hT, e1]
            congr 2
            omega
    · -- the two pointers are siblings
      have heq : p / 2 = q / 2 := by omega
      simp only [query_loop, if_neg hne]
      rw [query_climb_eq T d e p p _ hp (le_refl _), liftN_join T hT, hl,
        liftN_sibling T d e p q right heq, hr]
      have hq1 : q = p + 1 := by omega
      subst hq1
      rw [Nat.add_mul, Nat.one_mul] at hQ1 hQ2 ⊢
      rw [show Q0 + 1 - P0 = (p * 2 ^ h + 2 ^ h - P0) + (Q0 + 1 - (p * 2 ^ h + 2 ^ h)) by omega,
        leafAgg_add T hT]
      congr 2
      omega

theorem lvl_leaf (D i : Nat) (hi : i < 2 ^ D) : Lvl D (2 ^ D + i) := by
  unfold Lvl
  have : 2 ^ (D + 1) = 2 * 2 ^ D := by rw [pow_succ]; omega
  omega

theorem query_point (t : SegTree Val Mod) (D : Nat) (hw : WF T t D) (i : Nat)
    (hi : i < t.m_length) :
    t.query T i (i + 1) = pt T t.m_data D (t.m_nleaves + i) := by
  have hN := hw.nleaves_eq
  have hl := hw.length_le
  have hc : (if i + 1 > t.m_length then t.m_length else i + 1) = i + 1 := if_neg (by omega)
  unfold SegTree.query
  simp only [hc]
  rw [if_neg (by omega), if_neg (by omega)]
  rw [query_climb_eq T _ D _ _ _ (by rw [hN]; exact lvl_leaf D i (by omega)) (le_refl _)]
  rfl

theorem query_spec (hT : T.Lawful) (t : SegTree Val Mod) (D : Nat) (hw : WF T t D)
    (first last : Nat) (hfl : first < last) (hl : last ≤ t.m_length) :
    t.query T first last = leafAgg T t.m_data D (t.m_nleaves + first) (last - first) := by
  have hN := hw.nleaves_eq
  have hlen := hw.length_le
  by_cases hone : last = first + 1
  · subst hone
    rw [query_point T t D hw first (by omega), Nat.add_sub_cancel_left, leafAgg_one]
  · have hc : (if last > t.m_length then t.m_length else last) = last := if_neg (by omega)
    unfold SegTree.query
    simp only [hc]
    rw [if_neg (by omega), if_pos (by omega)]
    have hok : ∀ u, 1 ≤ u → u < 2 ^ D → NodeOK T t.m_data u := by
      intro u h1 h2
      exact hw.node_ok u h1 (by omega)
    have hP : Lvl D (t.m_nleaves + first) := by rw [hN]; exact lvl_leaf D first (by omega)
    have hQ : Lvl D (t.m_nleaves + last - 1) := by
      rw [show t.m_nleaves + last - 1 = 2 ^ D + (last - 1) by omega]
      exact lvl_leaf D (last - 1) (by omega)
    have key := query_loop_spec T hT t.m_data D hok (t.m_nleaves + first) (t.m_nleaves + last - 1)
      (t.m_nleaves + first + (t.m_nleaves + last - 1)) 0 D (t.m_nleaves + first)
      (t.m_nleaves + last - 1) ((rd T t.m_data (t.m_nleaves + first)).modval T)
      ((rd T t.m_data (t.m_nleaves + last - 1)).modval T) (by omega) hP hQ (by omega)
      (le_refl _) (by simp) (by simp) (by simp) (by simp)
      (by
        simp only [pow_zero, Nat.mul_one, Nat.add_sub_cancel_left]
        rw [leafAgg_one]; rfl)
      (by
        simp only [pow_zero, Nat.mul_one]
        rw [show t.m_nleaves + last - 1 + 1 - (t.m_nleaves + last - 1) = 1 by omega, leafAgg_one]
        rfl)
    rw [key]
    congr 1
    omega

/-! ### Paths and the push-down step -/

theorem exists_lvl (w : Nat) (hw : 1 ≤ w) : ∃ e, Lvl e w :=
  ⟨Nat.log2 w, Nat.log2_self_le (by omega), Nat.lt_log2_self⟩

theorem Lvl.lt_depth {e D w : Nat} (h : Lvl e w) (hD : w < 2 ^ D) : e < D := by
  by_contra hne
  have := Nat.pow_le_pow_right (n := 2) (by norm_num) (Nat.le_of_not_lt hne)
  unfold Lvl at h
  omega

theorem Lvl.ge_of_le {e e2 v : Nat} (h : Lvl e v) (he : e2 ≤ e) : 2 ^ e2 ≤ v := by
  have := Nat.pow_le_pow_right (n := 2) (by norm_num) he
  unfold Lvl at h
  omega

theorem path_lvl {D j : Nat} (hj : Lvl D j) (i : Nat) (hi : i ≤ D) : Lvl (D - i) (j / 2 ^ i) := by
  apply Lvl.div_pow
  rwa [Nat.sub_add_cancel hi]

theorem lowN_congr (d1 d2 : List (Node Val Mod)) (h v : Nat) (x : Val)
    (hm : ∀ i, i < h → mods T d1 (v / 2 ^ i) = mods T d2 (v / 2 ^ i)) :
    lowN T d1 h v x = lowN T d2 h v x := by
  induction h generalizing v x with
  | zero => rfl
  | succ h ih =>
    simp only [lowN]
    have h1 := hm 0 (by omega)
    simp only [pow_zero, Nat.div_one] at h1
    rw [h1]
    apply ih
    intro i hi
    rw [div_pow_succ]
    exact hm (i + 1) (by omega)

theorem lowN_succ_top (d : List (Node Val Mod)) (h v : Nat) (x : Val) :
    lowN T d (h + 1) v x = T.apply (mods T d (v / 2 ^ h)) (lowN T d h v x) := by
  induction h generalizing v x with
  | zero => simp [lowN]
  | succ h ih =>
    rw [lowN, ih, div_pow_succ]
    rfl

theorem liftN_split (d : List (Node Val Mod)) (e h j : Nat) (x : Val) :
    liftN T d (e + h) j (T.apply (mods T d j) x) =
      liftN T d e (j / 2 ^ h) (T.apply (mods T d (j / 2 ^ h)) (lowN T d h j x)) := by
  induction h generalizing j x with
  | zero => simp [lowN]
  | succ h ih =>
    rw [show e + (h + 1) = (e + h) + 1 by omega]
    simp only [liftN, lowN]
    rw [ih, div_pow_succ]

theorem pt_split (d : List (Node Val Mod)) (D e h j : Nat) (hD : e + h = D) :
    pt T d D j =
      liftN T d e (j / 2 ^ h) (T.apply (mods T d (j / 2 ^ h)) (lowN T d h j (vals T d j))) := by
  unfold pt
  rw [← hD, liftN_split]

theorem pt_congr (d1 d2 : List (Node Val Mod)) (D j : Nat)
    (hm : ∀ i, i ≤ D → mods T d1 (j / 2 ^ i) = mods T d2 (j / 2 ^ i))
    (hv : vals T d1 j = vals T d2 j) : pt T d1 D j = pt T d2 D j := by
  unfold pt
  have h0 := hm 0 (by omega)
  simp only [pow_zero, Nat.div_one] at h0
  rw [h0, hv]
  exact liftN_congr T d1 d2 D j _ (fun i _ hi => hm i hi)

/-- A push-down at an internal node leaves every logical leaf value unchanged. -/
theorem pt_downprop (hT : T.Lawful) (d : List (Node Val Mod)) (D w j : Nat)
    (hlen : d.length = 2 * 2 ^ D) (hw1 : 1 ≤ w) (hw2 : w < 2 ^ D) (hj : Lvl D j) :
    pt T (downprop T d w false) D j = pt T d D j := by
  obtain ⟨e, he⟩ := exists_lvl w hw1
  have heD : e < D := he.lt_depth hw2
  obtain ⟨h, rfl⟩ : ∃ h, D = e + (h + 1) := ⟨D - e - 1, by omega⟩
  have hm := fun u => mods_downprop T d w u hw1 (by omega)
  have hwle : 2 ^ e ≤ w := he.1
  have hwlt : w < 2 ^ (e + 1) := he.2
  have hpw : 2 ^ (e + 1) = 2 * 2 ^ e := by rw [pow_succ]; omega
  have hs : Lvl e (j / 2 ^ (h + 1)) := by
    have := path_lvl hj (h + 1) (by omega)
    rwa [show e + (h + 1) - (h + 1) = e by omega] at this
  -- nodes strictly above level `e` keep their modification
  have hup : ∀ y, liftN T (downprop T d w false) e (j / 2 ^ (h + 1)) y =
      liftN T d e (j / 2 ^ (h + 1)) y := by
    intro y
    apply liftN_congr
    intro i hi1 hi2
    have hl := Lvl.div_pow (e := e - i) i (by rwa [Nat.sub_add_cancel hi2])
    have hlt : j / 2 ^ (h + 1) / 2 ^ i < 2 ^ e := hl.lt_of_lt (by omega)
    rw [hm, if_neg (by omega), if_neg (by omega), if_neg (by omega)]
  -- nodes below level `e + 1` keep their modification
  have hlow : ∀ y, lowN T (downprop T d w false) h j y = lowN T d h j y := by
    intro y
    apply lowN_congr
    intro i hi
    have hl := path_lvl hj i (by omega)
    have hge : 2 ^ (e + 2) ≤ j / 2 ^ i := hl.ge_of_le (by omega)
    have hpw2 : 2 ^ (e + 2) = 4 * 2 ^ e := by rw [pow_succ, pow_succ]; omega
    rw [hm, if_neg (by omega), if_neg (by omega), if_neg (by omega)]
  have hc : Lvl (e + 1) (j / 2 ^ h) := by
    have := path_lvl hj h (by omega)
    rwa [show e + (h + 1) - h = e + 1 by omega] at this
  have hcs : j / 2 ^ h / 2 = j / 2 ^ (h + 1) := by
    rw [Nat.div_div_eq_div_mul, ← pow_succ]
  rw [pt_split T _ _ e (h + 1) j rfl, pt_split T d _ e (h + 1) j rfl, hup, vals_downprop,
    lowN_succ_top, lowN_succ_top, hlow]
  congr 1
  by_cases hsw : j / 2 ^ (h + 1) = w
  · rw [hsw, hm w, if_pos rfl, hT.apply_ident, hm (j / 2 ^ h), if_neg (by unfold Lvl at hc; omega)]
    rcases Nat.mod_two_eq_zero_or_one (j / 2 ^ h) with h0 | h0
    · have hc2 : j / 2 ^ h = 2 * w := by omega
      rw [if_pos hc2, hT.apply_compose, hc2]
    · have hc2 : j / 2 ^ h = 2 * w + 1 := by omega
      rw [if_neg (by omega), if_pos hc2, hT.apply_compose, hc2]
  · have e1 : mods T (downprop T d w false) (j / 2 ^ (h + 1)) = mods T d (j / 2 ^ (h + 1)) := by
      rw [hm, if_neg hsw, if_neg (by unfold Lvl at hs; omega), if_neg (by unfold Lvl at hs; omega)]
    have e2 : mods T (downprop T d w false) (j / 2 ^ h) = mods T d (j / 2 ^ h) := by
      rw [hm, if_neg (by unfold Lvl at hc; omega), if_neg (by omega), if_neg (by omega)]
    rw [e1, e2]

/-- A push-down at `w` keeps the stored-value equation of every node other than
`w` and its parent. -/
theorem nodeOK_downprop (d : List (Node Val Mod)) (w v : Nat) (hw1 : 1 ≤ w)
    (hlen : 2 * w + 1 < d.length) (h1 : v ≠ w) (h2 : v ≠ w / 2) (hok : NodeOK T d v) :
    NodeOK T (downprop T d w false) v := by
  unfold NodeOK at *
  simp only [vals_downprop]
  rw [mods_downprop T d w _ hw1 hlen, mods_downprop T d w _ hw1 hlen]
  rw [if_neg (by omega), if_neg (by omega), if_neg (by omega), if_neg (by omega),
    if_neg (by omega), if_neg (by omega)]
  exact hok

/-! ### The push-down phase as a list of push-downs -/

theorem push_single_eq (p i : Nat) (d : List (Node Val Mod)) :
    push_single T p i d = pushList T d (ancList p i) := by
  induction i generalizing d with
  | zero => rfl
  | succ i ih => simp only [push_single, ancList, pushList, List.foldl_cons]; exact ih _

theorem push_pair_eq (p q i : Nat) (d : List (Node Val Mod)) :
    push_pair T p q i d = pushList T d (pairList p q i) := by
  induction i generalizing d with
  | zero => rfl
  | succ i ih => simp only [push_pair, pairList, pushList, List.foldl_cons]; exact ih _

theorem shift_double (c j : Nat) : (2 * c) >>> (j + 1) = c >>> j := by
  rw [Nat.shiftRight_eq_div_pow, Nat.shiftRight_eq_div_pow, pow_succ', ← Nat.div_div_eq_div_mul]
  congr 1
  omega

theorem push_lca_eq (lca k : Nat) (hk : k < 2 ^ 64) (i fuel : Nat) (d : List (Node Val Mod))
    (hi : i < k) (hf : i + 2 ≤ fuel) :
    push_lca T lca k fuel i d = pushList T d (ancList (2 * lca) (i + 1)) := by
  induction i generalizing d fuel with
  | zero =>
    obtain ⟨f, rfl⟩ : ∃ f, fuel = f + 2 := ⟨fuel - 2, by omega⟩
    have hw : ¬ wrap_dec 0 < k := by unfold wrap_dec; omega
    simp only [push_lca, if_pos hi, if_neg hw, ancList, pushList, List.foldl_cons, List.foldl_nil,
      shift_double]
  | succ i ih =>
    obtain ⟨f, rfl⟩ : ∃ f, fuel = f + 1 := ⟨fuel - 1, by omega⟩
    have hw : wrap_dec (i + 1) = i := by unfold wrap_dec; omega
    rw [push_lca, if_pos hi, hw, ih f _ (by omega) (by omega)]
    conv_rhs => rw [ancList, pushList, List.foldl_cons, shift_double]
    rfl

theorem mem_ancList (p i w : Nat) :
    w ∈ ancList p i ↔ ∃ j, 1 ≤ j ∧ j ≤ i ∧ w = p / 2 ^ j := by
  induction i with
  | zero =>
    simp only [ancList, List.not_mem_nil, false_iff]
    rintro ⟨j, h1, h2, _⟩
    omega
  | succ i ih =>
    simp only [ancList, List.mem_cons, ih, Nat.shiftRight_eq_div_pow]
    constructor
    · rintro (h | ⟨j, h1, h2, h3⟩)
      · exact ⟨i + 1, by omega, by omega, h⟩
      · exact ⟨j, h1, by omega, h3⟩
    · rintro ⟨j, h1, h2, h3⟩
      by_cases hj : j = i + 1
      · left; rw [h3, hj]
      · right; exact ⟨j, h1, by omega, h3⟩

theorem mem_pairList (p q i w : Nat) :
    w ∈ pairList p q i ↔ ∃ j, 1 ≤ j ∧ j ≤ i ∧ (w = p / 2 ^ j ∨ w = q / 2 ^ j) := by
  induction i with
  | zero =>
    simp only [pairList, List.not_mem_nil, false_iff]
    rintro ⟨j, h1, h2, _⟩
    omega
  | succ i ih =>
    simp only [pairList, List.mem_cons, ih, Nat.shiftRight_eq_div_pow]
    constructor
    · rintro (h | h | ⟨j, h1, h2, h3⟩)
      · exact ⟨i + 1, by omega, by omega, Or.inl h⟩
      · exact ⟨i + 1, by omega, by omega, Or.inr h⟩
      · exact ⟨j, h1, by omega, h3⟩
    · rintro ⟨j, h1, h2, h3⟩
      by_cases hj : j = i + 1
      · subst hj
        rcases h3 with h3 | h3
        · left; exact h3
        · right; left; exact h3
      · right; right; exact ⟨j, h1, by omega, h3⟩

section PushList

variable (d : List (Node Val Mod)) (D : Nat)

theorem length_pushList (L : List Nat) : (pushList T d L).length = d.length := by
  induction L generalizing d with
  | nil => rfl
  | cons w L ih => simp only [pushList, List.foldl_cons]; exact (ih _).trans (by simp)

theorem vals_pushList (L : List Nat) (j : Nat) : vals T (pushList T d L) j = vals T d j := by
  induction L generalizing d with
  | nil => rfl
  | cons w L ih => simp only [pushList, List.foldl_cons]; exact (ih _).trans (by simp)

theorem pt_pushList (hT : T.Lawful) (L : List Nat) (hlen : d.length = 2 * 2 ^ D)
    (hL : ∀ w ∈ L, 1 ≤ w ∧ w < 2 ^ D) (j : Nat) (hj : Lvl D j) :
    pt T (pushList T d L) D j = pt T d D j := by
  induction L generalizing d with
  | nil => rfl
  | cons w L ih =>
    simp only [pushList, List.foldl_cons]
    have hw := hL w (List.mem_cons_self _ _)
    exact (ih _ (by simpa using hlen) (fun u hu => hL u (List.mem_cons_of_mem _ hu))).trans
      (pt_downprop T hT d D w j hlen hw.1 hw.2 hj)

theorem nodeOK_pushList (L : List Nat) (hlen : d.length = 2 * 2 ^ D)
    (hL : ∀ w ∈ L, 1 ≤ w ∧ w < 2 ^ D) (v : Nat) (hv : ∀ w ∈ L, v ≠ w ∧ v ≠ w / 2)
    (hok : NodeOK T d v) : NodeOK T (pushList T d L) v := by
  induction L generalizing d with
  | nil => exact hok
  | cons w L ih =>
    simp only [pushList, List.foldl_cons]
    have hw := hL w (List.mem_cons_self _ _)
    have hvw := hv w (List.mem_cons_self _ _)
    exact ih _ (by simpa using hlen) (fun u hu => hL u (List.mem_cons_of_mem _ hu))
      (fun u hu => hv u (List.mem_cons_of_mem _ hu))
      (nodeOK_downprop T d w v hw.1 (by omega) hvw.1 hvw.2 hok)

theorem mods_pushList_frame (L : List Nat) (hlen : d.length = 2 * 2 ^ D)
    (hL : ∀ w ∈ L, 1 ≤ w ∧ w < 2 ^ D) (u : Nat) (hu : ∀ w ∈ L, u ≠ w ∧ u / 2 ≠ w) :
    mods T (pushList T d L) u = mods T d u := by
  induction L generalizing d with
  | nil => rfl
  | cons w L ih =>
    simp only [pushList, List.foldl_cons]
    have hw := hL w (List.mem_cons_self _ _)
    have huw := hu w (List.mem_cons_self _ _)
    have h1 := ih (downprop T d w false) (by simpa using hlen)
      (fun u hu => hL u (List.mem_cons_of_mem _ hu)) (fun x hx => hu x (List.mem_cons_of_mem _ hx))
    have h2 : mods T (downprop T d w false) u = mods T d u := by
      rw [mods_downprop T d w u hw.1 (by omega), if_neg huw.1, if_neg (by omega),
        if_neg (by omega)]
    exact h1.trans h2

theorem ident_keep_pushList (L : List Nat) (hlen : d.length = 2 * 2 ^ D)
    (hL : ∀ w ∈ L, 1 ≤ w ∧ w < 2 ^ D) (u : Nat) (hu : ∀ w ∈ L, u ≤ w)
    (hid : mods T d u = T.ident) : mods T (pushList T d L) u = T.ident := by
  induction L generalizing d with
  | nil => exact hid
  | cons w L ih =>
    simp only [pushList, List.foldl_cons]
    have hw := hL w (List.mem_cons_self _ _)
    have huw := hu w (List.mem_cons_self _ _)
    apply ih (downprop T d w false) (by simpa using hlen)
      (fun u hu => hL u (List.mem_cons_of_mem _ hu)) (fun x hx => hu x (List.mem_cons_of_mem _ hx))
    rw [mods_downprop T d w u hw.1 (by omega)]
    by_cases h : u = w
    · rw [if_pos h]
    · rw [if_neg h, if_neg (by omega), if_neg (by omega)]
      exact hid

theorem ident_pushList (L : List Nat) (hlen : d.length = 2 * 2 ^ D)
    (hL : ∀ w ∈ L, 1 ≤ w ∧ w < 2 ^ D) (hs : L.Pairwise (fun a b => a ≤ b)) (u : Nat)
    (hu : u ∈ L) : mods T (pushList T d L) u = T.ident := by
  induction L generalizing d with
  | nil => simp at hu
  | cons w L ih =>
    simp only [pushList, List.foldl_cons]
    have hw := hL w (List.mem_cons_self _ _)
    have hL2 : ∀ x ∈ L, 1 ≤ x ∧ x < 2 ^ D := fun x hx => hL x (List.mem_cons_of_mem _ hx)
    rw [List.pairwise_cons] at hs
    by_cases huL : u ∈ L
    · exact ih _ (by simpa using hlen) hL2 hs.2 huL
    · have huw : u = w := by
        rcases List.mem_cons.mp hu with h | h
        · exact h
        · exact absurd h huL
      subst huw
      apply ident_keep_pushList T _ D L (by simpa using hlen) hL2 u hs.1
      rw [mods_downprop T d u u hw.1 (by omega), if_pos rfl]

end PushList

/-! ### Bit tricks -/

theorem clz_scan_eq {e x : Nat} (h : Lvl e x) (b : Nat) (hb : e + 1 ≤ b) :
    clz_scan x b = b - (e + 1) := by
  induction b with
  | zero => omega
  | succ b ih =>
    unfold clz_scan
    by_cases hx : x < 2 ^ b
    · have heb : e < b := by
        by_contra hne
        have := Nat.pow_le_pow_right (n := 2) (by norm_num) (Nat.le_of_not_lt hne)
        have := h.1
        omega
      rw [if_pos hx, ih (by omega)]
      omega
    · have hbe : b ≤ e := by
        by_contra hne
        have := Nat.pow_le_pow_right (n := 2) (by norm_num) (Nat.succ_le_of_lt (Nat.lt_of_not_le hne))
        have := h.2
        omega
      rw [if_neg hx]
      omega

/-- The expression `digits - __builtin_clzll(x)` is the bit length of `x`. -/
theorem bitlen_eq {e x : Nat} (h : Lvl e x) (he : e < 64) : digits - clzll x = e + 1 := by
  unfold clzll
  rw [clz_scan_eq h digits (by unfold digits; omega)]
  unfold digits
  omega

theorem lvl_zero_eq {v : Nat} (h : Lvl 0 v) : v = 1 := by
  unfold Lvl at h
  simp at h
  omega

theorem testBit_top {D p : Nat} (hp : Lvl D p) : p.testBit D = true := by
  have h1 : p / 2 ^ D = 1 := lvl_zero_eq (Lvl.div_pow (e := 0) D (by simpa using hp))
  rw [Nat.testBit_to_div_mod, h1]
  rfl

theorem testBit_above {D p i : Nat} (hp : Lvl D p) (hi : D < i) : p.testBit i = false :=
  Nat.testBit_lt_two_pow (hp.lt_of_lt hi)

/-- The highest bit in which two distinct nodes of one level differ: above it
their indices agree. -/
theorem xor_lvl {D p q : Nat} (hp : Lvl D p) (hq : Lvl D q) (hne : p ≠ q) :
    ∃ e, e < D ∧ Lvl e (p ^^^ q) ∧ p / 2 ^ (e + 1) = q / 2 ^ (e + 1) := by
  have hx0 : p ^^^ q ≠ 0 := by
    intro h
    exact hne (Nat.xor_eq_zero.mp h)
  obtain ⟨e, he⟩ := exists_lvl (p ^^^ q) (by omega)
  have hxlt : p ^^^ q < 2 ^ D := by
    apply Nat.lt_pow_two_of_testBit
    intro i hi
    rw [Nat.testBit_xor]
    rcases Nat.eq_or_lt_of_le hi with h | h
    · subst h
      rw [testBit_top hp, testBit_top hq]
      rfl
    · rw [testBit_above hp h, testBit_above hq h]
      rfl
  refine ⟨e, he.lt_depth hxlt, he, ?_⟩
  apply Nat.eq_of_testBit_eq
  intro i
  rw [← Nat.shiftRight_eq_div_pow, ← Nat.shiftRight_eq_div_pow, Nat.testBit_shiftRight,
    Nat.testBit_shiftRight]
  have hb : (p ^^^ q).testBit (e + 1 + i) = false := by
    apply Nat.testBit_lt_two_pow
    have := Nat.pow_le_pow_right (n := 2) (by norm_num) (show e + 1 ≤ e + 1 + i by omega)
    have := he.2
    omega
  rw [Nat.testBit_xor] at hb
  revert hb
  cases p.testBit (e + 1 + i) <;> cases q.testBit (e + 1 + i) <;> simp

theorem wrap_dec_succ (i : Nat) (hi : i < 2 ^ 64 - 1) : wrap_dec (i + 1) = i := by
  unfold wrap_dec
  omega

theorem push_phase_eq (d : List (Node Val Mod)) {D p q : Nat} (hp : Lvl D p) (hq : Lvl D q)
    (hD : D ≤ 62) : push_phase T d p q = pushList T d (pushNodes p q) := by
  unfold push_phase pushNodes
  by_cases hpq : p = q
  · simp only [if_pos hpq]
    rw [bitlen_eq hp (by omega), wrap_dec_succ D (by omega)]
    exact push_single_eq T _ _ _
  · simp only [if_neg hpq]
    obtain ⟨e, he, hx, _⟩ := xor_lvl hp hq hpq
    have hm := bitlen_eq hx (by omega)
    have hl : Lvl (D - (e + 1)) (p >>> (e + 1)) := by
      rw [Nat.shiftRight_eq_div_pow]
      exact path_lvl hp (e + 1) (by omega)
    have hk := bitlen_eq hl (by omega)
    rw [hm, hk, wrap_dec_succ _ (by omega), wrap_dec_succ _ (by omega), push_pair_eq,
      push_lca_eq T _ _ (by omega) _ _ _ (by omega) (by omega)]
    unfold pushList
    rw [List.foldl_append]
    rfl

theorem div_pow_anti (p : Nat) {i j : Nat} (h : i ≤ j) : p / 2 ^ j ≤ p / 2 ^ i :=
  Nat.div_le_div_left (Nat.pow_le_pow_right (by norm_num) h) (Nat.two_pow_pos _)

theorem div_pow_add (p i j : Nat) : p / 2 ^ i / 2 ^ j = p / 2 ^ (i + j) := by
  rw [Nat.div_div_eq_div_mul, ← pow_add]

theorem anc_pos_iff {D p : Nat} (hp : Lvl D p) (i : Nat) : 1 ≤ p / 2 ^ i ↔ i ≤ D := by
  constructor
  · intro h
    by_contra hne
    have h2 : p / 2 ^ i = 0 := Nat.div_eq_of_lt (hp.lt_of_lt (by omega))
    omega
  · intro h
    exact (path_lvl hp i h).pos

theorem PA.lt_pow {D p v : Nat} (hp : Lvl D p) (h : PA v p) : v < 2 ^ D := by
  obtain ⟨i, hi, rfl⟩ := h
  have h1 : p / 2 ^ i ≤ p / 2 ^ 1 := div_pow_anti p hi
  have h2 := hp.2
  have h3 : 2 ^ (D + 1) = 2 * 2 ^ D := by rw [pow_succ]; omega
  simp only [pow_one] at h1
  omega

theorem ancList_sorted (p i : Nat) : (ancList p i).Pairwise (fun a b => a ≤ b) := by
  induction i with
  | zero => exact List.Pairwise.nil
  | succ i ih =>
    rw [ancList, List.pairwise_cons]
    refine ⟨?_, ih⟩
    intro x hx
    obtain ⟨j, _, hj, rfl⟩ := (mem_ancList p i x).mp hx
    rw [Nat.shiftRight_eq_div_pow]
    exact div_pow_anti p (by omega)

theorem pairList_sorted {D p q : Nat} (hp : Lvl D p) (hq : Lvl D q) (hpq : p ≤ q) (i : Nat)
    (hi : i ≤ D) : (pairList p q i).Pairwise (fun a b => a ≤ b) := by
  induction i with
  | zero => exact List.Pairwise.nil
  | succ i ih =>
    have hb : q / 2 ^ (i + 1) < 2 ^ (D - i) := by
      have := (path_lvl hq (i + 1) hi).2
      rwa [show D - (i + 1) + 1 = D - i by omega] at this
    have hrest : ∀ x ∈ pairList p q i, p / 2 ^ (i + 1) ≤ x ∧ q / 2 ^ (i + 1) ≤ x := by
      intro x hx
      obtain ⟨j, _, hj, hx2⟩ := (mem_pairList p q i x).mp hx
      have h1 : 2 ^ (D - i) ≤ p / 2 ^ j := (path_lvl hp j (by omega)).ge_of_le (by omega)
      have h2 : p / 2 ^ j ≤ q / 2 ^ j := Nat.div_le_div_right hpq
      have h3 : p / 2 ^ (i + 1) ≤ q / 2 ^ (i + 1) := Nat.div_le_div_right hpq
      rcases hx2 with rfl | rfl <;> omega
    rw [pairList, List.pairwise_cons, List.pairwise_cons]
    simp only [Nat.shiftRight_eq_div_pow]
    refine ⟨?_, fun x hx => (hrest x hx).2, ih (by omega)⟩
    intro x hx
    rcases List.mem_cons.mp hx with rfl | hx
    · exact Nat.div_le_div_right hpq
    · exact (hrest x hx).1

section PushNodes

variable {D p q : Nat} (hp : Lvl D p) (hq : Lvl D q) (hD : D ≤ 62) (hpq : p ≤ q)
include hp hq hD

theorem pushNodes_mem (w : Nat) (hw : w ∈ pushNodes p q) : 1 ≤ w ∧ (PA w p ∨ PA w q) := by
  unfold pushNodes at hw
  by_cases hpq : p = q
  · rw [if_pos hpq, bitlen_eq hp (by omega), mem_ancList] at hw
    obtain ⟨j, h1, h2, rfl⟩ := hw
    exact ⟨(anc_pos_iff hp j).mpr (by omega), Or.inl ⟨j, h1, rfl⟩⟩
  · obtain ⟨e, he, hx, _⟩ := xor_lvl hp hq hpq
    have hl : Lvl (D - (e + 1)) (p >>> (e + 1)) := by
      rw [Nat.shiftRight_eq_div_pow]
      exact path_lvl hp (e + 1) (by omega)
    rw [if_neg hpq, bitlen_eq hx (by omega), bitlen_eq hl (by omega), List.mem_append,
      mem_ancList, mem_pairList] at hw
    rcases hw with ⟨j, h1, h2, rfl⟩ | ⟨j, h1, h2, h3⟩
    · obtain ⟨j, rfl⟩ : ∃ j0, j = j0 + 1 := ⟨j - 1, by omega⟩
      rw [← Nat.shiftRight_eq_div_pow, shift_double, Nat.shiftRight_eq_div_pow,
        Nat.shiftRight_eq_div_pow, div_pow_add]
      exact ⟨(anc_pos_iff hp _).mpr (by omega), Or.inl ⟨e + 1 + j, by omega, rfl⟩⟩
    · rcases h3 with rfl | rfl
      · exact ⟨(anc_pos_iff hp j).mpr (by omega), Or.inl ⟨j, h1, rfl⟩⟩
      · exact ⟨(anc_pos_iff hq j).mpr (by omega), Or.inr ⟨j, h1, rfl⟩⟩

theorem pushNodes_internal (w : Nat) (hw : w ∈ pushNodes p q) : 1 ≤ w ∧ w < 2 ^ D := by
  obtain ⟨h1, h2 | h2⟩ := pushNodes_mem hp hq hD w hw
  · exact ⟨h1, h2.lt_pow hp⟩
  · exact ⟨h1, h2.lt_pow hq⟩

theorem pushNodes_anc (i : Nat) (hi : 1 ≤ i) :
    (1 ≤ p / 2 ^ i → p / 2 ^ i ∈ pushNodes p q) ∧ (1 ≤ q / 2 ^ i → q / 2 ^ i ∈ pushNodes p q) := by
  unfold pushNodes
  by_cases hpq : p = q
  · subst hpq
    rw [if_pos rfl, bitlen_eq hp (by omega), mem_ancList]
    have : 1 ≤ p / 2 ^ i → ∃ j, 1 ≤ j ∧ j ≤ D + 1 - 1 ∧ p / 2 ^ i = p / 2 ^ j := by
      intro h
      exact ⟨i, hi, by have := (anc_pos_iff hp i).mp h; omega, rfl⟩
    exact ⟨this, this⟩
  · obtain ⟨e, he, hx, hlca⟩ := xor_lvl hp hq hpq
    have hl : Lvl (D - (e + 1)) (p >>> (e + 1)) := by
      rw [Nat.shiftRight_eq_div_pow]
      exact path_lvl hp (e + 1) (by omega)
    rw [if_neg hpq, bitlen_eq hx (by omega), bitlen_eq hl (by omega)]
    simp only [List.mem_append, mem_ancList, mem_pairList]
    have key : ∀ r, (r = p ∨ r = q) → 1 ≤ r / 2 ^ i →
        (∃ j, 1 ≤ j ∧ j ≤ D - (e + 1) + 1 ∧ r / 2 ^ i = 2 * p >>> (e + 1) / 2 ^ j) ∨
          ∃ j, 1 ≤ j ∧ j ≤ e + 1 - 1 ∧ (r / 2 ^ i = p / 2 ^ j ∨ r / 2 ^ i = q / 2 ^ j) := by
      intro r hr h
      have hrl : Lvl D r := by rcases hr with rfl | rfl <;> assumption
      have hiD := (anc_pos_iff hrl i).mp h
      by_cases hie : i ≤ e
      · right
        refine ⟨i, hi, by omega, ?_⟩
        rcases hr with rfl | rfl
        · exact Or.inl rfl
        · exact Or.inr rfl
      · left
        refine ⟨i - (e + 1) + 1, by omega, by omega, ?_⟩
        have hr2 : r / 2 ^ (e + 1) = p / 2 ^ (e + 1) := by
          rcases hr with rfl | rfl
          · rfl
          · exact hlca.symm
        rw [← Nat.shiftRight_eq_div_pow (2 * p >>> (e + 1)), shift_double,
          Nat.shiftRight_eq_div_pow, Nat.shiftRight_eq_div_pow, ← hr2, div_pow_add]
        congr 2
        omega
    exact ⟨key p (Or.inl rfl), key q (Or.inr rfl)⟩

include hpq in
theorem pushNodes_sorted : (pushNodes p q).Pairwise (fun a b => a ≤ b) := by
  unfold pushNodes
  by_cases hpq2 : p = q
  · rw [if_pos hpq2]
    exact ancList_sorted _ _
  · obtain ⟨e, he, hx, hlca⟩ := xor_lvl hp hq hpq2
    have hl : Lvl (D - (e + 1)) (p >>> (e + 1)) := by
      rw [Nat.shiftRight_eq_div_pow]
      exact path_lvl hp (e + 1) (by omega)
    rw [if_neg hpq2, bitlen_eq hx (by omega), bitlen_eq hl (by omega), List.pairwise_append]
    refine ⟨ancList_sorted _ _, pairList_sorted hp hq hpq _ (by omega), ?_⟩
    intro a ha b hb
    obtain ⟨j, h1, h2, rfl⟩ := (mem_ancList _ _ _).mp ha
    obtain ⟨i, h3, h4, hb2⟩ := (mem_pairList _ _ _ _).mp hb
    obtain ⟨j, rfl⟩ : ∃ j0, j = j0 + 1 := ⟨j - 1, by omega⟩
    rw [← Nat.shiftRight_eq_div_pow, shift_double, Nat.shiftRight_eq_div_pow,
      Nat.shiftRight_eq_div_pow, div_pow_add]
    have h5 : p / 2 ^ (e + 1 + j) ≤ p / 2 ^ i := div_pow_anti p (by omega)
    have h6 : p / 2 ^ i ≤ q / 2 ^ i := Nat.div_le_div_right hpq
    rcases hb2 with rfl | rfl <;> omega

end PushNodes

/-- The push-down phase of `update`: the vector keeps its size, its stored values
and every logical leaf value; afterwards all proper ancestors of the two boundary
leaves carry the identity; the stored-value equation survives at every node that
is not such an ancestor. -/
theorem push_phase_spec (hT : T.Lawful) (d : List (Node Val Mod)) {D p q : Nat}
    (hlen : d.length = 2 * 2 ^ D) (hp : Lvl D p) (hq : Lvl D q) (hD : D ≤ 62) (hpq : p ≤ q) :
    (push_phase T d p q).length = d.length ∧
    (∀ j, vals T (push_phase T d p q) j = vals T d j) ∧
    (∀ j, Lvl D j → pt T (push_phase T d p q) D j = pt T d D j) ∧
    AncIdent T (push_phase T d p q) p ∧ AncIdent T (push_phase T d p q) q ∧
    (∀ v, 1 ≤ v → ¬ PA v p → ¬ PA v q → NodeOK T d v → NodeOK T (push_phase T d p q) v) := by
  rw [push_phase_eq T d hp hq hD]
  have hL := pushNodes_internal hp hq hD
  refine ⟨length_pushList T d _, vals_pushList T d _, pt_pushList T d D hT _ hlen hL, ?_, ?_, ?_⟩
  · intro i hi hpos
    exact ident_pushList T d D _ hlen hL (pushNodes_sorted hp hq hD hpq) _
      ((pushNodes_anc hp hq hD i hi).1 hpos)
  · intro i hi hpos
    exact ident_pushList T d D _ hlen hL (pushNodes_sorted hp hq hD hpq) _
      ((pushNodes_anc hp hq hD i hi).2 hpos)
  · intro v hv hnp hnq hok
    apply nodeOK_pushList T d D _ hlen hL v _ hok
    intro w hw
    obtain ⟨hw1, hw2⟩ := pushNodes_mem hp hq hD w hw
    constructor
    · rintro rfl
      rcases hw2 with h | h
      · exact hnp h
      · exact hnq h
    · rintro rfl
      rcases hw2 with ⟨i, hi, rfl⟩ | ⟨i, hi, rfl⟩
      · exact hnp ⟨i + 1, by omega, by rw [← div_pow_add, pow_one]⟩
      · exact hnq ⟨i + 1, by omega, by rw [← div_pow_add, pow_one]⟩

/-! ### Composing onto a node and recomputing -/

theorem anc_lt {v i : Nat} (hv : 1 ≤ v) (hi : 1 ≤ i) : v / 2 ^ i < v := by
  have h1 : v / 2 ^ i ≤ v / 2 ^ 1 := div_pow_anti v hi
  simp only [pow_one] at h1
  omega

theorem AncIdent.liftN_eq (hT : T.Lawful) {d : List (Node Val Mod)} {e s : Nat}
    (h : AncIdent T d s) (hs : Lvl e s) (y : Val) : liftN T d e s y = y := by
  apply liftN_ident T hT
  intro i hi1 hi2
  exact h i hi1 ((anc_pos_iff hs i).mpr hi2)

theorem AncIdent.sibling {d : List (Node Val Mod)} {p s : Nat} (h : AncIdent T d p)
    (hps : p / 2 = s / 2) : AncIdent T d s := by
  intro i hi hpos
  obtain ⟨i, rfl⟩ : ∃ i0, i = i0 + 1 := ⟨i - 1, by omega⟩
  rw [← div_pow_succ, ← hps, div_pow_succ] at hpos ⊢
  exact h (i + 1) hi hpos

theorem AncIdent.parent {d : List (Node Val Mod)} {p : Nat} (h : AncIdent T d p) :
    AncIdent T d (p / 2) := by
  intro i hi hpos
  rw [div_pow_succ] at hpos ⊢
  exact h (i + 1) (by omega) hpos

theorem AncIdent.of_mods {d d2 : List (Node Val Mod)} {p : Nat} (h : AncIdent T d p)
    (hm : ∀ i, 1 ≤ i → mods T d2 (p / 2 ^ i) = mods T d (p / 2 ^ i)) : AncIdent T d2 p := by
  intro i hi hpos
  rw [hm i hi]
  exact h i hi hpos

/-- Composing `f` onto a node whose proper ancestors all carry the identity applies
`f` to the logical value of exactly the leaves below that node. -/
theorem pt_compose_at (hT : T.Lawful) (d : List (Node Val Mod)) (D e h s : Nat) (f : Mod)
    (hD : e + h = D) (hs : Lvl e s) (hlen : d.length = 2 * 2 ^ D) (hanc : AncIdent T d s)
    (j : Nat) (hj : Lvl D j) :
    pt T (setMod T d s (T.compose f (mods T d s))) D j =
      if j / 2 ^ h = s then T.apply f (pt T d D j) else pt T d D j := by
  have hslen : s < d.length := by
    have := hs.lt_of_lt (show e < D + 1 by omega)
    have h3 : 2 ^ (D + 1) = 2 * 2 ^ D := by rw [pow_succ]; omega
    omega
  have hm := fun u => mods_setMod T d s u (T.compose f (mods T d s)) hslen
  by_cases hjs : j / 2 ^ h = s
  · rw [if_pos hjs, pt_split T _ D e h j hD, pt_split T d D e h j hD, hjs, vals_setMod]
    have hanc2 : AncIdent T (setMod T d s (T.compose f (mods T d s))) s := by
      apply hanc.of_mods
      intro i hi
      rw [hm, if_neg (by have := anc_lt hs.pos hi; omega)]
    rw [hanc2.liftN_eq T hT hs, hanc.liftN_eq T hT hs, hm s, if_pos rfl, hT.apply_compose]
    congr 2
    apply lowN_congr
    intro i hi
    have hl := path_lvl hj i (by omega)
    have hge : 2 ^ (e + 1) ≤ j / 2 ^ i := hl.ge_of_le (by omega)
    rw [hm, if_neg (by have := hs.2; omega)]
  · rw [if_neg hjs]
    apply pt_congr
    · intro i hi
      rw [hm, if_neg]
      intro heq
      have hl := path_lvl hj i hi
      rw [heq] at hl
      have := Lvl.unique hl hs
      have hih : i = h := by omega
      rw [hih] at heq
      exact hjs heq
    · simp

theorem nodeOK_setMod (d : List (Node Val Mod)) (s v : Nat) (m : Mod) (h1 : 2 * v ≠ s)
    (h2 : 2 * v + 1 ≠ s) (hok : NodeOK T d v) : NodeOK T (setMod T d s m) v := by
  unfold NodeOK at *
  simp only [vals_setMod]
  by_cases hs : s < d.length
  · rw [mods_setMod T d s _ m hs, mods_setMod T d s _ m hs, if_neg h1, if_neg h2]
    exact hok
  · have : setMod T d s m = d := by
      unfold setMod
      exact List.set_eq_of_length_le (by omega)
    rw [this]
    exact hok

theorem nodeOK_recalc_self (d : List (Node Val Mod)) (w : Nat) (hw1 : 1 ≤ w)
    (hw : w < d.length) : NodeOK T (recalc T d w) w := by
  unfold NodeOK
  simp only [mods_recalc]
  rw [vals_recalc T d w _ hw, vals_recalc T d w _ hw, vals_recalc T d w _ hw, if_pos rfl,
    if_neg (by omega), if_neg (by omega)]

theorem nodeOK_recalc (d : List (Node Val Mod)) (w v : Nat) (hw : w < d.length) (h0 : v ≠ w)
    (h1 : 2 * v ≠ w) (h2 : 2 * v + 1 ≠ w) (hok : NodeOK T d v) : NodeOK T (recalc T d w) v := by
  unfold NodeOK at *
  simp only [mods_recalc]
  rw [vals_recalc T d w _ hw, vals_recalc T d w _ hw, vals_recalc T d w _ hw, if_neg h0,
    if_neg h1, if_neg h2]
  exact hok

theorem pt_recalc (d : List (Node Val Mod)) (D w j : Nat) (hw : w < d.length) (hwD : w < 2 ^ D)
    (hj : Lvl D j) : pt T (recalc T d w) D j = pt T d D j := by
  apply pt_congr
  · intro i _
    simp
  · rw [vals_recalc T d w j hw, if_neg (by have := hj.1; omega)]

theorem PA.of_half {v p : Nat} (h : PA v (p / 2)) : PA v p := by
  obtain ⟨i, hi, rfl⟩ := h
  exact ⟨i + 1, by omega, by rw [div_pow_succ]⟩

theorem PA.half_self (p : Nat) : PA (p / 2) p := ⟨1, le_refl 1, by simp⟩

theorem PA.cases {v p : Nat} (h : PA v p) : v = p / 2 ∨ PA v (p / 2) := by
  obtain ⟨i, hi, rfl⟩ := h
  obtain ⟨i, rfl⟩ : ∃ i0, i = i0 + 1 := ⟨i - 1, by omega⟩
  cases i with
  | zero => left; simp
  | succ i => right; exact ⟨i + 1, by omega, by rw [div_pow_succ]⟩

/-- The final loop `while (p /= 2) recalc(p);`: modifications and leaf values are
untouched, and afterwards every internal node satisfies the stored-value
equation. -/
theorem update_climb_spec (D : Nat) :
    ∀ (e fuel p : Nat) (d : List (Node Val Mod)), Lvl e p → e ≤ D → p ≤ fuel →
      d.length = 2 * 2 ^ D → (∀ v, 1 ≤ v → v < 2 ^ D → ¬ PA v p → NodeOK T d v) →
      (update_climb T fuel p d).length = 2 * 2 ^ D ∧
      (∀ j, mods T (update_climb T fuel p d) j = mods T d j) ∧
      (∀ j, 2 ^ D ≤ j → vals T (update_climb T fuel p d) j = vals T d j) ∧
      (∀ v, 1 ≤ v → v < 2 ^ D → NodeOK T (update_climb T fuel p d) v) := by
  intro e
  induction e with
  | zero =>
    intro fuel p d hp _ hf hlen hok
    have hp1 := lvl_zero_eq hp
    subst hp1
    obtain ⟨fuel, rfl⟩ : ∃ f0, fuel = f0 + 1 := ⟨fuel - 1, by omega⟩
    simp only [update_climb]
    refine ⟨hlen, fun _ => rfl, fun _ _ => rfl, ?_⟩
    intro v hv1 hv2
    apply hok v hv1 hv2
    rintro ⟨i, hi, rfl⟩
    have : 1 / 2 ^ i = 0 := Nat.div_eq_of_lt (Nat.one_lt_two_pow (by omega))
    omega
  | succ e ih =>
    intro fuel p d hp heD hf hlen hok
    have hh := hp.half
    have hpos := hh.pos
    have hlt : p / 2 < 2 ^ D := hh.lt_of_lt (by omega)
    obtain ⟨fuel, rfl⟩ : ∃ f0, fuel = f0 + 1 := ⟨fuel - 1, by have := hp.pos; omega⟩
    simp only [update_climb]
    rw [if_pos (by omega)]
    have hrec := ih fuel (p / 2) (recalc T d (p / 2)) hh (by omega) (by omega) (by simpa using hlen)
      (by
        intro v hv1 hv2 hpa
        by_cases hv : v = p / 2
        · subst hv
          exact nodeOK_recalc_self T d _ hpos (by omega)
        · apply nodeOK_recalc T d (p / 2) v (by omega) hv
          · intro h2
            exact hpa ⟨1, le_refl 1, by simp; omega⟩
          · intro h2
            exact hpa ⟨1, le_refl 1, by simp; omega⟩
          · apply hok v hv1 hv2
            intro hpa2
            rcases hpa2.cases with h3 | h3
            · exact hv h3
            · exact hpa h3)
    refine ⟨hrec.1, ?_, ?_, hrec.2.2.2⟩
    · intro j
      rw [hrec.2.1 j, mods_recalc]
    · intro j hj
      rw [hrec.2.2.1 j hj, vals_recalc T d _ j (by omega), if_neg (by omega)]

/-! ### The compose-and-recompute walk of `update` -/

theorem Applied.congr {D : Nat} {f : Mod} {d0 d : List (Node Val Mod)} {S S2 : Nat → Prop}
    (h : Applied T D f d0 d S) (hS : ∀ j, Lvl D j → (S2 j ↔ S j)) : Applied T D f d0 d S2 := by
  intro j hj
  rw [hS j hj]
  exact h j hj

theorem Applied.of_pt_eq {D : Nat} {f : Mod} {d0 d d2 : List (Node Val Mod)} {S : Nat → Prop}
    (h : Applied T D f d0 d S) (hpt : ∀ j, Lvl D j → pt T d2 D j = pt T d D j) :
    Applied T D f d0 d2 S := by
  intro j hj
  rw [hpt j hj]
  exact h j hj

theorem Applied.compose (hT : T.Lawful) {D : Nat} {f : Mod} {d0 d : List (Node Val Mod)}
    {S : Nat → Prop} (h : Applied T D f d0 d S) (e ht s : Nat) (hD : e + ht = D) (hs : Lvl e s)
    (hlen : d.length = 2 * 2 ^ D) (hanc : AncIdent T d s)
    (hnew : ∀ j, Lvl D j → j / 2 ^ ht = s → ¬ S j) :
    Applied T D f d0 (setMod T d s (T.compose f (mods T d s))) (fun j => S j ∨ j / 2 ^ ht = s) := by
  intro j hj
  rw [pt_compose_at T hT d D e ht s f hD hs hlen hanc j hj]
  by_cases hjs : j / 2 ^ ht = s
  · rw [if_pos hjs]
    constructor
    · intro _
      rw [(h j hj).2 (hnew j hj hjs)]
    · intro hn
      exact absurd (Or.inr hjs) hn
  · rw [if_neg hjs]
    constructor
    · intro hS
      rcases hS with hS | hS
      · exact (h j hj).1 hS
      · exact absurd hS hjs
    · intro hn
      exact (h j hj).2 (fun hS => hn (Or.inl hS))

theorem AncIdent.setMod {d : List (Node Val Mod)} {r : Nat} (h : AncIdent T d r) (s : Nat)
    (m : Mod) (hne : ∀ i, 1 ≤ i → r / 2 ^ i ≠ s) : AncIdent T (setMod T d s m) r := by
  apply h.of_mods
  intro i hi
  by_cases hs : s < d.length
  · rw [mods_setMod T d s _ m hs, if_neg (hne i hi)]
  · have : Efgen.setMod T d s m = d := by
      unfold Efgen.setMod
      exact List.set_eq_of_length_le (by omega)
    rw [this]

theorem anc_le_half (r : Nat) {i : Nat} (hi : 1 ≤ i) : r / 2 ^ i ≤ r / 2 := by
  have h1 : r / 2 ^ i ≤ r / 2 ^ 1 := div_pow_anti r hi
  simpa using h1

theorem PA.of_sibling {v p q : Nat} (h : PA v q) (hpq : p / 2 = q / 2) : PA v p := by
  obtain ⟨i, hi, rfl⟩ := h
  obtain ⟨i, rfl⟩ : ∃ i0, i = i0 + 1 := ⟨i - 1, by omega⟩
  exact ⟨i + 1, hi, by rw [← div_pow_succ, ← hpq, div_pow_succ]⟩

/-- The two-pointer loop of `update` followed by the final climb: `f` ends up
applied to exactly the leaves of `[P0, Q0]`, and every internal node satisfies the
stored-value equation. -/
theorem update_loop_spec (hT : T.Lawful) (D : Nat) (f : Mod) (P0 Q0 : Nat)
    (d0 : List (Node Val Mod)) :
    ∀ (fuel h e p q : Nat) (d : List (Node Val Mod)), e + h = D → Lvl e p → Lvl e q → p < q →
      p + q ≤ fuel → p = P0 / 2 ^ h → q = Q0 / 2 ^ h → d.length = 2 * 2 ^ D →
      AncIdent T d p → AncIdent T d q →
      Applied T D f d0 d (fun j => P0 ≤ j ∧ j ≤ Q0 ∧ (j / 2 ^ h ≤ p ∨ q ≤ j / 2 ^ h)) →
      (∀ v, 1 ≤ v → v < 2 ^ D → ¬ PA v p → ¬ PA v q → NodeOK T d v) →
      (update_climb T (update_loop T f fuel p q d).1 (update_loop T f fuel p q d).1
          (update_loop T f fuel p q d).2).length = 2 * 2 ^ D ∧
      Applied T D f d0
        (update_climb T (update_loop T f fuel p q d).1 (update_loop T f fuel p q d).1
          (update_loop T f fuel p q d).2) (fun j => P0 ≤ j ∧ j ≤ Q0) ∧
      (∀ v, 1 ≤ v → v < 2 ^ D →
        NodeOK T (update_climb T (update_loop T f fuel p q d).1 (update_loop T f fuel p q d).1
          (update_loop T f fuel p q d).2) v) := by
  intro fuel
  induction fuel with
  | zero =>
    intro h e p q d _ hp hq hpq hf
    have := hp.pos
    omega
  | succ fuel ih =>
    intro h e p q d hD hp hq hpq hf hpP hqQ hlen hap haq happ hok
    have hmono : ∀ j, (P0 ≤ j → p ≤ j / 2 ^ h) ∧ (j ≤ P0 → j / 2 ^ h ≤ p) ∧
        (Q0 ≤ j → q ≤ j / 2 ^ h) ∧ (j ≤ Q0 → j / 2 ^ h ≤ q) := by
      intro j
      rw [hpP, hqQ]
      exact ⟨fun h1 => Nat.div_le_div_right h1, fun h1 => Nat.div_le_div_right h1,
        fun h1 => Nat.div_le_div_right h1, fun h1 => Nat.div_le_div_right h1⟩
    have hD1 : 2 ^ (D + 1) = 2 * 2 ^ D := by rw [pow_succ]; omega
    have hpD : p < 2 ^ (D + 1) := hp.lt_of_lt (by omega)
    have hqD : q < 2 ^ (D + 1) := hq.lt_of_lt (by omega)
    by_cases hne : p / 2 ≠ q / 2
    · cases e with
      | zero =>
        have := lvl_zero_eq hp
        have := lvl_zero_eq hq
        omega
      | succ e =>
        simp only [update_loop, if_pos hne]
        have hph := hp.half
        have hqh := hq.half
        have hp1 := hp.1
        have hq2 := hq.2
        have hpw : 2 ^ (e + 1) = 2 * 2 ^ e := by rw [pow_succ]; omega
        have hpw2 : 2 ^ (e + 1 + 1) = 2 * 2 ^ (e + 1) := by rw [pow_succ]; omega
        have hph1 := hph.1
        have hqh2 := hqh.2
        have heD : e + 1 ≤ D := by omega
        have hlt1 : 2 ^ (e + 1) ≤ 2 ^ D := Nat.pow_le_pow_right (by norm_num) heD
        -- first write: the right sibling of an even `p`
        obtain ⟨d1, hd1, hl1, hap1, haq1, happ1, hok1⟩ : ∃ d1,
            d1 = (if p % 2 = 0 then setMod T d (p + 1) (T.compose f (mods T d (p + 1))) else d) ∧
            d1.length = 2 * 2 ^ D ∧ AncIdent T d1 p ∧ AncIdent T d1 q ∧
            Applied T D f d0 d1 (fun j => (P0 ≤ j ∧ j ≤ Q0 ∧ (j / 2 ^ h ≤ p ∨ q ≤ j / 2 ^ h)) ∨
              (p % 2 = 0 ∧ j / 2 ^ h = p + 1)) ∧
            (∀ v, 1 ≤ v → v < 2 ^ D → v ≠ p / 2 → ¬ PA v p → ¬ PA v q → NodeOK T d1 v) := by
          refine ⟨_, rfl, ?_⟩
          by_cases h0 : p % 2 = 0
          · simp only [if_pos h0]
            refine ⟨by simpa using hlen, ?_, ?_, ?_, ?_⟩
            · exact hap.setMod T _ _ (fun i hi => by have := anc_lt hp.pos hi; omega)
            · exact haq.setMod T _ _ (fun i hi => by have := anc_le_half q hi; omega)
            · have hc := happ.compose T hT (e + 1) h (p + 1) hD (by unfold Lvl; omega) hlen
                (hap.sibling T (by omega))
                (by
                  intro j _ hj
                  have := hmono j
                  omega)
              apply hc.congr
              intro j _
              constructor
              · rintro (h1 | h1)
                · exact Or.inl h1
                · exact Or.inr h1.2
              · rintro (h1 | h1)
                · exact Or.inl h1
                · exact Or.inr ⟨h0, h1⟩
            · intro v hv1 hv2 hv3 hv4 hv5
              exact nodeOK_setMod T d _ v _ (by omega) (by omega) (hok v hv1 hv2 hv4 hv5)
          · simp only [if_neg h0]
            refine ⟨hlen, hap, haq, ?_, fun v hv1 hv2 _ hv4 hv5 => hok v hv1 hv2 hv4 hv5⟩
            apply happ.congr
            intro j _
            constructor
            · rintro (h1 | h1)
              · exact h1
              · exact absurd h1.1 h0
            · intro h1
              exact Or.inl h1
        -- second write: the left sibling of an odd `q`
        obtain ⟨d2, hd2, hl2, hap2, haq2, happ2, hok2⟩ : ∃ d2,
            d2 = (if q % 2 = 1 then setMod T d1 (q - 1) (T.compose f (mods T d1 (q - 1))) else d1) ∧
            d2.length = 2 * 2 ^ D ∧ AncIdent T d2 p ∧ AncIdent T d2 q ∧
            Applied T D f d0 d2 (fun j => P0 ≤ j ∧ j ≤ Q0 ∧
              (j / 2 ^ (h + 1) ≤ p / 2 ∨ q / 2 ≤ j / 2 ^ (h + 1))) ∧
            (∀ v, 1 ≤ v → v < 2 ^ D → v ≠ p / 2 → v ≠ q / 2 → ¬ PA v p → ¬ PA v q →
              NodeOK T d2 v) := by
          refine ⟨_, rfl, ?_⟩
          have hdiv : ∀ j, j / 2 ^ (h + 1) = j / 2 ^ h / 2 := by
            intro j
            rw [Nat.div_div_eq_div_mul, ← pow_succ]
          by_cases h1 : q % 2 = 1
          · simp only [if_pos h1]
            refine ⟨by simpa using hl1, ?_, ?_, ?_, ?_⟩
            · exact hap1.setMod T _ _ (fun i hi => by have := anc_lt hp.pos hi; omega)
            · exact haq1.setMod T _ _ (fun i hi => by have := anc_le_half q hi; omega)
            · have hc := happ1.compose T hT (e + 1) h (q - 1) hD (by unfold Lvl; omega) hl1
                (haq1.sibling T (by omega))
                (by
                  intro j _ hj
                  have := hmono j
                  omega)
              apply hc.congr
              intro j _
              have := hmono j
              rw [hdiv]
              constructor
              · intro h2
                omega
              · intro h2
                omega
            · intro v hv1 hv2 hv3 hv3b hv4 hv5
              exact nodeOK_setMod T d1 _ v _ (by omega) (by omega) (hok1 v hv1 hv2 hv3 hv4 hv5)
          · simp only [if_neg h1]
            refine ⟨hl1, hap1, haq1, ?_, fun v hv1 hv2 hv3 _ hv4 hv5 => hok1 v hv1 hv2 hv3 hv4 hv5⟩
            apply happ1.congr
            intro j _
            have := hmono j
            rw [hdiv]
            constructor
            · intro h2
              omega
            · intro h2
              omega
        have hp1len : p / 2 < d2.length := by omega
        have hq1len : q / 2 < d2.length := by omega
        have hgoal : recalc T (recalc T d2 (p / 2)) (q / 2) =
            recalc T (recalc T
              (if q % 2 = 1 then
                setMod T (if p % 2 = 0 then setMod T d (p + 1) (T.compose f (rd T d (p + 1)).mod)
                  else d) (q - 1)
                  (T.compose f (rd T (if p % 2 = 0 then
                    setMod T d (p + 1) (T.compose f (rd T d (p + 1)).mod) else d) (q - 1)).mod)
              else if p % 2 = 0 then setMod T d (p + 1) (T.compose f (rd T d (p + 1)).mod) else d)
              (p / 2)) (q / 2) := by
          rw [hd2, hd1]
          rfl
        rw [← hgoal]
        apply ih (h + 1) e (p / 2) (q / 2) _ (by omega) hph hqh (by omega) (by omega)
          (by rw [hpP, Nat.div_div_eq_div_mul, ← pow_succ])
          (by rw [hqQ, Nat.div_div_eq_div_mul, ← pow_succ]) (by simpa using hl2)
        · exact (hap2.parent T).of_mods T (fun i _ => by simp)
        · exact (haq2.parent T).of_mods T (fun i _ => by simp)
        · apply happ2.of_pt_eq
          intro j hj
          rw [pt_recalc T _ D _ j (by simpa using hq1len) (by omega) hj,
            pt_recalc T _ D _ j hp1len (by omega) hj]
        · intro v hv1 hv2 hv3 hv4
          by_cases hvp : v = p / 2
          · subst hvp
            exact nodeOK_recalc T _ _ _ (by simpa using hq1len) (by omega) (by omega) (by omega)
              (nodeOK_recalc_self T d2 _ hv1 hp1len)
          · by_cases hvq : v = q / 2
            · subst hvq
              exact nodeOK_recalc_self T _ _ hv1 (by simpa using hq1len)
            · have hnp : ¬ PA v p := fun hpa => by
                rcases hpa.cases with h3 | h3
                · exact hvp h3
                · exact hv3 h3
              have hnq : ¬ PA v q := fun hpa => by
                rcases hpa.cases with h3 | h3
                · exact hvq h3
                · exact hv4 h3
              apply nodeOK_recalc T _ _ _ (by simpa using hq1len) hvq
              · intro h2
                exact hv4 ⟨1, le_refl 1, by simp; omega⟩
              · intro h2
                exact hv4 ⟨1, le_refl 1, by simp; omega⟩
              apply nodeOK_recalc T _ _ _ hp1len hvp
              · intro h2
                exact hv3 ⟨1, le_refl 1, by simp; omega⟩
              · intro h2
                exact hv3 ⟨1, le_refl 1, by simp; omega⟩
              exact hok2 v hv1 hv2 hvp hvq hnp hnq
    · have heq : p / 2 = q / 2 := by omega
      simp only [update_loop, if_neg hne]
      have hc := update_climb_spec T D e p p d hp (by omega) (le_refl _) hlen
        (fun v hv1 hv2 hpa => hok v hv1 hv2 hpa (fun hq2 => hpa (hq2.of_sibling heq)))
      refine ⟨hc.1, ?_, hc.2.2.2⟩
      have hpt : ∀ j, Lvl D j → pt T (update_climb T p p d) D j = pt T d D j := by
        intro j hj
        exact pt_congr T _ _ D j (fun i _ => hc.2.1 _) (hc.2.2.1 j hj.1)
      apply (happ.of_pt_eq T hpt).congr
      intro j _
      have := hmono j
      constructor
      · intro h2
        omega
      · intro h2
        exact ⟨h2.1, h2.2.1⟩

theorem update_unfold (t : SegTree Val Mod) (first last : Nat) (f : Mod) (hfl : first < last)
    (hl : last ≤ t.m_length) :
    t.update T first last f =
      { t with m_data := update_data T t.m_data (t.m_nleaves + first) (t.m_nleaves + last - 1) f } := by
  have hc : (if last > t.m_length then t.m_length else last) = last := if_neg (by omega)
  unfold SegTree.update update_data
  simp only [hc]
  rw [if_neg (by omega)]
  by_cases hpq : t.m_nleaves + first ≠ t.m_nleaves + last - 1
  · rw [if_pos hpq, if_pos hpq]
    rfl
  · rw [if_neg hpq, if_neg hpq]
    rfl

theorem update_clamp (t : SegTree Val Mod) (first last : Nat) (f : Mod) :
    t.update T first last f = t.update T first (min last t.m_length) f := by
  unfold SegTree.update
  by_cases h : last > t.m_length
  · have h1 : min last t.m_length = t.m_length := by omega
    simp only [h1, if_pos h, gt_iff_lt, lt_self_iff_false, if_false]
  · have h1 : min last t.m_length = last := by omega
    simp only [h1, if_neg h]

theorem update_empty (t : SegTree Val Mod) (first last : Nat) (f : Mod)
    (h : min last t.m_length ≤ first) : t.update T first last f = t := by
  unfold SegTree.update
  by_cases h1 : last > t.m_length
  · simp only [if_pos h1]
    rw [if_pos (by omega)]
  · simp only [if_neg h1]
    rw [if_pos (by omega)]

/-- The effect of `update` on vectors: for boundary leaves `p ≤ q` of a vector
whose internal nodes satisfy the stored-value equation, the result has the same
size, `f` applied to the logical values of exactly the leaves of `[p, q]`, and
again satisfies the equation at every internal node. -/
theorem update_data_spec (hT : T.Lawful) (d : List (Node Val Mod)) (D p q : Nat) (f : Mod)
    (hD : D ≤ 62) (hlen : d.length = 2 * 2 ^ D) (hp : Lvl D p) (hq : Lvl D q) (hpq : p ≤ q)
    (hok : ∀ v, 1 ≤ v → v < 2 ^ D → NodeOK T d v) :
    (update_data T d p q f).length = 2 * 2 ^ D ∧
    Applied T D f d (update_data T d p q f) (fun j => p ≤ j ∧ j ≤ q) ∧
    (∀ v, 1 ≤ v → v < 2 ^ D → NodeOK T (update_data T d p q f) v) := by
  obtain ⟨hA1, hA2, hA3, hA4, hA5, hA6⟩ := push_phase_spec T hT d hlen hp hq hD hpq
  have hlenA : (push_phase T d p q).length = 2 * 2 ^ D := by rw [hA1, hlen]
  have h0 : Applied T D f d (push_phase T d p q) (fun _ => False) := by
    intro j hj
    exact ⟨fun h => absurd h id, fun _ => hA3 j hj⟩
  have h1 := h0.compose T hT D 0 p (by omega) hp hlenA hA4 (fun _ _ _ h => h)
  have hD1 : 2 ^ (D + 1) = 2 * 2 ^ D := by rw [pow_succ]; omega
  have hok1 : ∀ v, 1 ≤ v → v < 2 ^ D → ¬ PA v p → ¬ PA v q →
      NodeOK T (setMod T (push_phase T d p q) p (T.compose f (mods T (push_phase T d p q) p))) v := by
    intro v hv1 hv2 hv3 hv4
    apply nodeOK_setMod
    · intro h
      exact hv3 ⟨1, le_refl 1, by simp; omega⟩
    · intro h
      exact hv3 ⟨1, le_refl 1, by simp; omega⟩
    · exact hA6 v hv1 hv3 hv4 (hok v hv1 hv2)
  unfold update_data
  by_cases hne : p ≠ q
  · rw [if_pos hne]
    have hq5 : AncIdent T (setMod T (push_phase T d p q) p
        (T.compose f (mods T (push_phase T d p q) p))) q :=
      hA5.setMod T _ _ (fun i hi => by
        have := anc_le_half q hi
        have := hq.2
        have := hp.1
        omega)
    have h2 := h1.compose T hT D 0 q (by omega) hq (by simpa using hlenA) hq5
      (by
        intro j _ hj hS
        simp only [pow_zero, Nat.div_one, false_or] at hj hS
        omega)
    apply update_loop_spec T hT D f p q d (p + q) 0 D p q _ (by omega) hp hq (by omega)
      (le_refl _) (by simp) (by simp) (by simpa using hlenA)
    · apply AncIdent.setMod
      · apply AncIdent.setMod
        · exact hA4
        · intro i hi
          have := anc_lt hp.pos hi
          omega
      · intro i hi
        have := anc_le_half p hi
        have := hp.2
        have := hq.1
        omega
    · exact hq5.setMod T _ _ (fun i hi => by have := anc_lt hq.pos hi; omega)
    · apply h2.congr
      intro j _
      simp only [pow_zero, Nat.div_one, false_or]
      constructor
      · intro h
        omega
      · intro h
        omega
    · intro v hv1 hv2 hv3 hv4
      apply nodeOK_setMod
      · intro h
        exact hv4 ⟨1, le_refl 1, by simp; omega⟩
      · intro h
        exact hv4 ⟨1, le_refl 1, by simp; omega⟩
      · exact hok1 v hv1 hv2 hv3 hv4
  · have heq : p = q := by omega
    subst heq
    rw [if_neg hne]
    have hc := update_climb_spec T D D p p _ hp (le_refl _) (le_refl _)
      (show (setMod T (push_phase T d p p) p
        (T.compose f (mods T (push_phase T d p p) p))).length = 2 * 2 ^ D by simpa using hlenA)
      (fun v hv1 hv2 hpa => hok1 v hv1 hv2 hpa hpa)
    refine ⟨hc.1, ?_, hc.2.2.2⟩
    have hpt : ∀ j, Lvl D j → pt T (update_climb T p p (setMod T (push_phase T d p p) p
        (T.compose f (mods T (push_phase T d p p) p)))) D j =
        pt T (setMod T (push_phase T d p p) p (T.compose f (mods T (push_phase T d p p) p))) D j := by
      intro j hj
      exact pt_congr T _ _ D j (fun i _ => hc.2.1 _) (hc.2.2.1 j hj.1)
    apply (h1.of_pt_eq T hpt).congr
    intro j _
    simp only [pow_zero, Nat.div_one]
    constructor
    · intro h
      right
      omega
    · rintro (h | h)
      · exact absurd h id
      · omega

/-! ### Trees -/

theorem update_shape (t : SegTree Val Mod) (first last : Nat) (f : Mod) :
    ∃ d, t.update T first last f = { t with m_data := d } := by
  by_cases hemp : min last t.m_length ≤ first
  · exact ⟨t.m_data, by rw [update_empty T t first last f hemp]⟩
  · exact ⟨_, by rw [update_clamp, update_unfold T t first _ f (by omega) (by omega)]⟩

theorem update_length (t : SegTree Val Mod) (first last : Nat) (f : Mod) :
    (t.update T first last f).m_length = t.m_length := by
  obtain ⟨d, hd⟩ := update_shape T t first last f
  rw [hd]

theorem update_nleaves (t : SegTree Val Mod) (first last : Nat) (f : Mod) :
    (t.update T first last f).m_nleaves = t.m_nleaves := by
  obtain ⟨d, hd⟩ := update_shape T t first last f
  rw [hd]

/-- `update` keeps a tree well formed and applies `f` to the logical values of
exactly the positions of the clamped range. -/
theorem update_spec (hT : T.Lawful) (t : SegTree Val Mod) (D : Nat) (hw : WF T t D)
    (first last : Nat) (f : Mod) :
    WF T (t.update T first last f) D ∧
    ∀ i, i < 2 ^ D → lv T (t.update T first last f) D i =
      if first ≤ i ∧ i < min last t.m_length then T.apply f (lv T t D i) else lv T t D i := by
  by_cases hemp : min last t.m_length ≤ first
  · rw [update_empty T t first last f hemp]
    refine ⟨hw, ?_⟩
    intro i _
    rw [if_neg (by omega)]
  · have hN := hw.nleaves_eq
    have hlen := hw.length_le
    have hsz := hw.size_eq
    rw [update_clamp, update_unfold T t first (min last t.m_length) f (by omega) (by omega)]
    have hP : Lvl D (t.m_nleaves + first) := by rw [hN]; exact lvl_leaf D first (by omega)
    have hQ : Lvl D (t.m_nleaves + min last t.m_length - 1) := by
      rw [show t.m_nleaves + min last t.m_length - 1 = 2 ^ D + (min last t.m_length - 1) by omega]
      exact lvl_leaf D _ (by omega)
    obtain ⟨h1, h2, h3⟩ := update_data_spec T hT t.m_data D _ _ f hw.depth_le (by rw [hsz, hN]) hP
      hQ (by omega) (fun v hv1 hv2 => hw.node_ok v hv1 (by omega))
    constructor
    · exact ⟨hw.depth_ge, hw.depth_le, hN, hlen, by rw [h1, hN],
        fun v hv1 hv2 => h3 v hv1 (by rw [← hN]; exact hv2)⟩
    · intro i hi
      have hj : Lvl D (t.m_nleaves + i) := by rw [hN]; exact lvl_leaf D i hi
      unfold lv
      by_cases hin : first ≤ i ∧ i < min last t.m_length
      · rw [if_pos hin]
        exact (h2 _ hj).1 (by omega)
      · rw [if_neg hin]
        exact (h2 _ hj).2 (by omega)

theorem query_clamp (t : SegTree Val Mod) (first last : Nat) :
    t.query T first last = t.query T first (min last t.m_length) := by
  unfold SegTree.query
  by_cases h : last > t.m_length
  · have h1 : min last t.m_length = t.m_length := by omega
    simp only [h1, if_pos h, gt_iff_lt, lt_self_iff_false, if_false]
  · have h1 : min last t.m_length = last := by omega
    simp only [h1, if_neg h]

theorem query_empty (t : SegTree Val Mod) (first last : Nat)
    (h : min last t.m_length ≤ first) : t.query T first last = T.neutral := by
  unfold SegTree.query
  by_cases h1 : last > t.m_length
  · simp only [if_pos h1]
    rw [if_pos (by omega)]
  · simp only [if_neg h1]
    rw [if_pos (by omega)]

theorem leafAgg_congr (d1 d2 : List (Node Val Mod)) (D a n : Nat)
    (h : ∀ j, a ≤ j → j < a + n → pt T d1 D j = pt T d2 D j) :
    leafAgg T d1 D a n = leafAgg T d2 D a n := by
  unfold leafAgg
  congr 1
  apply List.map_congr_left
  intro j hj
  rw [List.mem_range'_1] at hj
  exact h j hj.1 hj.2

/-- On well-formed trees of equal shape the answers of `query` are determined by
the logical values. -/
theorem query_congr (hT : T.Lawful) (t1 t2 : SegTree Val Mod) (D : Nat) (h1 : WF T t1 D)
    (h2 : WF T t2 D) (hlen : t1.m_length = t2.m_length)
    (hlv : ∀ i, i < t1.m_length → lv T t1 D i = lv T t2 D i) (first last : Nat) :
    t1.query T first last = t2.query T first last := by
  have hN : t1.m_nleaves = t2.m_nleaves := by rw [h1.nleaves_eq, h2.nleaves_eq]
  by_cases hemp : min last t1.m_length ≤ first
  · rw [query_empty T t1 first last hemp, query_empty T t2 first last (by omega)]
  · rw [query_clamp T t1, query_clamp T t2, ← hlen,
      query_spec T hT t1 D h1 first _ (by omega) (by omega),
      query_spec T hT t2 D h2 first _ (by omega) (by omega), ← hN]
    apply leafAgg_congr
    intro j hj1 hj2
    have := hlv (j - t1.m_nleaves) (by omega)
    unfold lv at this
    rw [← hN, show t1.m_nleaves + (j - t1.m_nleaves) = j by omega] at this
    exact this

/-! ### Constructors -/

theorem calc_nleaves_spec (n : Nat) (hn : n ≤ 2 ^ 63) :
    ∃ D, 2 ≤ D ∧ D ≤ 63 ∧ calc_nleaves n = 2 ^ D ∧ n ≤ 2 ^ D ∧
      (∀ j, 4 ≤ 2 ^ j → n ≤ 2 ^ j → 2 ^ D ≤ 2 ^ j) ∧ (n ≤ 2 ^ 62 → D ≤ 62) := by
  unfold calc_nleaves
  by_cases h4 : n ≤ 4
  · refine ⟨2, le_refl _, by omega, by rw [if_pos h4]; rfl, by omega, ?_, by omega⟩
    intro j hj _
    simpa using hj
  · obtain ⟨e, he⟩ := exists_lvl (n - 1) (by omega)
    have he2 : 2 ≤ e := by
      by_contra hlt
      have := Nat.pow_le_pow_right (n := 2) (by norm_num) (show e + 1 ≤ 2 by omega)
      have := he.2
      omega
    have he63 : e < 63 := he.lt_depth (by omega)
    have hpw : 2 ^ (e + 1) < 2 ^ 64 := Nat.pow_lt_pow_right (by norm_num) (by omega)
    refine ⟨e + 1, by omega, by omega, ?_, by have := he.2; omega, ?_, ?_⟩
    · rw [if_neg h4, bitlen_eq he (by omega), Nat.one_shiftLeft, Nat.mod_eq_of_lt hpw]
    · intro j _ hj
      apply Nat.pow_le_pow_right (by norm_num)
      by_contra hlt
      have := Nat.pow_le_pow_right (n := 2) (by norm_num) (show j ≤ e by omega)
      have := he.1
      omega
    · intro h62
      have : e < 62 := he.lt_depth (by omega)
      omega

theorem rd_replicate (n i : Nat) : rd T (List.replicate n (Node.dflt T)) i = Node.dflt T := by
  unfold rd
  rw [List.getD_eq_getElem?_getD, List.getElem?_replicate]
  split <;> rfl

theorem fill_leaves_spec (base : Nat) (value : Val) :
    ∀ (cnt i : Nat) (d : List (Node Val Mod)), base + i + cnt ≤ d.length →
      (fill_leaves T base value cnt i d).length = d.length ∧
      (∀ j, mods T (fill_leaves T base value cnt i d) j = mods T d j) ∧
      (∀ j, vals T (fill_leaves T base value cnt i d) j =
        if base + i ≤ j ∧ j < base + i + cnt then value else vals T d j) := by
  intro cnt
  induction cnt with
  | zero =>
    intro i d _
    refine ⟨rfl, fun _ => rfl, ?_⟩
    intro j
    rw [if_neg (by omega)]
    rfl
  | succ cnt ih =>
    intro i d hlen
    obtain ⟨h1, h2, h3⟩ := ih (i + 1) (setVal T d (base + i) value) (by simp; omega)
    simp only [fill_leaves]
    refine ⟨by rw [h1]; simp, ?_, ?_⟩
    · intro j
      rw [h2, mods_setVal]
    · intro j
      rw [h3, vals_setVal T d _ j _ (by omega)]
      by_cases hj : j = base + i
      · rw [if_neg (by omega), if_pos hj, if_pos (by omega)]
      · rw [if_neg hj]
        by_cases hj2 : base + (i + 1) ≤ j ∧ j < base + (i + 1) + cnt
        · rw [if_pos hj2, if_pos (by omega)]
        · rw [if_neg hj2, if_neg (by omega)]

theorem copy_leaves_spec (base : Nat) :
    ∀ (xs : List Val) (i : Nat) (d : List (Node Val Mod)), base + i + xs.length ≤ d.length →
      (copy_leaves T base xs i d).length = d.length ∧
      (∀ j, mods T (copy_leaves T base xs i d) j = mods T d j) ∧
      (∀ j, j < base + i ∨ base + i + xs.length ≤ j →
        vals T (copy_leaves T base xs i d) j = vals T d j) ∧
      (∀ k, k < xs.length → xs[k]? = some (vals T (copy_leaves T base xs i d) (base + i + k))) := by
  intro xs
  induction xs with
  | nil =>
    intro i d _
    refine ⟨rfl, fun _ => rfl, fun _ _ => rfl, ?_⟩
    intro k hk
    simp at hk
  | cons x xs ih =>
    intro i d hlen
    simp only [List.length_cons] at hlen
    obtain ⟨h1, h2, h3, h4⟩ := ih (i + 1) (setVal T d (base + i) x) (by simp; omega)
    simp only [copy_leaves]
    refine ⟨by rw [h1]; simp, ?_, ?_, ?_⟩
    · intro j
      rw [h2, mods_setVal]
    · intro j hj
      simp only [List.length_cons] at hj
      rw [h3 j (by omega), vals_setVal T d _ j _ (by omega), if_neg (by omega)]
    · intro k hk
      simp only [List.length_cons] at hk
      cases k with
      | zero =>
        rw [h3 _ (by omega), vals_setVal T d _ _ _ (by omega)]
        simp
      | succ k =>
        have := h4 k (by omega)
        rw [show base + (i + 1) + k = base + i + (k + 1) by omega] at this
        simpa using this

theorem build_pass_spec :
    ∀ (i : Nat) (d : List (Node Val Mod)), i < d.length →
      (build_pass T i d).length = d.length ∧
      (∀ j, mods T (build_pass T i d) j = mods T d j) ∧
      (∀ j, i < j → vals T (build_pass T i d) j = vals T d j) ∧
      (∀ v, 1 ≤ v → v ≤ i → vals T (build_pass T i d) v =
        T.join (vals T (build_pass T i d) (2 * v)) (vals T (build_pass T i d) (2 * v + 1))) := by
  intro i
  induction i with
  | zero =>
    intro d _
    refine ⟨rfl, fun _ => rfl, fun _ _ => rfl, ?_⟩
    intro v h1 h2
    omega
  | succ i ih =>
    intro d hlen
    obtain ⟨h1, h2, h3, h4⟩ := ih (setVal T d (i + 1)
      (T.join (rd T d (2 * (i + 1) + 0)).val (rd T d (2 * (i + 1) + 1)).val)) (by simp; omega)
    simp only [build_pass]
    refine ⟨by rw [h1]; simp, ?_, ?_, ?_⟩
    · intro j
      rw [h2, mods_setVal]
    · intro j hj
      rw [h3 j (by omega), vals_setVal T d _ j _ hlen, if_neg (by omega)]
    · intro v hv1 hv2
      by_cases hv : v = i + 1
      · subst hv
        rw [h3 _ (by omega), h3 _ (by omega), h3 _ (by omega), vals_setVal T d _ _ _ hlen,
          vals_setVal T d _ _ _ hlen, vals_setVal T d _ _ _ hlen, if_pos rfl, if_neg (by omega),
          if_neg (by omega)]
        rfl
      · exact h4 v hv1 (by omega)

theorem new_length_spec (n : Nat) (hn : n ≤ 2 ^ 62) :
    ∃ D, 2 ≤ D ∧ D ≤ 62 ∧ n ≤ 2 ^ D ∧
      (SegTree.new_length T n : SegTree Val Mod) =
        ⟨n, 2 ^ D, List.replicate (2 * 2 ^ D) (Node.dflt T)⟩ := by
  obtain ⟨D, h1, _, h3, h4, _, h6⟩ := calc_nleaves_spec n (by omega)
  have hD := h6 hn
  refine ⟨D, h1, hD, h4, ?_⟩
  unfold SegTree.new_length
  rw [h3]
  have : 2 ^ D ≤ 2 ^ 62 := Nat.pow_le_pow_right (by norm_num) hD
  rw [Nat.mod_eq_of_lt (by omega)]

theorem vals_replicate (n i : Nat) : vals T (List.replicate n (Node.dflt T)) i = T.neutral := by
  unfold vals
  rw [rd_replicate]
  rfl

theorem mods_replicate (n i : Nat) : mods T (List.replicate n (Node.dflt T)) i = T.ident := by
  unfold mods
  rw [rd_replicate]
  rfl

theorem new_length_wf (hT : T.Lawful) (n : Nat) (hn : n ≤ 2 ^ 62) :
    ∃ D, WF T (SegTree.new_length T n) D := by
  obtain ⟨D, h1, h2, h3, h4⟩ := new_length_spec T n hn
  refine ⟨D, ?_⟩
  rw [h4]
  refine ⟨h1, h2, rfl, h3, by simp, ?_⟩
  intro v _ _
  unfold NodeOK
  simp only [vals_replicate, mods_replicate, hT.apply_ident, hT.neutral_join]

/-- After the bottom-up pass over a vector without pending modifications the tree
is well formed. -/
theorem built_wf (hT : T.Lawful) (n D : Nat) (d1 : List (Node Val Mod)) (hD1 : 2 ≤ D)
    (hD2 : D ≤ 62) (hn : n ≤ 2 ^ D) (hlen : d1.length = 2 * 2 ^ D)
    (hmods : ∀ j, mods T d1 j = T.ident) :
    WF T ⟨n, 2 ^ D, build_pass T (2 ^ D - 1) d1⟩ D := by
  have hpos : 1 ≤ 2 ^ D := Nat.one_le_two_pow
  obtain ⟨h1, h2, _, h4⟩ := build_pass_spec T (2 ^ D - 1) d1 (by omega)
  refine ⟨hD1, hD2, rfl, hn, by rw [h1, hlen], ?_⟩
  intro v hv1 hv2
  unfold NodeOK
  simp only [] at hv2
  rw [h2, h2, hmods, hmods, hT.apply_ident, hT.apply_ident]
  exact h4 v hv1 (by omega)

theorem fill_spec (n : Nat) (x : Val) (hn : n ≤ 2 ^ 62) :
    ∃ D d1, 2 ≤ D ∧ D ≤ 62 ∧ n ≤ 2 ^ D ∧
      (SegTree.fill T n x : SegTree Val Mod) = ⟨n, 2 ^ D, build_pass T (2 ^ D - 1) d1⟩ ∧
      d1.length = 2 * 2 ^ D ∧ (∀ j, mods T d1 j = T.ident) ∧
      (∀ i, i < n → vals T d1 (2 ^ D + i) = x) ∧
      (∀ i, n ≤ i → vals T d1 (2 ^ D + i) = T.neutral) := by
  obtain ⟨D, h1, h2, h3, h4⟩ := new_length_spec T n hn
  obtain ⟨f1, f2, f3⟩ := fill_leaves_spec T (2 ^ D) x n 0
    (List.replicate (2 * 2 ^ D) (Node.dflt T)) (by simp; omega)
  refine ⟨D, fill_leaves T (2 ^ D) x n 0 (List.replicate (2 * 2 ^ D) (Node.dflt T)),
    h1, h2, h3, ?_, by rw [f1]; simp, ?_, ?_, ?_⟩
  · unfold SegTree.fill
    rw [h4]
  · intro j
    rw [f2, mods_replicate]
  · intro i hi
    rw [f3, if_pos (by omega)]
  · intro i hi
    rw [f3, if_neg (by omega), vals_replicate]

theorem from_iter_spec (xs : List Val) (hn : xs.length ≤ 2 ^ 62) :
    ∃ D d1, 2 ≤ D ∧ D ≤ 62 ∧ xs.length ≤ 2 ^ D ∧
      (SegTree.from_iter T xs : SegTree Val Mod) =
        ⟨xs.length, 2 ^ D, build_pass T (2 ^ D - 1) d1⟩ ∧
      d1.length = 2 * 2 ^ D ∧ (∀ j, mods T d1 j = T.ident) ∧
      (∀ i, i < xs.length → xs[i]? = some (vals T d1 (2 ^ D + i))) ∧
      (∀ i, xs.length ≤ i → vals T d1 (2 ^ D + i) = T.neutral) := by
  obtain ⟨D, h1, h2, h3, h4⟩ := new_length_spec T xs.length hn
  obtain ⟨f1, f2, f3, f4⟩ := copy_leaves_spec T (2 ^ D) xs 0
    (List.replicate (2 * 2 ^ D) (Node.dflt T)) (by simp; omega)
  refine ⟨D, copy_leaves T (2 ^ D) xs 0 (List.replicate (2 * 2 ^ D) (Node.dflt T)),
    h1, h2, h3, ?_, by rw [f1]; simp, ?_, ?_, ?_⟩
  · unfold SegTree.from_iter
    rw [h4]
  · intro j
    rw [f2, mods_replicate]
  · intro i hi
    exact f4 i hi
  · intro i hi
    rw [f3 _ (by omega), vals_replicate]

theorem Reachable.wf (hT : T.Lawful) {t : SegTree Val Mod} (h : Reachable T t) :
    ∃ D, WF T t D := by
  induction h with
  | new_length n hn => exact new_length_wf T hT n hn
  | fill n x hn =>
    obtain ⟨D, d1, h1, h2, h3, h4, h5, h6, _, _⟩ := fill_spec T n x hn
    exact ⟨D, by rw [h4]; exact built_wf T hT n D d1 h1 h2 h3 h5 h6⟩
  | from_iter xs hn =>
    obtain ⟨D, d1, h1, h2, h3, h4, h5, h6, _, _⟩ := from_iter_spec T xs hn
    exact ⟨D, by rw [h4]; exact built_wf T hT _ D d1 h1 h2 h3 h5 h6⟩
  | update t first last f _ ih =>
    obtain ⟨D, hD⟩ := ih
    exact ⟨D, (update_spec T hT t D hD first last f).1⟩

theorem AffTraits_lawful : AffTraits.Lawful where
  neutral_join := fun x => by simp [AffTraits]
  join_neutral := fun x => by simp [AffTraits]
  join_assoc := fun x y z => by simp [AffTraits]
  apply_ident := fun x => by simp [AffTraits]
  compose_ident := fun f => by simp [AffTraits]
  ident_compose := fun f => by simp [AffTraits]
  compose_assoc := fun f g h => by
    simp only [AffTraits, Prod.mk.injEq]
    constructor <;> ring
  apply_join := fun f x y => by simp [AffTraits]
  apply_compose := fun f g x => by
    simp only [AffTraits, List.map_map]
    apply List.map_congr_left
    intro v _
    simp only [Function.comp]
    ring

/-- On a vector without pending modifications the logical value of a leaf is its
stored value. -/
theorem pt_of_mods_ident (hT : T.Lawful) (d : List (Node Val Mod)) (D j : Nat)
    (hm : ∀ u, mods T d u = T.ident) : pt T d D j = vals T d j := by
  unfold pt
  rw [liftN_ident T hT d D j _ (fun i _ _ => hm _), hm, hT.apply_ident]

/-- The tree built from a sequence: well formed, and the logical value at
position `i` is the `i`-th element. -/
theorem from_iter_lv (hT : T.Lawful) (xs : List Val) (hn : xs.length ≤ 2 ^ 62) :
    ∃ D, WF T (SegTree.from_iter T xs) D ∧ (SegTree.from_iter T xs).m_length = xs.length ∧
      ∀ i, i < xs.length → xs[i]? = some (lv T (SegTree.from_iter T xs) D i) := by
  obtain ⟨D, d1, h1, h2, h3, h4, h5, h6, h7, _⟩ := from_iter_spec T xs hn
  refine ⟨D, by rw [h4]; exact built_wf T hT _ D d1 h1 h2 h3 h5 h6, by rw [h4], ?_⟩
  intro i hi
  rw [h4]
  unfold lv
  simp only []
  have hpos : 1 ≤ 2 ^ D := Nat.one_le_two_pow
  obtain ⟨_, b2, b3, _⟩ := build_pass_spec T (2 ^ D - 1) d1 (by omega)
  rw [pt_of_mods_ident T hT _ D _ (fun u => by rw [b2, h6]), b3 _ (by omega)]
  exact h7 i hi

theorem leafAgg_eq_of_getElem? (d : List (Node Val Mod)) (D a n : Nat) (l : List Val)
    (hl : ∀ k, l[k]? = if k < n then some (pt T d D (a + k)) else none) :
    leafAgg T d D a n = foldJoin T l := by
  unfold leafAgg
  congr 1
  apply List.ext_getElem?
  intro k
  rw [hl k, List.getElem?_map]
  by_cases hk : k < n
  · rw [if_pos hk, List.getElem?_range' a 1 hk]
    simp
  · rw [if_neg hk, List.getElem?_eq_none (by simpa using hk)]
    rfl

/-- The answer of `query` on a well-formed tree is the left-to-right join of the
logical values of the slice `l` of positions `first .. last - 1`. -/
theorem query_eq_foldJoin (hT : T.Lawful) (t : SegTree Val Mod) (D : Nat) (hw : WF T t D)
    (first last : Nat) (hfl : first < last) (hl : last ≤ t.m_length) (l : List Val)
    (hsl : ∀ k, l[k]? = if k < last - first then some (lv T t D (first + k)) else none) :
    t.query T first last = foldJoin T l := by
  rw [query_spec T hT t D hw first last hfl hl]
  apply leafAgg_eq_of_getElem?
  intro k
  rw [hsl k]
  unfold lv
  rw [Nat.add_assoc]

end Meaning

/-! ## Properties of the tree -/

section Claims

variable {Val Mod : Type} (T : Traits Val Mod)

/-- C1.  Under the algebra contract, on the tree built by the iterator-range
constructor from a sequence `xs` (of at most `2 ^ 62` elements, the lengths for
which the constructor allocates the whole node vector) and not yet updated,
`query(first, last)` with `first < last ≤ len(xs)` is the left-to-right join of
`xs[first], ..., xs[last-1]`; in particular `query(0, len(xs))` is the left fold of
`join` over `xs` and `query(i, i+1) = xs[i]`. -/
theorem from_iter_query (hT : T.Lawful) (xs : List Val) (hn : xs.length ≤ 2 ^ 62) :
    (∀ first last, first < last → last ≤ xs.length →
      (SegTree.from_iter T xs).query T first last = foldJoin T ((xs.take last).drop first)) ∧
    (SegTree.from_iter T xs).query T 0 xs.length = xs.foldl T.join T.neutral ∧
    (∀ i (hi : i < xs.length), (SegTree.from_iter T xs).query T i (i + 1) = xs[i]) := by
  obtain ⟨D, hw, hlen, hlv⟩ := from_iter_lv T hT xs hn
  have main : ∀ first last, first < last → last ≤ xs.length →
      (SegTree.from_iter T xs).query T first last = foldJoin T ((xs.take last).drop first) := by
    intro first last hfl hl
    apply query_eq_foldJoin T hT _ D hw first last hfl (by rw [hlen]; exact hl)
    intro k
    rw [List.getElem?_drop, List.getElem?_take]
    by_cases hk : k < last - first
    · rw [if_pos hk, if_pos (by omega)]
      exact hlv _ (by omega)
    · rw [if_neg hk, if_neg (by omega)]
  refine ⟨main, ?_, ?_⟩
  · by_cases h0 : xs.length = 0
    · have hx : xs = [] := List.eq_nil_of_length_eq_zero h0
      subst hx
      rfl
    · rw [main 0 xs.length (by omega) (le_refl _), List.take_length, List.drop_zero,
        foldJoin_eq_foldl T hT]
  · intro i hi
    rw [query_point T _ D hw i (by rw [hlen]; exact hi)]
    have := hlv i hi
    rw [List.getElem?_eq_getElem hi] at this
    exact (Option.some.inj this).symm

/-- C1, instance: the sequence `[[1], [2], [3], [4], [5]]` in the affine algebra,
range `[1, 4)`. -/
theorem from_iter_query_witness :
    ([[1], [2], [3], [4], [5]] : List (List Int)).length ≤ 2 ^ 62 ∧
    ((∀ first last, first < last → last ≤ ([[1], [2], [3], [4], [5]] : List (List Int)).length →
      (SegTree.from_iter AffTraits [[1], [2], [3], [4], [5]]).query AffTraits first last =
        foldJoin AffTraits ((([[1], [2], [3], [4], [5]] : List (List Int)).take last).drop first)) ∧
    (SegTree.from_iter AffTraits [[1], [2], [3], [4], [5]]).query AffTraits 0
        ([[1], [2], [3], [4], [5]] : List (List Int)).length =
      ([[1], [2], [3], [4], [5]] : List (List Int)).foldl AffTraits.join AffTraits.neutral ∧
    (∀ i (hi : i < ([[1], [2], [3], [4], [5]] : List (List Int)).length),
      (SegTree.from_iter AffTraits [[1], [2], [3], [4], [5]]).query AffTraits i (i + 1) =
        ([[1], [2], [3], [4], [5]] : List (List Int))[i])) :=
  ⟨by decide, from_iter_query AffTraits AffTraits_lawful [[1], [2], [3], [4], [5]] (by decide)⟩

theorem sample_tree_reachable : Reachable AffTraits sample_tree :=
  Reachable.update _ 1 4 (2, 1) (Reachable.from_iter _ (by decide))

/-- C2.  Under the algebra contract, on every tree reachable from a constructor by
updates, after `update(a, b, f)` the point query at `i < length` returns
`apply(f, v_i)` when `a ≤ i < min(b, length)` and `v_i` otherwise, `v_i` being the
point query before the update. -/
theorem update_point_query (hT : T.Lawful) (t : SegTree Val Mod) (ht : Reachable T t)
    (a b : Nat) (f : Mod) (i : Nat) (hi : i < t.m_length) :
    (t.update T a b f).query T i (i + 1) =
      if a ≤ i ∧ i < min b t.m_length then T.apply f (t.query T i (i + 1))
      else t.query T i (i + 1) := by
  obtain ⟨D, hw⟩ := ht.wf T hT
  obtain ⟨hw2, hlv⟩ := update_spec T hT t D hw a b f
  have hiD : i < 2 ^ D := by
    have := hw.length_le
    have := hw.nleaves_eq
    omega
  rw [query_point T _ D hw2 i (by rw [update_length]; exact hi), query_point T t D hw i hi]
  have := hlv i hiD
  unfold lv at this
  rw [update_nleaves] at this ⊢
  exact this

/-- C2, instance: the sample tree, `update(0, 3, (3, 0))`, position 2. -/
theorem update_point_query_witness :
    Reachable AffTraits sample_tree ∧ 2 < sample_tree.m_length ∧
    (sample_tree.update AffTraits 0 3 (3, 0)).query AffTraits 2 (2 + 1) =
      if 0 ≤ 2 ∧ 2 < min 3 sample_tree.m_length then
        AffTraits.apply (3, 0) (sample_tree.query AffTraits 2 (2 + 1))
      else sample_tree.query AffTraits 2 (2 + 1) :=
  ⟨sample_tree_reachable, by decide,
    update_point_query AffTraits AffTraits_lawful sample_tree sample_tree_reachable 0 3 (3, 0) 2
      (by decide)⟩

/-- C3.  Under the algebra contract, without commutativity of `join`, on every
reachable tree `query(first, last)` with `first < last ≤ length` is the join of the
point queries `query(first, first+1), ..., query(last-1, last)` in increasing
position order. -/
theorem query_ordered_join (hT : T.Lawful) (t : SegTree Val Mod) (ht : Reachable T t)
    (first last : Nat) (hfl : first < last) (hl : last ≤ t.m_length) :
    t.query T first last =
      foldJoin T ((List.range' first (last - first)).map (fun i => t.query T i (i + 1))) := by
  obtain ⟨D, hw⟩ := ht.wf T hT
  apply query_eq_foldJoin T hT t D hw first last hfl hl
  intro k
  rw [List.getElem?_map]
  by_cases hk : k < last - first
  · rw [if_pos hk, List.getElem?_range' first 1 hk, Nat.one_mul]
    simp only [Option.map_some']
    rw [query_point T t D hw _ (by omega)]
    rfl
  · rw [if_neg hk, List.getElem?_eq_none (by simpa using hk)]
    rfl

/-- C3, instance: the sample tree (whose `join` is concatenation), range `[0, 5)`. -/
theorem query_ordered_join_witness :
    Reachable AffTraits sample_tree ∧ 0 < 5 ∧ 5 ≤ sample_tree.m_length ∧
    sample_tree.query AffTraits 0 5 =
      foldJoin AffTraits
        ((List.range' 0 (5 - 0)).map (fun i => sample_tree.query AffTraits i (i + 1))) :=
  ⟨sample_tree_reachable, by decide, by decide,
    query_ordered_join AffTraits AffTraits_lawful sample_tree sample_tree_reachable 0 5
      (by decide) (by decide)⟩

/-- C4.  The example of `examples/segtree.cpp`: on the tree built from
`[(2,1),(1,1),(3,1),(7,1)]` with `MyTraits`, `query(0,4)` has sum 13; after
`update(1,3,10)` the point queries have sums 2, 11, 13, 7, `query(1,3)` has sum 24
and `query(0,4)` has sum 33. -/
theorem example_scenario :
    (example_tree.query MyTraits 0 4).1 = 13 ∧
    ((example_tree.update MyTraits 1 3 10).query MyTraits 0 1).1 = 2 ∧
    ((example_tree.update MyTraits 1 3 10).query MyTraits 1 2).1 = 11 ∧
    ((example_tree.update MyTraits 1 3 10).query MyTraits 2 3).1 = 13 ∧
    ((example_tree.update MyTraits 1 3 10).query MyTraits 3 4).1 = 7 ∧
    ((example_tree.update MyTraits 1 3 10).query MyTraits 1 3).1 = 24 ∧
    ((example_tree.update MyTraits 1 3 10).query MyTraits 0 4).1 = 33 := by
  decide

/-- C5.  Under the algebra contract, on every reachable tree, `update(a,b,f)`
followed by `update(a,b,g)` and the single `update(a,b,compose(g,f))` give trees
that answer every `query(first, last)` alike. -/
theorem update_twice_eq_compose (hT : T.Lawful) (t : SegTree Val Mod) (ht : Reachable T t)
    (a b : Nat) (f g : Mod) (first last : Nat) :
    ((t.update T a b f).update T a b g).query T first last =
      (t.update T a b (T.compose g f)).query T first last := by
  obtain ⟨D, hw⟩ := ht.wf T hT
  obtain ⟨hw1, hlv1⟩ := update_spec T hT t D hw a b f
  obtain ⟨hw2, hlv2⟩ := update_spec T hT _ D hw1 a b g
  obtain ⟨hw3, hlv3⟩ := update_spec T hT t D hw a b (T.compose g f)
  have hle := hw.length_le
  have hN := hw.nleaves_eq
  apply query_congr T hT _ _ D hw2 hw3 (by simp only [update_length])
  intro i hi
  simp only [update_length] at hi hlv2
  rw [hlv2 i (by omega), hlv1 i (by omega), hlv3 i (by omega)]
  by_cases hin : a ≤ i ∧ i < min b t.m_length
  · rw [if_pos hin, if_pos hin, if_pos hin, hT.apply_compose]
  · rw [if_neg hin, if_neg hin, if_neg hin]

/-- C5, instance: the sample tree, range `[0, 3)`, `f = (3, 0)`, `g = (1, 7)`,
query `[0, 5)`. -/
theorem update_twice_eq_compose_witness :
    Reachable AffTraits sample_tree ∧
    ((sample_tree.update AffTraits 0 3 (3, 0)).update AffTraits 0 3 (1, 7)).query AffTraits 0 5 =
      (sample_tree.update AffTraits 0 3 (AffTraits.compose (1, 7) (3, 0))).query AffTraits 0 5 :=
  ⟨sample_tree_reachable,
    update_twice_eq_compose AffTraits AffTraits_lawful sample_tree sample_tree_reachable 0 3
      (3, 0) (1, 7) 0 5⟩

/-- C6.  Under the algebra contract (no commutativity of `compose`), on every
reachable tree, two updates whose clamped ranges share no position can be applied
in either order: the resulting trees answer every `query(first, last)` alike. -/
theorem update_disjoint_commute (hT : T.Lawful) (t : SegTree Val Mod) (ht : Reachable T t)
    (a b c d : Nat) (f g : Mod)
    (hdis : ∀ i, ¬ ((a ≤ i ∧ i < min b t.m_length) ∧ (c ≤ i ∧ i < min d t.m_length)))
    (first last : Nat) :
    ((t.update T a b f).update T c d g).query T first last =
      ((t.update T c d g).update T a b f).query T first last := by
  obtain ⟨D, hw⟩ := ht.wf T hT
  obtain ⟨hw1, hlv1⟩ := update_spec T hT t D hw a b f
  obtain ⟨hw2, hlv2⟩ := update_spec T hT _ D hw1 c d g
  obtain ⟨hw3, hlv3⟩ := update_spec T hT t D hw c d g
  obtain ⟨hw4, hlv4⟩ := update_spec T hT _ D hw3 a b f
  have hle := hw.length_le
  have hN := hw.nleaves_eq
  apply query_congr T hT _ _ D hw2 hw4 (by simp only [update_length])
  intro i hi
  simp only [update_length] at hi hlv2 hlv4
  rw [hlv2 i (by omega), hlv1 i (by omega), hlv4 i (by omega), hlv3 i (by omega)]
  have := hdis i
  by_cases h1 : a ≤ i ∧ i < min b t.m_length
  · have h2 : ¬ (c ≤ i ∧ i < min d t.m_length) := fun h2 => this ⟨h1, h2⟩
    simp only [if_pos h1, if_neg h2, if_false, if_true]
  · rw [if_neg h1, if_neg h1]

/-- C6, instance: the sample tree, ranges `[0, 2)` and `[2, 9)` (the latter clamped
to `[2, 5)`), modifications `(3, 0)` and `(1, 7)`, query `[0, 5)`. -/
theorem update_disjoint_commute_witness :
    Reachable AffTraits sample_tree ∧
    (∀ i, ¬ ((0 ≤ i ∧ i < min 2 sample_tree.m_length) ∧
      (2 ≤ i ∧ i < min 9 sample_tree.m_length))) ∧
    ((sample_tree.update AffTraits 0 2 (3, 0)).update AffTraits 2 9 (1, 7)).query AffTraits 0 5 =
      ((sample_tree.update AffTraits 2 9 (1, 7)).update AffTraits 0 2 (3, 0)).query AffTraits 0 5 :=
  ⟨sample_tree_reachable, fun i h => by have := h.1.2; have := h.2.1; omega,
    update_disjoint_commute AffTraits AffTraits_lawful sample_tree sample_tree_reachable 0 2 2 9
      (3, 0) (1, 7) (fun i h => by have := h.1.2; have := h.2.1; omega) 0 5⟩

/-- C7.  On every tree and for all `first`, `last` whose clamped range is empty
(`min(last, length) ≤ first`), `query` returns exactly `neutral()` and `update`
returns the tree unchanged in every field, for every `f` and every algebra. -/
theorem empty_range_noop (t : SegTree Val Mod) (first last : Nat) (f : Mod)
    (h : min last t.m_length ≤ first) :
    t.query T first last = T.neutral ∧ t.update T first last f = t :=
  ⟨query_empty T t first last h, update_empty T t first last f h⟩

/-- C7, instance: the example tree, `first = last = 5`. -/
theorem empty_range_noop_witness :
    min 5 example_tree.m_length ≤ 5 ∧
    (example_tree.query MyTraits 5 5 = MyTraits.neutral ∧
      example_tree.update MyTraits 5 5 10 = example_tree) :=
  ⟨by decide, empty_range_noop MyTraits example_tree 5 5 10 (by decide)⟩

/-- C8.  On every tree, for every `first` and every `last ≥ length`,
`query(first, last) = query(first, length)` and `update(first, last, f)` yields
the same tree as `update(first, length, f)`. -/
theorem clamp_last (t : SegTree Val Mod) (first last : Nat) (f : Mod)
    (h : t.m_length ≤ last) :
    t.query T first last = t.query T first t.m_length ∧
      t.update T first last f = t.update T first t.m_length f := by
  have hm : min last t.m_length = t.m_length := by omega
  constructor
  · rw [query_clamp, hm]
  · rw [update_clamp, hm]

/-- C8, instance: the example tree, `first = 1`, `last = 1000`. -/
theorem clamp_last_witness :
    example_tree.m_length ≤ 1000 ∧
    (example_tree.query MyTraits 1 1000 = example_tree.query MyTraits 1 example_tree.m_length ∧
      example_tree.update MyTraits 1 1000 10 =
        example_tree.update MyTraits 1 example_tree.m_length 10) :=
  ⟨by decide, clamp_last MyTraits example_tree 1 1000 10 (by decide)⟩

/-- C9, as the code has it.  For every length `n ≤ 2 ^ 63`, `SegTree(n)` has
`nleaves = calc_nleaves(n)`, the smallest power of two `≥ max(4, n)`, stores length
`n`, and its node vector has `(2 * nleaves) mod 2 ^ 64` entries (the `size_t`
product), which is `2 * nleaves` whenever `n ≤ 2 ^ 62`; every entry holds
`(neutral(), ident())`. -/
theorem new_length_layout (n : Nat) (hn : n ≤ 2 ^ 63) :
    (SegTree.new_length T n).m_nleaves = calc_nleaves n ∧
    (∃ k, calc_nleaves n = 2 ^ k ∧ max 4 n ≤ 2 ^ k ∧ ∀ j, max 4 n ≤ 2 ^ j → 2 ^ k ≤ 2 ^ j) ∧
    (SegTree.new_length T n).m_length = n ∧
    (SegTree.new_length T n).m_data.length = (2 * calc_nleaves n) % 2 ^ 64 ∧
    (n ≤ 2 ^ 62 →
      (SegTree.new_length T n).m_data.length = 2 * (SegTree.new_length T n).m_nleaves) ∧
    (∀ nd ∈ (SegTree.new_length T n).m_data, nd = ⟨T.neutral, T.ident⟩) := by
  obtain ⟨D, h1, h2, h3, h4, h5, h6⟩ := calc_nleaves_spec n hn
  have h22 : 4 ≤ 2 ^ D := by
    have := Nat.pow_le_pow_right (n := 2) (by norm_num) h1
    simpa using this
  refine ⟨rfl, ⟨D, h3, by omega, fun j hj => h5 j (by omega) (by omega)⟩, rfl,
    by simp [SegTree.new_length], ?_, ?_⟩
  · intro h62
    have hD := h6 h62
    have : 2 ^ D ≤ 2 ^ 62 := Nat.pow_le_pow_right (by norm_num) hD
    simp only [SegTree.new_length, List.length_replicate]
    rw [h3, Nat.mod_eq_of_lt (by omega)]
  · intro nd hnd
    simp only [SegTree.new_length] at hnd
    exact List.eq_of_mem_replicate hnd

/-- C9, instance: length 5. -/
theorem new_length_layout_witness :
    5 ≤ 2 ^ 63 ∧
    ((SegTree.new_length MyTraits 5).m_nleaves = calc_nleaves 5 ∧
    (∃ k, calc_nleaves 5 = 2 ^ k ∧ max 4 5 ≤ 2 ^ k ∧ ∀ j, max 4 5 ≤ 2 ^ j → 2 ^ k ≤ 2 ^ j) ∧
    (SegTree.new_length MyTraits 5).m_length = 5 ∧
    (SegTree.new_length MyTraits 5).m_data.length = (2 * calc_nleaves 5) % 2 ^ 64 ∧
    (5 ≤ 2 ^ 62 →
      (SegTree.new_length MyTraits 5).m_data.length = 2 * (SegTree.new_length MyTraits 5).m_nleaves) ∧
    (∀ nd ∈ (SegTree.new_length MyTraits 5).m_data, nd = ⟨MyTraits.neutral, MyTraits.ident⟩)) :=
  ⟨by decide, new_length_layout MyTraits 5 (by decide)⟩

/-- C9 as stated fails at `n = 2 ^ 62 + 1 ≤ 2 ^ 63`: `nleaves` is `2 ^ 63`, the
product `2 * nleaves` wraps to 0 in `size_t`, and the node vector is empty instead
of holding `2 * nleaves = 2 ^ 64` entries. -/
theorem new_length_overflow :
    2 ^ 62 + 1 ≤ 2 ^ 63 ∧
    (SegTree.new_length MyTraits (2 ^ 62 + 1)).m_nleaves = 2 ^ 63 ∧
    (SegTree.new_length MyTraits (2 ^ 62 + 1)).m_data.length = 0 ∧
    (SegTree.new_length MyTraits (2 ^ 62 + 1)).m_data.length ≠
      2 * (SegTree.new_length MyTraits (2 ^ 62 + 1)).m_nleaves := by
  decide

/-- C10.  For every length `n` (at most `2 ^ 62`, so that the node vector is
allocated in full) and value `x`, `SegTree(n, x)` has a vector of `2 * nleaves`
nodes in which leaf `nleaves + i` holds `x` for `i < n` and `neutral()` for
`n ≤ i < nleaves`, every internal node `i` in `[1, nleaves)` holds
`join(val[2i], val[2i+1])`, and every node has `mod = ident()`. -/
theorem fill_layout (n : Nat) (x : Val) (hn : n ≤ 2 ^ 62) :
    (SegTree.fill T n x).m_data.length = 2 * (SegTree.fill T n x).m_nleaves ∧
    (∀ i, i < n →
      (rd T (SegTree.fill T n x).m_data ((SegTree.fill T n x).m_nleaves + i)).val = x) ∧
    (∀ i, n ≤ i → i < (SegTree.fill T n x).m_nleaves →
      (rd T (SegTree.fill T n x).m_data ((SegTree.fill T n x).m_nleaves + i)).val = T.neutral) ∧
    (∀ i, 1 ≤ i → i < (SegTree.fill T n x).m_nleaves →
      (rd T (SegTree.fill T n x).m_data i).val =
        T.join (rd T (SegTree.fill T n x).m_data (2 * i)).val
          (rd T (SegTree.fill T n x).m_data (2 * i + 1)).val) ∧
    (∀ i, i < 2 * (SegTree.fill T n x).m_nleaves →
      (rd T (SegTree.fill T n x).m_data i).mod = T.ident) := by
  obtain ⟨D, d1, _, _, _, h4, h5, h6, h7, h8⟩ := fill_spec T n x hn
  have hpos : 1 ≤ 2 ^ D := Nat.one_le_two_pow
  obtain ⟨b1, b2, b3, b4⟩ := build_pass_spec T (2 ^ D - 1) d1 (by omega)
  rw [h4]
  simp only []
  refine ⟨by rw [b1, h5], ?_, ?_, ?_, ?_⟩
  · intro i hi
    exact (b3 _ (by omega)).trans (h7 i hi)
  · intro i hi _
    exact (b3 _ (by omega)).trans (h8 i hi)
  · intro i hi1 hi2
    exact b4 i hi1 (by omega)
  · intro i _
    exact (b2 i).trans (h6 i)

/-- C10, instance: length 3 filled with `(5, 1)` in the example algebra. -/
theorem fill_layout_witness :
    3 ≤ 2 ^ 62 ∧
    ((SegTree.fill MyTraits 3 (5, 1)).m_data.length = 2 * (SegTree.fill MyTraits 3 (5, 1)).m_nleaves ∧
    (∀ i, i < 3 →
      (rd MyTraits (SegTree.fill MyTraits 3 (5, 1)).m_data
        ((SegTree.fill MyTraits 3 (5, 1)).m_nleaves + i)).val = (5, 1)) ∧
    (∀ i, 3 ≤ i → i < (SegTree.fill MyTraits 3 (5, 1)).m_nleaves →
      (rd MyTraits (SegTree.fill MyTraits 3 (5, 1)).m_data
        ((SegTree.fill MyTraits 3 (5, 1)).m_nleaves + i)).val = MyTraits.neutral) ∧
    (∀ i, 1 ≤ i → i < (SegTree.fill MyTraits 3 (5, 1)).m_nleaves →
      (rd MyTraits (SegTree.fill MyTraits 3 (5, 1)).m_data i).val =
        MyTraits.join (rd MyTraits (SegTree.fill MyTraits 3 (5, 1)).m_data (2 * i)).val
          (rd MyTraits (SegTree.fill MyTraits 3 (5, 1)).m_data (2 * i + 1)).val) ∧
    (∀ i, i < 2 * (SegTree.fill MyTraits 3 (5, 1)).m_nleaves →
      (rd MyTraits (SegTree.fill MyTraits 3 (5, 1)).m_data i).mod = MyTraits.ident)) :=
  ⟨by decide, fill_layout MyTraits 3 (5, 1) (by decide)⟩

end Claims

/-! ## Frame of `update`, without assumptions on the algebra -/

section Frame

variable {Val Mod : Type} (T : Traits Val Mod)

theorem not_PA_one (v : Nat) (hv : 1 ≤ v) : ¬ PA v 1 := by
  rintro ⟨i, hi, rfl⟩
  have : 1 / 2 ^ i = 0 := Nat.div_eq_of_lt (Nat.one_lt_two_pow (by omega))
  omega

/-- The final loop `while (p /= 2) recalc(p);` changes stored values only at
proper ancestors of `p`, changes no modification, and establishes the
stored-value equation at every proper ancestor of `p`. -/
theorem update_climb_frame (D : Nat) :
    ∀ (e fuel p : Nat) (d : List (Node Val Mod)), Lvl e p → e ≤ D → p ≤ fuel →
      d.length = 2 * 2 ^ D →
      (update_climb T fuel p d).length = 2 * 2 ^ D ∧
      (∀ j, mods T (update_climb T fuel p d) j = mods T d j) ∧
      (∀ u, ¬ PA u p → vals T (update_climb T fuel p d) u = vals T d u) ∧
      (∀ v, 1 ≤ v → v < 2 ^ D → (¬ PA v p → NodeOK T d v) →
        NodeOK T (update_climb T fuel p d) v) := by
  intro e
  induction e with
  | zero =>
    intro fuel p d hp _ hf hlen
    have hp1 := lvl_zero_eq hp
    subst hp1
    obtain ⟨fuel, rfl⟩ : ∃ f0, fuel = f0 + 1 := ⟨fuel - 1, by omega⟩
    simp only [update_climb]
    exact ⟨hlen, fun _ => rfl, fun _ _ => rfl, fun v hv1 _ h => h (not_PA_one v hv1)⟩
  | succ e ih =>
    intro fuel p d hp heD hf hlen
    have hh := hp.half
    have hpos := hh.pos
    have hlt : p / 2 < 2 ^ D := hh.lt_of_lt (by omega)
    obtain ⟨fuel, rfl⟩ : ∃ f0, fuel = f0 + 1 := ⟨fuel - 1, by have := hp.pos; omega⟩
    simp only [update_climb]
    rw [if_pos (by omega)]
    obtain ⟨r1, r2, r3, r4⟩ := ih fuel (p / 2) (recalc T d (p / 2)) hh (by omega) (by omega)
      (by simpa using hlen)
    refine ⟨r1, ?_, ?_, ?_⟩
    · intro j
      rw [r2 j, mods_recalc]
    · intro u hu
      rw [r3 u (fun h => hu h.of_half), vals_recalc T d _ u (by omega),
        if_neg (by rintro rfl; exact hu (PA.half_self p))]
    · intro v hv1 hv2 hok
      apply r4 v hv1 hv2
      intro hpa
      by_cases hv : v = p / 2
      · subst hv
        exact nodeOK_recalc_self T d _ hpos (by omega)
      · apply nodeOK_recalc T d (p / 2) v (by omega) hv
        · intro h2
          exact hpa ⟨1, le_refl 1, by simp; omega⟩
        · intro h2
          exact hpa ⟨1, le_refl 1, by simp; omega⟩
        · apply hok
          intro hpa2
          rcases hpa2.cases with h3 | h3
          · exact hv h3
          · exact hpa h3

theorem Target.of_halves {p q u : Nat} (h : Target (p / 2) (q / 2) u) : Target p q u := by
  obtain ⟨i, h1, h2, h3⟩ := h
  refine ⟨i + 1, ?_, ?_, ?_⟩
  · rwa [← div_pow_succ]
  · rwa [← div_pow_succ]
  · rw [← div_pow_succ p, ← div_pow_succ q]
    exact h3

/-- The two-pointer loop of `update` followed by the final climb: modifications
change only at target nodes, stored values only at proper ancestors of `p` or `q`,
and the stored-value equation holds afterwards wherever it held before or the node
is such an ancestor. -/
theorem update_loop_frame (D : Nat) (f : Mod) :
    ∀ (fuel e p q : Nat) (d : List (Node Val Mod)), Lvl e p → Lvl e q → p < q → p + q ≤ fuel →
      e ≤ D → d.length = 2 * 2 ^ D →
      (update_climb T (update_loop T f fuel p q d).1 (update_loop T f fuel p q d).1
          (update_loop T f fuel p q d).2).length = 2 * 2 ^ D ∧
      (∀ u, ¬ Target p q u →
        mods T (update_climb T (update_loop T f fuel p q d).1 (update_loop T f fuel p q d).1
          (update_loop T f fuel p q d).2) u = mods T d u) ∧
      (∀ u, ¬ PA u p → ¬ PA u q →
        vals T (update_climb T (update_loop T f fuel p q d).1 (update_loop T f fuel p q d).1
          (update_loop T f fuel p q d).2) u = vals T d u) ∧
      (∀ v, 1 ≤ v → v < 2 ^ D → (¬ PA v p → ¬ PA v q → NodeOK T d v) →
        NodeOK T (update_climb T (update_loop T f fuel p q d).1 (update_loop T f fuel p q d).1
          (update_loop T f fuel p q d).2) v) := by
  intro fuel
  induction fuel with
  | zero =>
    intro e p q d hp hq hpq hf
    have := hp.pos
    omega
  | succ fuel ih =>
    intro e p q d hp hq hpq hf heD hlen
    have hD1 : 2 ^ (D + 1) = 2 * 2 ^ D := by rw [pow_succ]; omega
    have hpD : p < 2 ^ (D + 1) := hp.lt_of_lt (by omega)
    have hqD : q < 2 ^ (D + 1) := hq.lt_of_lt (by omega)
    by_cases hne : p / 2 ≠ q / 2
    · cases e with
      | zero =>
        have := lvl_zero_eq hp
        have := lvl_zero_eq hq
        omega
      | succ e =>
        simp only [update_loop, if_pos hne]
        have hph := hp.half
        have hqh := hq.half
        have hpw : 2 ^ (e + 1) = 2 * 2 ^ e := by rw [pow_succ]; omega
        have hph1 := hph.1
        have hqh2 := hqh.2
        have hlt1 : 2 ^ (e + 1) ≤ 2 ^ D := Nat.pow_le_pow_right (by norm_num) heD
        obtain ⟨d2, hd2, hl2, hm2, hv2, hok2⟩ : ∃ d2,
            d2 = (if q % 2 = 1 then
                setMod T (if p % 2 = 0 then setMod T d (p + 1) (T.compose f (rd T d (p + 1)).mod)
                  else d) (q - 1)
                  (T.compose f (rd T (if p % 2 = 0 then
                    setMod T d (p + 1) (T.compose f (rd T d (p + 1)).mod) else d) (q - 1)).mod)
              else if p % 2 = 0 then setMod T d (p + 1) (T.compose f (rd T d (p + 1)).mod) else d) ∧
            d2.length = 2 * 2 ^ D ∧
            (∀ u, ¬ Target p q u → mods T d2 u = mods T d u) ∧
            (∀ u, vals T d2 u = vals T d u) ∧
            (∀ v, v ≠ p / 2 → v ≠ q / 2 → NodeOK T d v → NodeOK T d2 v) := by
          refine ⟨_, rfl, ?_⟩
          have ht1 : p % 2 = 0 → Target p q (p + 1) := fun h0 =>
            ⟨0, by simp, by simp; omega, Or.inl (by simp; omega)⟩
          have ht2 : q % 2 = 1 → Target p q (q - 1) := fun h1 =>
            ⟨0, by simp; omega, by simp; omega, Or.inr (by simp; omega)⟩
          by_cases h0 : p % 2 = 0 <;> by_cases h1 : q % 2 = 1
          · simp only [if_pos h0, if_pos h1]
            refine ⟨by simpa using hlen, ?_, fun u => by simp, ?_⟩
            · intro u hu
              rw [mods_setMod T _ _ u _ (by simp; omega), if_neg (by rintro rfl; exact hu (ht2 h1)),
                mods_setMod T _ _ u _ (by omega), if_neg (by rintro rfl; exact hu (ht1 h0))]
            · intro v hv1 hv2 hok
              exact nodeOK_setMod T _ _ v _ (by omega) (by omega)
                (nodeOK_setMod T d _ v _ (by omega) (by omega) hok)
          · simp only [if_pos h0, if_neg h1]
            refine ⟨by simpa using hlen, ?_, fun u => by simp, ?_⟩
            · intro u hu
              rw [mods_setMod T _ _ u _ (by omega), if_neg (by rintro rfl; exact hu (ht1 h0))]
            · intro v hv1 hv2 hok
              exact nodeOK_setMod T d _ v _ (by omega) (by omega) hok
          · simp only [if_neg h0, if_pos h1]
            refine ⟨by simpa using hlen, ?_, fun u => by simp, ?_⟩
            · intro u hu
              rw [mods_setMod T _ _ u _ (by omega), if_neg (by rintro rfl; exact hu (ht2 h1))]
            · intro v hv1 hv2 hok
              exact nodeOK_setMod T d _ v _ (by omega) (by omega) hok
          · rw [if_neg h1, if_neg h0]
            exact ⟨hlen, fun _ _ => rfl, fun _ => rfl, fun _ _ _ hok => hok⟩
        rw [← hd2]
        have hp1len : p / 2 < d2.length := by omega
        have hq1len : q / 2 < d2.length := by omega
        obtain ⟨r1, r2, r3, r4⟩ := ih e (p / 2) (q / 2) (recalc T (recalc T d2 (p / 2)) (q / 2))
          hph hqh (by omega) (by omega) (by omega) (by simpa using hl2)
        refine ⟨r1, ?_, ?_, ?_⟩
        · intro u hu
          rw [r2 u (fun h => hu h.of_halves)]
          simp only [mods_recalc]
          exact hm2 u hu
        · intro u hup huq
          rw [r3 u (fun h => hup h.of_half) (fun h => huq h.of_half),
            vals_recalc T _ _ u (by simpa using hq1len),
            if_neg (by rintro rfl; exact huq (PA.half_self q)), vals_recalc T _ _ u hp1len,
            if_neg (by rintro rfl; exact hup (PA.half_self p))]
          exact hv2 u
        · intro v hv1 hvD hok
          apply r4 v hv1 hvD
          intro hv3 hv4
          by_cases hvp : v = p / 2
          · subst hvp
            exact nodeOK_recalc T _ _ _ (by simpa using hq1len) (by omega) (by omega) (by omega)
              (nodeOK_recalc_self T d2 _ hv1 hp1len)
          · by_cases hvq : v = q / 2
            · subst hvq
              exact nodeOK_recalc_self T _ _ hv1 (by simpa using hq1len)
            · have hnp : ¬ PA v p := fun hpa => by
                rcases hpa.cases with h3 | h3
                · exact hvp h3
                · exact hv3 h3
              have hnq : ¬ PA v q := fun hpa => by
                rcases hpa.cases with h3 | h3
                · exact hvq h3
                · exact hv4 h3
              apply nodeOK_recalc T _ _ _ (by simpa using hq1len) hvq
              · intro h2
                exact hv4 ⟨1, le_refl 1, by simp; omega⟩
              · intro h2
                exact hv4 ⟨1, le_refl 1, by simp; omega⟩
              apply nodeOK_recalc T _ _ _ hp1len hvp
              · intro h2
                exact hv3 ⟨1, le_refl 1, by simp; omega⟩
              · intro h2
                exact hv3 ⟨1, le_refl 1, by simp; omega⟩
              exact hok2 v hvp hvq (hok hnp hnq)
    · have heq : p / 2 = q / 2 := by omega
      simp only [update_loop, if_neg hne]
      obtain ⟨c1, c2, c3, c4⟩ := update_climb_frame T D e p p d hp heD (le_refl _) hlen
      refine ⟨c1, fun u _ => c2 u, fun u hu _ => c3 u hu, ?_⟩
      intro v hv1 hvD hok
      exact c4 v hv1 hvD (fun hpa => hok hpa (fun hq2 => hpa (hq2.of_sibling heq)))

end Frame

section Frame2

variable {Val Mod : Type} (T : Traits Val Mod)

theorem PA.lt_self {v p : Nat} (h : PA v p) (hp : 1 ≤ p) : v < p := by
  obtain ⟨i, hi, rfl⟩ := h
  exact anc_lt hp hi

theorem PA.lvl {e v p : Nat} (h : PA v p) (hp : Lvl e p) (hv : 1 ≤ v) :
    ∃ i, 1 ≤ i ∧ i ≤ e ∧ v = p / 2 ^ i ∧ Lvl (e - i) v := by
  obtain ⟨i, hi, rfl⟩ := h
  have hie := (anc_pos_iff hp i).mp hv
  exact ⟨i, hi, hie, rfl, path_lvl hp i hie⟩

theorem PA.ne_of_lvl {e u p q : Nat} (h : PA u q) (hu : 1 ≤ u) (hp : Lvl e p) (hq : Lvl e q) :
    u ≠ p := by
  rintro rfl
  obtain ⟨i, hi, _, _, hl⟩ := h.lvl hq hu
  have := Lvl.unique hl hp
  omega

/-- A target node is on the level of the ancestors it lies between; it is neither
`p`, `q` nor one of their proper ancestors, and its parent is a proper ancestor of
`p` or of `q`. -/
theorem Target.spec {e p q u : Nat} (hp : Lvl e p) (hq : Lvl e q) (h : Target p q u) :
    u ≠ p ∧ u ≠ q ∧ ¬ PA u p ∧ ¬ PA u q ∧ (PA (u / 2) p ∨ PA (u / 2) q) ∧
      ∃ h, h ≤ e ∧ Lvl (e - h) u ∧ p / 2 ^ h < u ∧ u < q / 2 ^ h := by
  obtain ⟨h, h1, h2, h3⟩ := h
  have hhe : h ≤ e := by
    by_contra hne
    have : q / 2 ^ h = 0 := Nat.div_eq_of_lt (hq.lt_of_lt (by omega))
    omega
  have hpl := path_lvl hp h hhe
  have hql := path_lvl hq h hhe
  have hul : Lvl (e - h) u := ⟨by have := hpl.1; omega, by have := hql.2; omega⟩
  have hu1 := hul.pos
  refine ⟨?_, ?_, ?_, ?_, ?_, ⟨h, hhe, hul, h1, h2⟩⟩
  · rintro rfl
    have := Lvl.unique hul hp
    have h0 : h = 0 := by omega
    subst h0
    simp at h1
  · rintro rfl
    have := Lvl.unique hul hq
    have h0 : h = 0 := by omega
    subst h0
    simp at h2
  · intro hpa
    obtain ⟨i, _, hie, rfl, hl⟩ := hpa.lvl hp hu1
    have := Lvl.unique hul hl
    have hih : i = h := by omega
    subst hih
    omega
  · intro hpa
    obtain ⟨i, _, hie, rfl, hl⟩ := hpa.lvl hq hu1
    have := Lvl.unique hul hl
    have hih : i = h := by omega
    subst hih
    omega
  · rcases h3 with h3 | h3
    · exact Or.inl ⟨h + 1, by omega, h3⟩
    · exact Or.inr ⟨h + 1, by omega, h3⟩

/-- The push-down phase, without assumptions on the algebra: size and stored
values are kept, modifications change only at proper ancestors of `p` or `q` and
their children, all these ancestors end with the identity, and the stored-value
equation survives at every other node. -/
theorem push_phase_frame (d : List (Node Val Mod)) {D p q : Nat}
    (hlen : d.length = 2 * 2 ^ D) (hp : Lvl D p) (hq : Lvl D q) (hD : D ≤ 62) (hpq : p ≤ q) :
    (push_phase T d p q).length = d.length ∧
    (∀ j, vals T (push_phase T d p q) j = vals T d j) ∧
    (∀ u, ¬ PA u p → ¬ PA u q → ¬ PA (u / 2) p → ¬ PA (u / 2) q →
      mods T (push_phase T d p q) u = mods T d u) ∧
    AncIdent T (push_phase T d p q) p ∧ AncIdent T (push_phase T d p q) q ∧
    (∀ v, 1 ≤ v → ¬ PA v p → ¬ PA v q → NodeOK T d v → NodeOK T (push_phase T d p q) v) := by
  rw [push_phase_eq T d hp hq hD]
  have hL := pushNodes_internal hp hq hD
  refine ⟨length_pushList T d _, vals_pushList T d _, ?_, ?_, ?_, ?_⟩
  · intro u h1 h2 h3 h4
    apply mods_pushList_frame T d D _ hlen hL
    intro w hw
    obtain ⟨_, hw2⟩ := pushNodes_mem hp hq hD w hw
    constructor
    · rintro rfl
      rcases hw2 with h | h
      · exact h1 h
      · exact h2 h
    · rintro rfl
      rcases hw2 with h | h
      · exact h3 h
      · exact h4 h
  · intro i hi hpos
    exact ident_pushList T d D _ hlen hL (pushNodes_sorted hp hq hD hpq) _
      ((pushNodes_anc hp hq hD i hi).1 hpos)
  · intro i hi hpos
    exact ident_pushList T d D _ hlen hL (pushNodes_sorted hp hq hD hpq) _
      ((pushNodes_anc hp hq hD i hi).2 hpos)
  · intro v hv hnp hnq hok
    apply nodeOK_pushList T d D _ hlen hL v _ hok
    intro w hw
    obtain ⟨hw1, hw2⟩ := pushNodes_mem hp hq hD w hw
    constructor
    · rintro rfl
      rcases hw2 with h | h
      · exact hnp h
      · exact hnq h
    · rintro rfl
      rcases hw2 with ⟨i, hi, rfl⟩ | ⟨i, hi, rfl⟩
      · exact hnp ⟨i + 1, by omega, by rw [← div_pow_add, pow_one]⟩
      · exact hnq ⟨i + 1, by omega, by rw [← div_pow_add, pow_one]⟩

/-- The frame of `update` on vectors, for boundary leaves `p ≤ q` and any algebra. -/
theorem update_data_frame (d : List (Node Val Mod)) (D p q : Nat) (f : Mod) (hD : D ≤ 62)
    (hlen : d.length = 2 * 2 ^ D) (hp : Lvl D p) (hq : Lvl D q) (hpq : p ≤ q) :
    (update_data T d p q f).length = 2 * 2 ^ D ∧
    (∀ u, ¬ PA u p → ¬ PA u q → vals T (update_data T d p q f) u = vals T d u) ∧
    (∀ u, u ≠ p → u ≠ q → ¬ PA u p → ¬ PA u q → ¬ PA (u / 2) p → ¬ PA (u / 2) q →
      mods T (update_data T d p q f) u = mods T d u) ∧
    AncIdent T (update_data T d p q f) p ∧ AncIdent T (update_data T d p q f) q ∧
    (∀ v, 1 ≤ v → v < 2 ^ D → (¬ PA v p → ¬ PA v q → NodeOK T d v) →
      NodeOK T (update_data T d p q f) v) := by
  obtain ⟨hA1, hA2, hA3, hA4, hA5, hA6⟩ := push_phase_frame T d hlen hp hq hD hpq
  have hlenA : (push_phase T d p q).length = 2 * 2 ^ D := by rw [hA1, hlen]
  have hD1 : 2 ^ (D + 1) = 2 * 2 ^ D := by rw [pow_succ]; omega
  have hpl := hp.2
  have hql := hq.2
  have hp1 := hp.pos
  have hq1 := hq.pos
  have hok1 : ∀ v, 1 ≤ v → ¬ PA v p → ¬ PA v q → NodeOK T d v →
      NodeOK T (setMod T (push_phase T d p q) p (T.compose f (mods T (push_phase T d p q) p))) v := by
    intro v hv1 hv3 hv4 hok
    apply nodeOK_setMod
    · intro h
      exact hv3 ⟨1, le_refl 1, by simp; omega⟩
    · intro h
      exact hv3 ⟨1, le_refl 1, by simp; omega⟩
    · exact hA6 v hv1 hv3 hv4 hok
  unfold update_data
  by_cases hne : p ≠ q
  · rw [if_pos hne]
    obtain ⟨d2, hd2⟩ : ∃ d2, d2 = setMod T (setMod T (push_phase T d p q) p
        (T.compose f (mods T (push_phase T d p q) p))) q
        (T.compose f (mods T (setMod T (push_phase T d p q) p
          (T.compose f (mods T (push_phase T d p q) p))) q)) := ⟨_, rfl⟩
    rw [← hd2]
    have hl2 : d2.length = 2 * 2 ^ D := by rw [hd2]; simpa using hlenA
    have hset : ∀ u, u ≠ p → u ≠ q → mods T d2 u = mods T (push_phase T d p q) u := by
      intro u h1 h2
      rw [hd2, mods_setMod T _ _ u _ (by simp; omega), if_neg h2,
        mods_setMod T _ _ u _ (by omega), if_neg h1]
    have hvals : ∀ u, vals T d2 u = vals T d u := by
      intro u
      rw [hd2]
      simp only [vals_setMod]
      exact hA2 u
    obtain ⟨l1, l2, l3, l4⟩ := update_loop_frame T D f (p + q) D p q d2
      hp hq (by omega) (le_refl _) (le_refl _) hl2
    refine ⟨l1, ?_, ?_, ?_, ?_, ?_⟩
    · intro u h1 h2
      rw [l3 u h1 h2, hvals]
    · intro u h1 h2 h3 h4 h5 h6
      rw [l2 u (fun ht => by
        rcases (ht.spec hp hq).2.2.2.2.1 with h | h
        · exact h5 h
        · exact h6 h), hset u h1 h2]
      exact hA3 u h3 h4 h5 h6
    · intro i hi hpos
      have hpa : PA (p / 2 ^ i) p := ⟨i, hi, rfl⟩
      rw [l2 _ (fun ht => (ht.spec hp hq).2.2.1 hpa),
        hset _ (by have := hpa.lt_self hp1; omega) (by have := hpa.lt_self hp1; omega)]
      exact hA4 i hi hpos
    · intro i hi hpos
      have hpa : PA (q / 2 ^ i) q := ⟨i, hi, rfl⟩
      rw [l2 _ (fun ht => (ht.spec hp hq).2.2.2.1 hpa),
        hset _ (hpa.ne_of_lvl hpos hp hq) (by have := hpa.lt_self hq1; omega)]
      exact hA5 i hi hpos
    · intro v hv1 hvD hok
      apply l4 v hv1 hvD
      intro hv3 hv4
      rw [hd2]
      apply nodeOK_setMod
      · intro h
        exact hv4 ⟨1, le_refl 1, by simp; omega⟩
      · intro h
        exact hv4 ⟨1, le_refl 1, by simp; omega⟩
      · exact hok1 v hv1 hv3 hv4 (hok hv3 hv4)
  · have heq : p = q := by omega
    subst heq
    rw [if_neg hne]
    obtain ⟨c1, c2, c3, c4⟩ := update_climb_frame T D D p p
      (setMod T (push_phase T d p p) p (T.compose f (mods T (push_phase T d p p) p)))
      hp (le_refl _) (le_refl _) (by simpa using hlenA)
    have hmods : ∀ u, u ≠ p →
        mods T (update_climb T p p (setMod T (push_phase T d p p) p
          (T.compose f (mods T (push_phase T d p p) p)))) u = mods T (push_phase T d p p) u := by
      intro u h1
      rw [c2 u, mods_setMod T _ _ u _ (by omega), if_neg h1]
    refine ⟨c1, ?_, ?_, ?_, ?_, ?_⟩
    · intro u h1 _
      rw [c3 u h1]
      simp only [vals_setMod]
      exact hA2 u
    · intro u h1 _ h3 _ h5 _
      rw [hmods u h1]
      exact hA3 u h3 h3 h5 h5
    · intro i hi hpos
      have hpa : PA (p / 2 ^ i) p := ⟨i, hi, rfl⟩
      rw [hmods _ (by have := hpa.lt_self hp1; omega)]
      exact hA4 i hi hpos
    · intro i hi hpos
      have hpa : PA (p / 2 ^ i) p := ⟨i, hi, rfl⟩
      rw [hmods _ (by have := hpa.lt_self hp1; omega)]
      exact hA4 i hi hpos
    · intro v hv1 hvD hok
      apply c4 v hv1 hvD
      intro hv3
      exact hok1 v hv1 hv3 hv3 (hok hv3 hv3)

end Frame2

section TreeFrame

variable {Val Mod : Type} (T : Traits Val Mod)

theorem update_eq_data (t : SegTree Val Mod) (first last : Nat) (f : Mod)
    (h : first < min last t.m_length) :
    t.update T first last f =
      ⟨t.m_length, t.m_nleaves, update_data T t.m_data (t.m_nleaves + first)
        (t.m_nleaves + min last t.m_length - 1) f⟩ := by
  rw [update_clamp, update_unfold T t first _ f h (by omega)]

theorem Shape.leaves {t : SegTree Val Mod} {D : Nat} (hs : Shape t D) (first last : Nat)
    (h : first < min last t.m_length) :
    Lvl D (t.m_nleaves + first) ∧ Lvl D (t.m_nleaves + min last t.m_length - 1) ∧
      t.m_nleaves + first ≤ t.m_nleaves + min last t.m_length - 1 := by
  have hN := hs.nleaves_eq
  have hl := hs.length_le
  refine ⟨by rw [hN]; exact lvl_leaf D first (by omega), ?_, by omega⟩
  rw [show t.m_nleaves + min last t.m_length - 1 = 2 ^ D + (min last t.m_length - 1) by omega]
  exact lvl_leaf D _ (by omega)

theorem Shape.update {t : SegTree Val Mod} {D : Nat} (hs : Shape t D) (first last : Nat)
    (f : Mod) : Shape (t.update T first last f) D := by
  by_cases hemp : min last t.m_length ≤ first
  · rw [update_empty T t first last f hemp]
    exact hs
  · have h : first < min last t.m_length := by omega
    obtain ⟨hp, hq, hpq⟩ := hs.leaves first last h
    rw [update_eq_data T t first last f h]
    have := (update_data_frame T t.m_data D _ _ f hs.depth_le
      (by rw [hs.size_eq, hs.nleaves_eq]) hp hq hpq).1
    exact ⟨hs.depth_ge, hs.depth_le, hs.nleaves_eq, hs.length_le, by rw [this, hs.nleaves_eq]⟩

theorem WF.shape {t : SegTree Val Mod} {D : Nat} (hw : WF T t D) : Shape t D :=
  ⟨hw.depth_ge, hw.depth_le, hw.nleaves_eq, hw.length_le, hw.size_eq⟩

theorem Reachable.exists_shape {t : SegTree Val Mod} (h : Reachable T t) : ∃ D, Shape t D := by
  induction h with
  | new_length n hn =>
    obtain ⟨D, h1, h2, h3, h4⟩ := new_length_spec T n hn
    exact ⟨D, by rw [h4]; exact ⟨h1, h2, rfl, h3, by simp⟩⟩
  | fill n x hn =>
    obtain ⟨D, d1, h1, h2, h3, h4, h5, _⟩ := fill_spec T n x hn
    have hpos : 1 ≤ 2 ^ D := Nat.one_le_two_pow
    have hb := (build_pass_spec T (2 ^ D - 1) d1 (by omega)).1
    exact ⟨D, by rw [h4]; exact ⟨h1, h2, rfl, h3, by rw [hb, h5]⟩⟩
  | from_iter xs hn =>
    obtain ⟨D, d1, h1, h2, h3, h4, h5, _⟩ := from_iter_spec T xs hn
    have hpos : 1 ≤ 2 ^ D := Nat.one_le_two_pow
    have hb := (build_pass_spec T (2 ^ D - 1) d1 (by omega)).1
    exact ⟨D, by rw [h4]; exact ⟨h1, h2, rfl, h3, by rw [hb, h5]⟩⟩
  | update t first last f _ ih =>
    obtain ⟨D, hD⟩ := ih
    exact ⟨D, hD.update T first last f⟩

/-! Index 0 of the vector is never written. -/

theorem rd_setVal_ne (d : List (Node Val Mod)) (i j : Nat) (v : Val) (h : j ≠ i) :
    rd T (setVal T d i v) j = rd T d j := by
  unfold setVal
  rw [rd_set, if_neg (fun hc => h hc.1)]

theorem rd_setMod_ne (d : List (Node Val Mod)) (i j : Nat) (m : Mod) (h : j ≠ i) :
    rd T (setMod T d i m) j = rd T d j := by
  unfold setMod
  rw [rd_set, if_neg (fun hc => h hc.1)]

theorem rd_recalc_ne (d : List (Node Val Mod)) (w j : Nat) (h : j ≠ w) :
    rd T (recalc T d w) j = rd T d j :=
  rd_setVal_ne T d w j _ h

theorem rd_downprop_zero (d : List (Node Val Mod)) (w : Nat) (hw : 1 ≤ w) :
    rd T (downprop T d w false) 0 = rd T d 0 := by
  simp only [downprop, Bool.false_eq_true, if_false]
  rw [rd_setMod_ne T _ _ _ _ (by omega), rd_setMod_ne T _ _ _ _ (by omega),
    rd_setMod_ne T _ _ _ _ (by omega)]

theorem rd_pushList_zero (d : List (Node Val Mod)) (L : List Nat) (hL : ∀ w ∈ L, 1 ≤ w) :
    rd T (pushList T d L) 0 = rd T d 0 := by
  induction L generalizing d with
  | nil => rfl
  | cons w L ih =>
    simp only [pushList, List.foldl_cons]
    exact (ih _ (fun u hu => hL u (List.mem_cons_of_mem _ hu))).trans
      (rd_downprop_zero T d w (hL w (List.mem_cons_self _ _)))

theorem rd_update_climb_zero :
    ∀ (fuel p : Nat) (d : List (Node Val Mod)), rd T (update_climb T fuel p d) 0 = rd T d 0 := by
  intro fuel
  induction fuel with
  | zero => intro p d; rfl
  | succ fuel ih =>
    intro p d
    simp only [update_climb]
    by_cases h : p / 2 ≠ 0
    · rw [if_pos h, ih, rd_recalc_ne T d _ _ (by omega)]
    · rw [if_neg h]

theorem rd_update_loop_zero (f : Mod) :
    ∀ (fuel e p q : Nat) (d : List (Node Val Mod)), Lvl e p → Lvl e q → p < q →
      rd T (update_loop T f fuel p q d).2 0 = rd T d 0 := by
  intro fuel
  induction fuel with
  | zero => intro e p q d _ _ _; rfl
  | succ fuel ih =>
    intro e p q d hp hq hpq
    by_cases hne : p / 2 ≠ q / 2
    · cases e with
      | zero =>
        have := lvl_zero_eq hp
        have := lvl_zero_eq hq
        omega
      | succ e =>
        have hph := hp.half
        have hqh := hq.half
        have h1 := hph.pos
        have h2 := hqh.pos
        simp only [update_loop, if_pos hne]
        rw [ih e _ _ _ hph hqh (by omega), rd_recalc_ne T _ _ _ (by omega),
          rd_recalc_ne T _ _ _ (by omega)]
        by_cases h0 : p % 2 = 0 <;> by_cases h3 : q % 2 = 1
        · rw [if_pos h3, if_pos h0, rd_setMod_ne T _ _ _ _ (by omega),
            rd_setMod_ne T _ _ _ _ (by omega)]
        · rw [if_neg h3, if_pos h0, rd_setMod_ne T _ _ _ _ (by omega)]
        · rw [if_pos h3, if_neg h0, rd_setMod_ne T _ _ _ _ (by omega)]
        · rw [if_neg h3, if_neg h0]
    · simp only [update_loop, if_neg hne]

theorem rd_update_data_zero (d : List (Node Val Mod)) {D p q : Nat} (f : Mod) (hD : D ≤ 62)
    (hp : Lvl D p) (hq : Lvl D q) (hpq : p ≤ q) :
    rd T (update_data T d p q f) 0 = rd T d 0 := by
  have hpush : rd T (push_phase T d p q) 0 = rd T d 0 := by
    rw [push_phase_eq T d hp hq hD]
    exact rd_pushList_zero T d _ (fun w hw => (pushNodes_internal hp hq hD w hw).1)
  have hp1 := hp.pos
  have hq1 := hq.pos
  unfold update_data
  by_cases hne : p ≠ q
  · rw [if_pos hne, rd_update_climb_zero, rd_update_loop_zero T f _ D p q _ hp hq (by omega),
      rd_setMod_ne T _ _ _ _ (by omega), rd_setMod_ne T _ _ _ _ (by omega), hpush]
  · rw [if_neg hne, rd_update_climb_zero, rd_setMod_ne T _ _ _ _ (by omega), hpush]

end TreeFrame

section BitTricks

theorem testBit_of_div {x j i : Nat} (hi : j ≤ i) : x.testBit i = (x / 2 ^ j).testBit (i - j) := by
  rw [← Nat.shiftRight_eq_div_pow, Nat.testBit_shiftRight, Nat.add_sub_cancel' hi]

/-- Below the bit length of `p xor q` the shifted indices still differ. -/
theorem xor_lvl_min {e p q : Nat} (hx : Lvl e (p ^^^ q)) (j : Nat) (hj : j ≤ e) :
    p / 2 ^ j ≠ q / 2 ^ j := by
  intro heq
  have hlt : p ^^^ q < 2 ^ j := by
    apply Nat.lt_pow_two_of_testBit
    intro i hi
    rw [Nat.testBit_xor, testBit_of_div hi, testBit_of_div (x := q) hi, heq]
    simp
  have := Nat.pow_le_pow_right (n := 2) (by norm_num) hj
  have := hx.1
  omega

theorem ancList_strict (p : Nat) :
    ∀ i, (∀ j, j < i → 1 ≤ p / 2 ^ j) → (ancList p i).Pairwise (fun a b => a < b) := by
  intro i
  induction i with
  | zero => intro _; exact List.Pairwise.nil
  | succ i ih =>
    intro hpos
    rw [ancList, List.pairwise_cons]
    refine ⟨?_, ih (fun j hj => hpos j (by omega))⟩
    intro x hx
    obtain ⟨j, _, hj, rfl⟩ := (mem_ancList p i x).mp hx
    rw [Nat.shiftRight_eq_div_pow, show i + 1 = j + (i + 1 - j) by omega, ← div_pow_add]
    exact anc_lt (hpos j (by omega)) (by omega)

theorem pairList_strict {D e p q : Nat} (hp : Lvl D p) (hq : Lvl D q) (hpq : p ≤ q)
    (hx : Lvl e (p ^^^ q)) (i : Nat) (hi : i ≤ e) (hiD : i ≤ D) :
    (pairList p q i).Pairwise (fun a b => a < b) := by
  induction i with
  | zero => exact List.Pairwise.nil
  | succ i ih =>
    have hb : q / 2 ^ (i + 1) < 2 ^ (D - i) := by
      have := (path_lvl hq (i + 1) hiD).2
      rwa [show D - (i + 1) + 1 = D - i by omega] at this
    have h3 : p / 2 ^ (i + 1) ≤ q / 2 ^ (i + 1) := Nat.div_le_div_right hpq
    have h4 := xor_lvl_min hx (i + 1) hi
    have hrest : ∀ x ∈ pairList p q i, q / 2 ^ (i + 1) < x := by
      intro x hx
      obtain ⟨j, _, hj, hx2⟩ := (mem_pairList p q i x).mp hx
      have h1 : 2 ^ (D - i) ≤ p / 2 ^ j := (path_lvl hp j (by omega)).ge_of_le (by omega)
      have h2 : p / 2 ^ j ≤ q / 2 ^ j := Nat.div_le_div_right hpq
      rcases hx2 with rfl | rfl <;> omega
    rw [pairList, List.pairwise_cons, List.pairwise_cons]
    simp only [Nat.shiftRight_eq_div_pow]
    refine ⟨?_, hrest, ih (by omega) (by omega)⟩
    intro x hx
    rcases List.mem_cons.mp hx with rfl | hx
    · omega
    · have := hrest x hx
      omega

/-- The nodes visited by the push-down phase are listed in strictly increasing
index order. -/
theorem pushNodes_strict {D p q : Nat} (hp : Lvl D p) (hq : Lvl D q) (hD : D ≤ 62)
    (hpq : p ≤ q) : (pushNodes p q).Pairwise (fun a b => a < b) := by
  unfold pushNodes
  by_cases hpq2 : p = q
  · rw [if_pos hpq2, bitlen_eq hp (by omega)]
    apply ancList_strict
    intro j hj
    exact (anc_pos_iff hp j).mpr (by omega)
  · obtain ⟨e, he, hx, hlca⟩ := xor_lvl hp hq hpq2
    have hl : Lvl (D - (e + 1)) (p >>> (e + 1)) := by
      rw [Nat.shiftRight_eq_div_pow]
      exact path_lvl hp (e + 1) (by omega)
    rw [if_neg hpq2, bitlen_eq hx (by omega), bitlen_eq hl (by omega), List.pairwise_append]
    refine ⟨?_, pairList_strict hp hq hpq hx _ (by omega) (by omega), ?_⟩
    · apply ancList_strict
      intro j hj
      cases j with
      | zero => have := hl.pos; simp; omega
      | succ j =>
        rw [← Nat.shiftRight_eq_div_pow, shift_double, Nat.shiftRight_eq_div_pow]
        exact (anc_pos_iff hl j).mpr (by omega)
    · intro a ha b hb
      obtain ⟨j, h1, h2, rfl⟩ := (mem_ancList _ _ _).mp ha
      obtain ⟨i, h3, h4, hb2⟩ := (mem_pairList _ _ _ _).mp hb
      obtain ⟨j, rfl⟩ : ∃ j0, j = j0 + 1 := ⟨j - 1, by omega⟩
      rw [← Nat.shiftRight_eq_div_pow, shift_double, Nat.shiftRight_eq_div_pow,
        Nat.shiftRight_eq_div_pow, div_pow_add]
      have h5 : p / 2 ^ (e + 1 + j) < p / 2 ^ i := by
        rw [show e + 1 + j = i + (e + 1 + j - i) by omega, ← div_pow_add]
        exact anc_lt ((anc_pos_iff hp i).mpr (by omega)) (by omega)
      have h6 : p / 2 ^ i ≤ q / 2 ^ i := Nat.div_le_div_right hpq
      rcases hb2 with rfl | rfl <;> omega

theorem pushNodes_iff {D p q : Nat} (hp : Lvl D p) (hq : Lvl D q) (hD : D ≤ 62) (w : Nat) :
    w ∈ pushNodes p q ↔ 1 ≤ w ∧ (PA w p ∨ PA w q) := by
  constructor
  · exact pushNodes_mem hp hq hD w
  · rintro ⟨h1, ⟨i, hi, rfl⟩ | ⟨i, hi, rfl⟩⟩
    · exact (pushNodes_anc hp hq hD i hi).1 h1
    · exact (pushNodes_anc hp hq hD i hi).2 h1

end BitTricks

section Claims2

variable {Val Mod : Type} (T : Traits Val Mod)

/-- C14.  On every reachable tree, for an `update(first, last, f)` with non-empty
clamped range and boundary leaves `p = nleaves + first`,
`q = nleaves + min(last, length) - 1`: the push-down phase is the sequence of
`downprop` calls at the nodes of `pushNodes p q`; these are exactly the proper
ancestors of `p` or of `q` (the root-to-lca path and the nodes strictly between
the lca and `p`, `q`), listed in increasing index order, so that the parent of
every listed node other than the root is listed before it; none is a leaf; and
after the update every proper ancestor of `p` and of `q` has `mod = ident()`. -/
theorem push_down_order (t : SegTree Val Mod) (ht : Reachable T t) (first last : Nat) (f : Mod)
    (h : first < min last t.m_length) :
    push_phase T t.m_data (t.m_nleaves + first) (t.m_nleaves + min last t.m_length - 1) =
      pushList T t.m_data
        (pushNodes (t.m_nleaves + first) (t.m_nleaves + min last t.m_length - 1)) ∧
    (∀ w, w ∈ pushNodes (t.m_nleaves + first) (t.m_nleaves + min last t.m_length - 1) ↔
      1 ≤ w ∧ (PA w (t.m_nleaves + first) ∨ PA w (t.m_nleaves + min last t.m_length - 1))) ∧
    (pushNodes (t.m_nleaves + first) (t.m_nleaves + min last t.m_length - 1)).Pairwise
      (fun a b => a < b) ∧
    (∀ L1 w L2,
      pushNodes (t.m_nleaves + first) (t.m_nleaves + min last t.m_length - 1) = L1 ++ w :: L2 →
      2 ≤ w → w / 2 ∈ L1) ∧
    (∀ w ∈ pushNodes (t.m_nleaves + first) (t.m_nleaves + min last t.m_length - 1),
      w < t.m_nleaves) ∧
    (∀ i, 1 ≤ i → 1 ≤ (t.m_nleaves + first) >>> i →
      (rd T (t.update T first last f).m_data ((t.m_nleaves + first) >>> i)).mod = T.ident) ∧
    (∀ i, 1 ≤ i → 1 ≤ (t.m_nleaves + min last t.m_length - 1) >>> i →
      (rd T (t.update T first last f).m_data
        ((t.m_nleaves + min last t.m_length - 1) >>> i)).mod = T.ident) := by
  obtain ⟨D, hs⟩ := ht.exists_shape T
  obtain ⟨hp, hq, hpq⟩ := hs.leaves first last h
  have hstrict := pushNodes_strict hp hq hs.depth_le hpq
  have hiff := pushNodes_iff hp hq hs.depth_le
  obtain ⟨_, _, _, a4, a5, _⟩ := update_data_frame T t.m_data D _ _ f hs.depth_le
    (by rw [hs.size_eq, hs.nleaves_eq]) hp hq hpq
  refine ⟨push_phase_eq T _ hp hq hs.depth_le, hiff, hstrict, ?_, ?_, ?_, ?_⟩
  · intro L1 w L2 hL hw
    have hwm : w ∈ pushNodes (t.m_nleaves + first) (t.m_nleaves + min last t.m_length - 1) := by
      rw [hL]; simp
    have hw2 := (hiff w).mp hwm
    have hpar : w / 2 ∈ pushNodes (t.m_nleaves + first)
        (t.m_nleaves + min last t.m_length - 1) := by
      rw [hiff]
      refine ⟨by omega, ?_⟩
      rcases hw2.2 with ⟨i, hi, rfl⟩ | ⟨i, hi, rfl⟩
      · exact Or.inl ⟨i + 1, by omega, by rw [← div_pow_add, pow_one]⟩
      · exact Or.inr ⟨i + 1, by omega, by rw [← div_pow_add, pow_one]⟩
    rw [hL, List.mem_append, List.mem_cons] at hpar
    rw [hL, List.pairwise_append, List.pairwise_cons] at hstrict
    rcases hpar with h1 | h1 | h1
    · exact h1
    · omega
    · have := hstrict.2.1.1 _ h1
      omega
  · intro w hw
    have := (pushNodes_internal hp hq hs.depth_le w hw).2
    rw [hs.nleaves_eq]
    exact this
  · intro i hi hpos
    rw [update_eq_data T t first last f h, Nat.shiftRight_eq_div_pow] at *
    exact a4 i hi hpos
  · intro i hi hpos
    rw [update_eq_data T t first last f h, Nat.shiftRight_eq_div_pow] at *
    exact a5 i hi hpos

/-- C14, instance: the sample tree, `update(1, 4, (3, 0))`. -/
theorem push_down_order_witness :
    Reachable AffTraits sample_tree ∧ 1 < min 4 sample_tree.m_length ∧
    pushNodes (sample_tree.m_nleaves + 1) (sample_tree.m_nleaves + min 4 sample_tree.m_length - 1)
      = [1, 2, 4, 5] ∧
    (∀ i, 1 ≤ i → 1 ≤ (sample_tree.m_nleaves + 1) >>> i →
      (rd AffTraits (sample_tree.update AffTraits 1 4 (3, 0)).m_data
        ((sample_tree.m_nleaves + 1) >>> i)).mod = AffTraits.ident) :=
  ⟨sample_tree_reachable, by decide, by decide,
    (push_down_order AffTraits sample_tree sample_tree_reachable 1 4 (3, 0)
      (by decide)).2.2.2.2.2.1⟩

/-- C15, as the code has it.  In a single-leaf update `update(i, i+1, f)` with
`i < length` on a reachable tree, the final loop `while (p /= 2) recalc(p)` runs
also when `p == q`: after the update every proper ancestor `v` of the leaf holds
the recomputed `val[v] = join(modval(2v), modval(2v+1))`. -/
theorem single_leaf_recalc (t : SegTree Val Mod) (ht : Reachable T t) (i : Nat) (f : Mod)
    (hi : i < t.m_length) (v : Nat) (hv : 1 ≤ v) (hpa : PA v (t.m_nleaves + i)) :
    (rd T (t.update T i (i + 1) f).m_data v).val =
      T.join ((rd T (t.update T i (i + 1) f).m_data (2 * v)).modval T)
        ((rd T (t.update T i (i + 1) f).m_data (2 * v + 1)).modval T) := by
  obtain ⟨D, hs⟩ := ht.exists_shape T
  have h : i < min (i + 1) t.m_length := by omega
  obtain ⟨hp, hq, hpq⟩ := hs.leaves i (i + 1) h
  have hm : t.m_nleaves + min (i + 1) t.m_length - 1 = t.m_nleaves + i := by omega
  rw [hm] at hq hpq
  obtain ⟨_, _, _, _, _, a6⟩ := update_data_frame T t.m_data D _ _ f hs.depth_le
    (by rw [hs.size_eq, hs.nleaves_eq]) hp hq hpq
  rw [update_eq_data T t i (i + 1) f h, hm]
  exact a6 v hv (hpa.lt_pow hp) (fun hn _ => absurd hpa hn)

/-- C15, instance: the sample tree, position 2, node 5 (the parent of leaf 10). -/
theorem single_leaf_recalc_witness :
    Reachable AffTraits sample_tree ∧ 2 < sample_tree.m_length ∧ 1 ≤ 5 ∧
    PA 5 (sample_tree.m_nleaves + 2) ∧
    (rd AffTraits (sample_tree.update AffTraits 2 (2 + 1) (3, 0)).m_data 5).val =
      AffTraits.join
        ((rd AffTraits (sample_tree.update AffTraits 2 (2 + 1) (3, 0)).m_data (2 * 5)).modval
          AffTraits)
        ((rd AffTraits (sample_tree.update AffTraits 2 (2 + 1) (3, 0)).m_data (2 * 5 + 1)).modval
          AffTraits) :=
  ⟨sample_tree_reachable, by decide, by decide, ⟨1, by decide, by decide⟩,
    single_leaf_recalc AffTraits sample_tree sample_tree_reachable 2 (3, 0) (by decide) 5
      (by decide) ⟨1, by decide, by decide⟩⟩

/-- C15 as stated fails on the example tree: `update(1, 2, 10)` is a single-leaf
update of leaf 5, and the `val` of its parent, node 2, changes from `(3, 2)` to
`(13, 2)`. -/
theorem single_leaf_changes_ancestor :
    1 < example_tree.m_length ∧
    example_tree.m_nleaves + 1 = 5 ∧
    (rd MyTraits example_tree.m_data 2).val = (3, 2) ∧
    (rd MyTraits (example_tree.update MyTraits 1 2 10).m_data 2).val = (13, 2) ∧
    (rd MyTraits (example_tree.update MyTraits 1 2 10).m_data 2).val ≠
      (rd MyTraits example_tree.m_data 2).val := by
  decide

end Claims2

section Claims3

variable {Val Mod : Type} (T : Traits Val Mod)

/-- C16.  For `nleaves = 2 ^ D` (`2 ≤ D ≤ 63`, a power of two `≥ 4` that fits
`size_t`) and leaf indices `p < q` in `[nleaves, 2 * nleaves)`: with
`m = bitlength(p xor q)`, `lca = p >> m` and `k = bitlength(lca)` as `update`
computes them, `m ≥ 1` is the least shift with `p >> m = q >> m`; `lca ≥ 1` is a
common ancestor of `p` and `q` and every common ancestor is `lca >> s` for some
`s` (so `lca` is the deepest one); the path from `lca` to the root has exactly the
`k` nodes `lca >> 0, ..., lca >> (k - 1)`, and `lca >> (k - 1) = 1`. -/
theorem lca_bit_tricks (D p q m lca k : Nat) (hD1 : 2 ≤ D) (hD2 : D ≤ 63) (hp : 2 ^ D ≤ p)
    (hpq : p < q) (hq : q < 2 * 2 ^ D) (hm : m = digits - clzll (p ^^^ q)) (hl : lca = p >>> m)
    (hk : k = digits - clzll lca) :
    1 ≤ m ∧ p >>> m = q >>> m ∧ (∀ m2, p >>> m2 = q >>> m2 → m ≤ m2) ∧ 1 ≤ lca ∧
    (∀ v, 1 ≤ v → (∃ i, v = p >>> i) → (∃ j, v = q >>> j) → ∃ s, v = lca >>> s) ∧
    (∀ i, i < k → 1 ≤ lca >>> i) ∧ lca >>> k = 0 ∧ lca >>> (k - 1) = 1 := by
  have hpw : 2 ^ (D + 1) = 2 * 2 ^ D := by rw [pow_succ]; omega
  have hpl : Lvl D p := ⟨hp, by omega⟩
  have hql : Lvl D q := ⟨by omega, by omega⟩
  obtain ⟨e, he, hx, hlca⟩ := xor_lvl hpl hql (by omega)
  have hm2 : m = e + 1 := by rw [hm, bitlen_eq hx (by omega)]
  subst hm2
  have hll : Lvl (D - (e + 1)) lca := by
    rw [hl, Nat.shiftRight_eq_div_pow]
    exact path_lvl hpl (e + 1) (by omega)
  have hk2 : k = D - (e + 1) + 1 := by rw [hk, bitlen_eq hll (by omega)]
  subst hk2
  simp only [Nat.shiftRight_eq_div_pow] at *
  refine ⟨by omega, hlca, ?_, hll.pos, ?_, ?_, ?_, ?_⟩
  · intro m2 h2
    by_contra hlt
    exact xor_lvl_min hx m2 (by omega) h2
  · rintro v hv ⟨i, rfl⟩ ⟨j, hj⟩
    have hi := (anc_pos_iff hpl i).mp hv
    have hjD := (anc_pos_iff hql j).mp (by rw [← hj]; exact hv)
    have h1 := path_lvl hpl i hi
    have h2 := path_lvl hql j hjD
    rw [← hj] at h2
    have hij : i = j := by
      have := Lvl.unique h1 h2
      omega
    subst hij
    have hie : e + 1 ≤ i := by
      by_contra hlt
      exact xor_lvl_min hx i (by omega) hj
    exact ⟨i - (e + 1), by rw [hl, div_pow_add]; congr 2; omega⟩
  · intro i hi
    exact (anc_pos_iff hll i).mpr (by omega)
  · exact Nat.div_eq_of_lt hll.2
  · have := path_lvl hll (D - (e + 1)) (le_refl _)
    rw [Nat.sub_self] at this
    rw [Nat.add_sub_cancel]
    exact lvl_zero_eq this

/-- C16, instance: `nleaves = 8`, `p = 9`, `q = 14`. -/
theorem lca_bit_tricks_witness :
    2 ≤ 3 ∧ 3 ≤ 63 ∧ 2 ^ 3 ≤ 9 ∧ 9 < 14 ∧ 14 < 2 * 2 ^ 3 ∧
    (1 ≤ 3 ∧ 9 >>> 3 = 14 >>> 3 ∧ (∀ m2, 9 >>> m2 = 14 >>> m2 → 3 ≤ m2) ∧ 1 ≤ 1 ∧
    (∀ v, 1 ≤ v → (∃ i, v = 9 >>> i) → (∃ j, v = 14 >>> j) → ∃ s, v = 1 >>> s) ∧
    (∀ i, i < 1 → 1 ≤ 1 >>> i) ∧ 1 >>> 1 = 0 ∧ 1 >>> (1 - 1) = 1) :=
  ⟨by decide, by decide, by decide, by decide, by decide,
    lca_bit_tricks 3 9 14 3 1 1 (by decide) (by decide) (by decide) (by decide) (by decide)
      (by decide) (by decide) (by decide)⟩

/-- C17, evaluated on the code.  `MyTraits::neutral()` is `(0, 1)`, not a unit of
`join`: joining it to `(5, 1)` on either side gives `(5, 2)`.  The tree shows it:
`SegTree<MyTraits>(8)` holds eight leaves `(0, 1)`, and after `update(0, 8, 5)` the
query over all of them has sum 30 and count 6 instead of 40 and 8. -/
theorem MyTraits_neutral_not_unit :
    MyTraits.neutral = (0, 1) ∧
    MyTraits.join MyTraits.neutral (5, 1) = (5, 2) ∧
    MyTraits.join (5, 1) MyTraits.neutral = (5, 2) ∧
    MyTraits.join MyTraits.neutral (5, 1) ≠ (5, 1) ∧
    MyTraits.join (5, 1) MyTraits.neutral ≠ (5, 1) ∧
    ((SegTree.new_length MyTraits 8).update MyTraits 0 8 5).query MyTraits 0 8 = (30, 6) :=
  ⟨by decide, by decide, by decide, by decide, by decide, by decide⟩

theorem nodeOK_new_length (hid : ∀ x, T.apply T.ident x = x)
    (hnn : T.join T.neutral T.neutral = T.neutral) (n v : Nat) :
    NodeOK T (SegTree.new_length T n : SegTree Val Mod).m_data v := by
  unfold NodeOK
  simp only [SegTree.new_length, vals_replicate, mods_replicate, hid, hnn]

theorem nodeOK_built (hid : ∀ x, T.apply T.ident x = x) (D : Nat) (d1 : List (Node Val Mod))
    (hlen : d1.length = 2 * 2 ^ D) (hmods : ∀ j, mods T d1 j = T.ident) (v : Nat) (hv1 : 1 ≤ v)
    (hv2 : v < 2 ^ D) : NodeOK T (build_pass T (2 ^ D - 1) d1) v := by
  obtain ⟨_, h2, _, h4⟩ := build_pass_spec T (2 ^ D - 1) d1 (by omega)
  unfold NodeOK
  rw [h2, h2, hmods, hmods, hid, hid]
  exact h4 v hv1 (by omega)

theorem reachable_nodeOK (hid : ∀ x, T.apply T.ident x = x)
    (hnn : T.join T.neutral T.neutral = T.neutral) (t : SegTree Val Mod) (ht : Reachable T t) :
    ∃ D, Shape t D ∧ ∀ v, 1 ≤ v → v < 2 ^ D → NodeOK T t.m_data v := by
  induction ht with
  | new_length n hn =>
    obtain ⟨D, hD⟩ := (Reachable.new_length n hn : Reachable T _).exists_shape T
    exact ⟨D, hD, fun v _ _ => nodeOK_new_length T hid hnn n v⟩
  | fill n x hn =>
    obtain ⟨D, d1, h1, h2, h3, h4, h5, h6, _⟩ := fill_spec T n x hn
    have hpos : 1 ≤ 2 ^ D := Nat.one_le_two_pow
    have hb := (build_pass_spec T (2 ^ D - 1) d1 (by omega)).1
    rw [h4]
    exact ⟨D, ⟨h1, h2, rfl, h3, by rw [hb, h5]⟩, fun v hv1 hv2 => nodeOK_built T hid D d1 h5 h6 v hv1 hv2⟩
  | from_iter xs hn =>
    obtain ⟨D, d1, h1, h2, h3, h4, h5, h6, _⟩ := from_iter_spec T xs hn
    have hpos : 1 ≤ 2 ^ D := Nat.one_le_two_pow
    have hb := (build_pass_spec T (2 ^ D - 1) d1 (by omega)).1
    rw [h4]
    exact ⟨D, ⟨h1, h2, rfl, h3, by rw [hb, h5]⟩, fun v hv1 hv2 => nodeOK_built T hid D d1 h5 h6 v hv1 hv2⟩
  | update t first last f _ ih =>
    obtain ⟨D, hs, hok⟩ := ih
    refine ⟨D, hs.update T first last f, ?_⟩
    by_cases hemp : min last t.m_length ≤ first
    · rw [update_empty T t first last f hemp]
      exact hok
    · have h : first < min last t.m_length := by omega
      obtain ⟨hp, hq, hpq⟩ := hs.leaves first last h
      rw [update_eq_data T t first last f h]
      intro v hv1 hv2
      exact (update_data_frame T t.m_data D _ _ f hs.depth_le
        (by rw [hs.size_eq, hs.nleaves_eq]) hp hq hpq).2.2.2.2.2 v hv1 hv2
        (fun _ _ => hok v hv1 hv2)

/-- C18, as the code has it.  Assuming `apply(ident(), x) = x` and
`join(neutral(), neutral()) = neutral()`, in every tree produced by one of the
three constructors followed by any finite sequence of `update` calls, every
internal node `i` in `[1, nleaves)` satisfies
`val[i] = join(apply(mod[2i], val[2i]), apply(mod[2i+1], val[2i+1]))`. -/
theorem node_equation_invariant (hid : ∀ x, T.apply T.ident x = x)
    (hnn : T.join T.neutral T.neutral = T.neutral) (t : SegTree Val Mod) (ht : Reachable T t)
    (i : Nat) (hi1 : 1 ≤ i) (hi2 : i < t.m_nleaves) :
    (rd T t.m_data i).val =
      T.join (T.apply (rd T t.m_data (2 * i)).mod (rd T t.m_data (2 * i)).val)
        (T.apply (rd T t.m_data (2 * i + 1)).mod (rd T t.m_data (2 * i + 1)).val) := by
  obtain ⟨D, hs, hok⟩ := reachable_nodeOK T hid hnn t ht
  exact hok i hi1 (by rw [← hs.nleaves_eq]; exact hi2)

end Claims3

section Claims4

variable {Val Mod : Type} (T : Traits Val Mod)

/-- C18, instance: the affine algebra, the sample tree, node 3. -/
theorem node_equation_invariant_witness :
    (∀ x, AffTraits.apply AffTraits.ident x = x) ∧
    AffTraits.join AffTraits.neutral AffTraits.neutral = AffTraits.neutral ∧
    Reachable AffTraits sample_tree ∧ 1 ≤ 3 ∧ 3 < sample_tree.m_nleaves ∧
    (rd AffTraits sample_tree.m_data 3).val =
      AffTraits.join
        (AffTraits.apply (rd AffTraits sample_tree.m_data (2 * 3)).mod
          (rd AffTraits sample_tree.m_data (2 * 3)).val)
        (AffTraits.apply (rd AffTraits sample_tree.m_data (2 * 3 + 1)).mod
          (rd AffTraits sample_tree.m_data (2 * 3 + 1)).val) :=
  ⟨AffTraits_lawful.apply_ident, by decide, sample_tree_reachable, by decide, by decide,
    node_equation_invariant AffTraits AffTraits_lawful.apply_ident (by decide) sample_tree
      sample_tree_reachable 3 (by decide) (by decide)⟩

/-- C18 as stated fails for the length-only constructor: `MyTraits` satisfies
`apply(ident(), x) = x`, yet in `SegTree<MyTraits>(4)` the root holds `(0, 1)` while
the join of the modified values of its children is `(0, 2)`. -/
theorem new_length_node_equation_fails :
    (∀ x, MyTraits.apply MyTraits.ident x = x) ∧
    Reachable MyTraits (SegTree.new_length MyTraits 4) ∧
    1 < (SegTree.new_length MyTraits 4 : SegTree (Int × Int) Int).m_nleaves ∧
    (rd MyTraits (SegTree.new_length MyTraits 4).m_data 1).val = (0, 1) ∧
    MyTraits.join
      (MyTraits.apply (rd MyTraits (SegTree.new_length MyTraits 4).m_data (2 * 1)).mod
        (rd MyTraits (SegTree.new_length MyTraits 4).m_data (2 * 1)).val)
      (MyTraits.apply (rd MyTraits (SegTree.new_length MyTraits 4).m_data (2 * 1 + 1)).mod
        (rd MyTraits (SegTree.new_length MyTraits 4).m_data (2 * 1 + 1)).val) = (0, 2) ∧
    (rd MyTraits (SegTree.new_length MyTraits 4).m_data 1).val ≠
      MyTraits.join
        (MyTraits.apply (rd MyTraits (SegTree.new_length MyTraits 4).m_data (2 * 1)).mod
          (rd MyTraits (SegTree.new_length MyTraits 4).m_data (2 * 1)).val)
        (MyTraits.apply (rd MyTraits (SegTree.new_length MyTraits 4).m_data (2 * 1 + 1)).mod
          (rd MyTraits (SegTree.new_length MyTraits 4).m_data (2 * 1 + 1)).val) :=
  ⟨fun x => by simp [MyTraits], Reachable.new_length 4 (by decide), by decide, by decide,
    by decide, by decide⟩

/-- C20.  On every reachable tree, an `update(first, last, f)` with non-empty
clamped range and boundary leaves `p`, `q` keeps `length`, `nleaves` and the vector
size; it changes no leaf `val`; it changes `val` only at proper ancestors of `p` or
`q`, and `mod` only at `p`, `q`, their proper ancestors and the children of those;
every other node is identical before and after. -/
theorem update_frame (t : SegTree Val Mod) (ht : Reachable T t) (first last : Nat) (f : Mod)
    (h : first < min last t.m_length) :
    (t.update T first last f).m_length = t.m_length ∧
    (t.update T first last f).m_nleaves = t.m_nleaves ∧
    (t.update T first last f).m_data.length = t.m_data.length ∧
    (∀ u, t.m_nleaves ≤ u →
      (rd T (t.update T first last f).m_data u).val = (rd T t.m_data u).val) ∧
    (∀ u, ¬ (1 ≤ u ∧ (PA u (t.m_nleaves + first) ∨
        PA u (t.m_nleaves + min last t.m_length - 1))) →
      (rd T (t.update T first last f).m_data u).val = (rd T t.m_data u).val) ∧
    (∀ u, u ≠ t.m_nleaves + first → u ≠ t.m_nleaves + min last t.m_length - 1 →
      ¬ (1 ≤ u ∧ (PA u (t.m_nleaves + first) ∨
        PA u (t.m_nleaves + min last t.m_length - 1))) →
      ¬ (1 ≤ u / 2 ∧ (PA (u / 2) (t.m_nleaves + first) ∨
        PA (u / 2) (t.m_nleaves + min last t.m_length - 1))) →
      (rd T (t.update T first last f).m_data u).mod = (rd T t.m_data u).mod) ∧
    (∀ u, u ≠ t.m_nleaves + first → u ≠ t.m_nleaves + min last t.m_length - 1 →
      ¬ (1 ≤ u ∧ (PA u (t.m_nleaves + first) ∨
        PA u (t.m_nleaves + min last t.m_length - 1))) →
      ¬ (1 ≤ u / 2 ∧ (PA (u / 2) (t.m_nleaves + first) ∨
        PA (u / 2) (t.m_nleaves + min last t.m_length - 1))) →
      rd T (t.update T first last f).m_data u = rd T t.m_data u) := by
  obtain ⟨D, hs⟩ := ht.exists_shape T
  obtain ⟨hp, hq, hpq⟩ := hs.leaves first last h
  obtain ⟨a1, a2, a3, _, _, _⟩ := update_data_frame T t.m_data D _ _ f hs.depth_le
    (by rw [hs.size_eq, hs.nleaves_eq]) hp hq hpq
  have hzero := rd_update_data_zero T t.m_data f hs.depth_le hp hq hpq
  have hN := hs.nleaves_eq
  have hvals : ∀ u, ¬ (1 ≤ u ∧ (PA u (t.m_nleaves + first) ∨
      PA u (t.m_nleaves + min last t.m_length - 1))) →
      (rd T (update_data T t.m_data (t.m_nleaves + first)
        (t.m_nleaves + min last t.m_length - 1) f) u).val = (rd T t.m_data u).val := by
    intro u hu
    by_cases hu0 : u = 0
    · rw [hu0, hzero]
    · exact a2 u (fun hpa => hu ⟨by omega, Or.inl hpa⟩) (fun hpa => hu ⟨by omega, Or.inr hpa⟩)
  have hmods : ∀ u, u ≠ t.m_nleaves + first → u ≠ t.m_nleaves + min last t.m_length - 1 →
      ¬ (1 ≤ u ∧ (PA u (t.m_nleaves + first) ∨
        PA u (t.m_nleaves + min last t.m_length - 1))) →
      ¬ (1 ≤ u / 2 ∧ (PA (u / 2) (t.m_nleaves + first) ∨
        PA (u / 2) (t.m_nleaves + min last t.m_length - 1))) →
      (rd T (update_data T t.m_data (t.m_nleaves + first)
        (t.m_nleaves + min last t.m_length - 1) f) u).mod = (rd T t.m_data u).mod := by
    intro u h1 h2 h3 h4
    by_cases hu0 : u = 0
    · rw [hu0, hzero]
    · have h5 : ¬ PA u (t.m_nleaves + first) := fun hpa => h3 ⟨by omega, Or.inl hpa⟩
      have h6 : ¬ PA u (t.m_nleaves + min last t.m_length - 1) :=
        fun hpa => h3 ⟨by omega, Or.inr hpa⟩
      have hu2 : 1 ≤ u / 2 := by
        by_contra hlt
        have hu1 : u = 1 := by omega
        apply h5
        refine ⟨D, by have := hs.depth_ge; omega, ?_⟩
        have := path_lvl hp D (le_refl _)
        rw [Nat.sub_self] at this
        rw [hu1, lvl_zero_eq this]
      exact a3 u h1 h2 h5 h6 (fun hpa => h4 ⟨hu2, Or.inl hpa⟩) (fun hpa => h4 ⟨hu2, Or.inr hpa⟩)
  rw [update_eq_data T t first last f h]
  refine ⟨rfl, rfl, by rw [a1, hs.size_eq, hN], ?_, hvals, hmods, ?_⟩
  · intro u hu
    apply hvals
    rintro ⟨_, hpa | hpa⟩
    · have := hpa.lt_pow hp
      omega
    · have := hpa.lt_pow hq
      omega
  · intro u h1 h2 h3 h4
    have e1 := hvals u h3
    have e2 := hmods u h1 h2 h3 h4
    revert e1 e2
    cases rd T (update_data T t.m_data (t.m_nleaves + first)
        (t.m_nleaves + min last t.m_length - 1) f) u
    cases rd T t.m_data u
    simp only [Node.mk.injEq]
    exact fun e1 e2 => ⟨e1, e2⟩

/-- C20, instance: the sample tree, `update(1, 4, (3, 0))`. -/
theorem update_frame_witness :
    Reachable AffTraits sample_tree ∧ 1 < min 4 sample_tree.m_length ∧
    (sample_tree.update AffTraits 1 4 (3, 0)).m_data.length = sample_tree.m_data.length ∧
    (∀ u, sample_tree.m_nleaves ≤ u →
      (rd AffTraits (sample_tree.update AffTraits 1 4 (3, 0)).m_data u).val =
        (rd AffTraits sample_tree.m_data u).val) :=
  ⟨sample_tree_reachable, by decide,
    (update_frame AffTraits sample_tree sample_tree_reachable 1 4 (3, 0) (by decide)).2.2.1,
    (update_frame AffTraits sample_tree sample_tree_reachable 1 4 (3, 0) (by decide)).2.2.2.1⟩

end Claims4

/-! ## Padding and the lazy invariant -/

section Padding

variable {Val Mod : Type} (T : Traits Val Mod)

/-- A push-down keeps a root path free of pending modifications. -/
theorem padpath_downprop (hT : T.Lawful) (d : List (Node Val Mod)) (D w j : Nat)
    (hlen : d.length = 2 * 2 ^ D) (hw1 : 1 ≤ w) (hw2 : w < 2 ^ D) (hj : Lvl D j)
    (hpath : ∀ i, i ≤ D → mods T d (j / 2 ^ i) = T.ident) :
    ∀ i, i ≤ D → mods T (downprop T d w false) (j / 2 ^ i) = T.ident := by
  intro i hi
  rw [mods_downprop T d w _ hw1 (by omega)]
  have hpar : ∀ c, c = j / 2 ^ i → c / 2 = w → mods T d w = T.ident := by
    intro c hc hcw
    have hiD : i < D := by
      by_contra hne
      have hiD : i = D := by omega
      have := path_lvl hj D (le_refl _)
      rw [Nat.sub_self] at this
      have := lvl_zero_eq this
      rw [hiD] at hc
      omega
    have := hpath (i + 1) (by omega)
    rw [← div_pow_succ] at this
    rw [← hcw, hc, Nat.div_div_eq_div_mul, ← pow_succ]
    rw [div_pow_succ] at this
    exact this
  by_cases h1 : j / 2 ^ i = w
  · rw [if_pos h1]
  · rw [if_neg h1]
    by_cases h2 : j / 2 ^ i = 2 * w
    · rw [if_pos h2, hpar _ rfl (by omega), ← h2, hpath i hi, hT.ident_compose]
    · rw [if_neg h2]
      by_cases h3 : j / 2 ^ i = 2 * w + 1
      · rw [if_pos h3, hpar _ rfl (by omega), ← h3, hpath i hi, hT.ident_compose]
      · rw [if_neg h3]
        exact hpath i hi

theorem padpath_pushList (hT : T.Lawful) (d : List (Node Val Mod)) (D : Nat) (L : List Nat)
    (hlen : d.length = 2 * 2 ^ D) (hL : ∀ w ∈ L, 1 ≤ w ∧ w < 2 ^ D) (j : Nat) (hj : Lvl D j)
    (hpath : ∀ i, i ≤ D → mods T d (j / 2 ^ i) = T.ident) :
    ∀ i, i ≤ D → mods T (pushList T d L) (j / 2 ^ i) = T.ident := by
  induction L generalizing d with
  | nil => exact hpath
  | cons w L ih =>
    simp only [pushList, List.foldl_cons]
    have hw := hL w (List.mem_cons_self _ _)
    exact ih _ (by simpa using hlen) (fun u hu => hL u (List.mem_cons_of_mem _ hu))
      (padpath_downprop T hT d D w j hlen hw.1 hw.2 hj hpath)

/-- After the push-down phase, `update` changes modifications only at `p`, `q` and
the target nodes. -/
theorem update_data_mods_fine (d : List (Node Val Mod)) (D p q : Nat) (f : Mod)
    (hlen : d.length = 2 * 2 ^ D) (hp : Lvl D p) (hq : Lvl D q) (hpq : p ≤ q) (u : Nat)
    (h1 : u ≠ p) (h2 : u ≠ q) (h3 : ¬ Target p q u) :
    mods T (update_data T d p q f) u = mods T (push_phase T d p q) u := by
  have hD1 : 2 ^ (D + 1) = 2 * 2 ^ D := by rw [pow_succ]; omega
  have hpl := hp.2
  have hql := hq.2
  have hlenA : ∀ m, (setMod T (push_phase T d p q) p m).length = 2 * 2 ^ D := by
    intro m
    have hdp : (push_phase T d p q).length = d.length := by
      unfold push_phase
      by_cases hc : p = q
      · simp only [if_pos hc]
        rw [push_single_eq, length_pushList]
      · simp only [if_neg hc]
        rw [push_pair_eq, length_pushList]
        generalize wrap_dec (digits - clzll (p >>> (digits - clzll (p ^^^ q)))) = i0
        generalize digits - clzll (p >>> (digits - clzll (p ^^^ q))) + 1 = fuel
        induction fuel generalizing i0 d with
        | zero => rfl
        | succ fuel ih =>
          simp only [push_lca]
          split
          · rw [ih]
            · simp
            · simpa using hlen
          · rfl
    simp only [length_setMod]
    rw [hdp, hlen]
  unfold update_data
  by_cases hne : p ≠ q
  · rw [if_pos hne]
    have l2 := (update_loop_frame T D f (p + q) D p q
      (setMod T (setMod T (push_phase T d p q) p (T.compose f (mods T (push_phase T d p q) p))) q
        (T.compose f (mods T (setMod T (push_phase T d p q) p
          (T.compose f (mods T (push_phase T d p q) p))) q)))
      hp hq (by omega) (le_refl _) (le_refl _) (by simp only [length_setMod]; simpa using hlenA T.ident)).2.1
    rw [l2 u h3, mods_setMod T _ _ u _ (by rw [hlenA]; omega), if_neg h2,
      mods_setMod T _ _ u _ (by have := hlenA T.ident; simp only [length_setMod] at this; omega),
      if_neg h1]
  · have heq : p = q := by omega
    subst heq
    rw [if_neg hne]
    have c2 := (update_climb_frame T D D p p
      (setMod T (push_phase T d p p) p (T.compose f (mods T (push_phase T d p p) p)))
      hp (le_refl _) (le_refl _) (hlenA _)).2.1
    rw [c2 u, mods_setMod T _ _ u _
      (by have := hlenA T.ident; simp only [length_setMod] at this; omega), if_neg h1]

end Padding

section Padding2

variable {Val Mod : Type} (T : Traits Val Mod)

theorem PadClean.after_update (hT : T.Lawful) {t : SegTree Val Mod} {D : Nat} (hs : Shape t D)
    (hpc : PadClean T t D) (first last : Nat) (f : Mod) :
    PadClean T (t.update T first last f) D := by
  by_cases hemp : min last t.m_length ≤ first
  · rw [update_empty T t first last f hemp]
    exact hpc
  · have h : first < min last t.m_length := by omega
    obtain ⟨hp, hq, hpq⟩ := hs.leaves first last h
    have hlen : t.m_data.length = 2 * 2 ^ D := by rw [hs.size_eq, hs.nleaves_eq]
    rw [update_eq_data T t first last f h]
    intro j hj hjpad
    simp only [] at hjpad
    obtain ⟨hv, hm⟩ := hpc j hj hjpad
    have hjq : t.m_nleaves + min last t.m_length - 1 < j := by omega
    obtain ⟨_, a2, _⟩ := update_data_frame T t.m_data D _ _ f hs.depth_le hlen hp hq hpq
    constructor
    · show vals T (update_data T t.m_data _ _ f) j = T.neutral
      rw [a2 j (fun hpa => by have := hpa.lt_pow hp; have := hj.1; omega)
        (fun hpa => by have := hpa.lt_pow hq; have := hj.1; omega)]
      exact hv
    · intro i hi
      show mods T (update_data T t.m_data _ _ f) (j / 2 ^ i) = T.ident
      have hl := path_lvl hj i hi
      rw [update_data_mods_fine T t.m_data D _ _ f hlen hp hq hpq]
      · rw [push_phase_eq T _ hp hq hs.depth_le]
        exact padpath_pushList T hT _ D _ hlen (pushNodes_internal hp hq hs.depth_le) j hj hm i hi
      · intro heq
        rw [heq] at hl
        have := Lvl.unique hl hp
        have hi0 : i = 0 := by omega
        rw [hi0] at heq
        simp at heq
        omega
      · intro heq
        rw [heq] at hl
        have := Lvl.unique hl hq
        have hi0 : i = 0 := by omega
        rw [hi0] at heq
        simp at heq
        omega
      · intro ht
        obtain ⟨h2, hh, hl2, _, hlt⟩ := (ht.spec hp hq).2.2.2.2.2
        have := Lvl.unique hl hl2
        have hih : i = h2 := by omega
        subst hih
        have hmono : j / 2 ^ i < (t.m_nleaves + min last t.m_length - 1) / 2 ^ i := hlt
        have : (t.m_nleaves + min last t.m_length - 1) / 2 ^ i ≤ j / 2 ^ i :=
          Nat.div_le_div_right (by omega)
        omega

/-- Reachable trees are well formed and have clean padding. -/
theorem Reachable.wf_pad (hT : T.Lawful) {t : SegTree Val Mod} (h : Reachable T t) :
    ∃ D, WF T t D ∧ PadClean T t D := by
  induction h with
  | new_length n hn =>
    obtain ⟨D, hw⟩ := new_length_wf T hT n hn
    refine ⟨D, hw, ?_⟩
    intro j _ _
    exact ⟨vals_replicate T _ j, fun i _ => mods_replicate T _ _⟩
  | fill n x hn =>
    obtain ⟨D, d1, h1, h2, h3, h4, h5, h6, _, h8⟩ := fill_spec T n x hn
    have hpos : 1 ≤ 2 ^ D := Nat.one_le_two_pow
    obtain ⟨_, b2, b3, _⟩ := build_pass_spec T (2 ^ D - 1) d1 (by omega)
    rw [h4]
    refine ⟨D, built_wf T hT n D d1 h1 h2 h3 h5 h6, ?_⟩
    intro j hj hjpad
    simp only [] at hjpad
    refine ⟨?_, fun i _ => by show mods T (build_pass T (2 ^ D - 1) d1) _ = _; rw [b2, h6]⟩
    show vals T (build_pass T (2 ^ D - 1) d1) j = _
    rw [b3 j (by omega)]
    have := h8 (j - 2 ^ D) (by omega)
    rwa [show 2 ^ D + (j - 2 ^ D) = j by omega] at this
  | from_iter xs hn =>
    obtain ⟨D, d1, h1, h2, h3, h4, h5, h6, _, h8⟩ := from_iter_spec T xs hn
    have hpos : 1 ≤ 2 ^ D := Nat.one_le_two_pow
    obtain ⟨_, b2, b3, _⟩ := build_pass_spec T (2 ^ D - 1) d1 (by omega)
    rw [h4]
    refine ⟨D, built_wf T hT _ D d1 h1 h2 h3 h5 h6, ?_⟩
    intro j hj hjpad
    simp only [] at hjpad
    refine ⟨?_, fun i _ => by show mods T (build_pass T (2 ^ D - 1) d1) _ = _; rw [b2, h6]⟩
    show vals T (build_pass T (2 ^ D - 1) d1) j = _
    rw [b3 j (by omega)]
    have := h8 (j - 2 ^ D) (by omega)
    rwa [show 2 ^ D + (j - 2 ^ D) = j by omega] at this
  | update t first last f _ ih =>
    obtain ⟨D, hw, hpc⟩ := ih
    exact ⟨D, (update_spec T hT t D hw first last f).1, hpc.after_update T hT (hw.shape T) first last f⟩

/-- The logical value of a padding leaf is `neutral()`. -/
theorem pt_pad (hT : T.Lawful) {t : SegTree Val Mod} {D : Nat} (hpc : PadClean T t D) (j : Nat)
    (hj : Lvl D j) (hjpad : t.m_nleaves + t.m_length ≤ j) : pt T t.m_data D j = T.neutral := by
  obtain ⟨hv, hm⟩ := hpc j hj hjpad
  unfold pt
  rw [liftN_ident T hT _ D j _ (fun i _ hi => hm i hi)]
  have := hm 0 (by omega)
  simp only [pow_zero, Nat.div_one] at this
  rw [this, hv, hT.apply_ident]

end Padding2

section Claims5

variable {Val Mod : Type} (T : Traits Val Mod)

/-- C13, as the code has it.  Under the algebra contract, in every reachable tree
and for every node `v` (on level `e`, with `nleaves = 2 ^ (e + h)`), the true
aggregate of the subtree of `v`, i.e. the left-to-right join of the logical values
`query(i, i+1)` of the `2 ^ h` leaf positions under `v` (`neutral()` for positions
`≥ length`), equals `apply(v.mod, v.val)` taken further through the pending
modifications of all proper ancestors of `v`, parent first, as the climbing loop of
`query` applies them. -/
theorem lazy_invariant (hT : T.Lawful) (t : SegTree Val Mod) (ht : Reachable T t)
    (e h v : Nat) (hv : Lvl e v) (hN : t.m_nleaves = 2 ^ (e + h)) :
    foldJoin T ((List.range' (v * 2 ^ h - t.m_nleaves) (2 ^ h)).map
        (fun i => if i < t.m_length then t.query T i (i + 1) else T.neutral)) =
      query_climb T t.m_data v v ((rd T t.m_data v).modval T) := by
  obtain ⟨D, hw, hpc⟩ := ht.wf_pad T hT
  have hDe : D = e + h := by
    have := hw.nleaves_eq
    rw [hN] at this
    exact (Nat.pow_right_injective (le_refl 2) this).symm
  subst hDe
  rw [query_climb_eq T _ e v v _ hv (le_refl _), modval_rd,
    subtree_agg T hT t.m_data (e + h) (fun u h1 h2 => hw.node_ok u h1 (by rw [hN]; exact h2)) h e v
      rfl hv]
  symm
  have hge : t.m_nleaves ≤ v * 2 ^ h := by
    rw [hN, pow_add]
    exact Nat.mul_le_mul_right _ hv.1
  have hlt : v * 2 ^ h + 2 ^ h ≤ 2 ^ (e + h + 1) := by
    have h1 : v + 1 ≤ 2 ^ (e + 1) := hv.2
    have h2 := Nat.mul_le_mul_right (2 ^ h) h1
    rw [Nat.add_mul, Nat.one_mul, ← pow_add] at h2
    rw [show e + h + 1 = e + 1 + h by omega]
    exact h2
  apply leafAgg_eq_of_getElem?
  intro k
  rw [List.getElem?_map]
  by_cases hk : k < 2 ^ h
  · rw [if_pos hk, List.getElem?_range' _ 1 hk, Nat.one_mul]
    simp only [Option.map_some']
    have hj : Lvl (e + h) (v * 2 ^ h + k) := by
      refine ⟨by rw [← hN]; omega, by omega⟩
    congr 1
    by_cases hi : v * 2 ^ h - t.m_nleaves + k < t.m_length
    · rw [if_pos hi, query_point T t (e + h) hw _ hi]
      congr 1
      omega
    · rw [if_neg hi, pt_pad T hT hpc _ hj (by omega)]
  · rw [if_neg hk, List.getElem?_eq_none (by simpa using hk)]
    rfl

/-- C13, instance: the tree `lazy_tree`, node 5 (level 2, height 1). -/
theorem lazy_invariant_witness :
    Reachable AffTraits lazy_tree ∧ Lvl 2 5 ∧ lazy_tree.m_nleaves = 2 ^ (2 + 1) ∧
    foldJoin AffTraits ((List.range' (5 * 2 ^ 1 - lazy_tree.m_nleaves) (2 ^ 1)).map
        (fun i => if i < lazy_tree.m_length then lazy_tree.query AffTraits i (i + 1)
          else AffTraits.neutral)) =
      query_climb AffTraits lazy_tree.m_data 5 5
        ((rd AffTraits lazy_tree.m_data 5).modval AffTraits) :=
  ⟨Reachable.update _ 0 5 (2, 1) (Reachable.from_iter _ (by decide)),
    ⟨by decide, by decide⟩, by decide,
    lazy_invariant AffTraits AffTraits_lawful lazy_tree
      (Reachable.update _ 0 5 (2, 1) (Reachable.from_iter _ (by decide))) 2 1 5
      ⟨by decide, by decide⟩ (by decide)⟩

/-- C13 as stated fails on `lazy_tree` at the leaf `v = 10` (position 2): the
aggregate of its subtree is `query(2, 3) = [7]`, while `apply(v.mod, v.val)` is
`[3]`, because the modification pending on its parent, node 5, is not part of it. -/
theorem lazy_invariant_needs_ancestors :
    Reachable AffTraits lazy_tree ∧ 2 < lazy_tree.m_length ∧ lazy_tree.m_nleaves + 2 = 10 ∧
    lazy_tree.query AffTraits 2 3 = [7] ∧
    AffTraits.apply (rd AffTraits lazy_tree.m_data 10).mod (rd AffTraits lazy_tree.m_data 10).val
      = [3] ∧
    (rd AffTraits lazy_tree.m_data 5).mod = (2, 1) ∧
    lazy_tree.query AffTraits 2 3 ≠
      AffTraits.apply (rd AffTraits lazy_tree.m_data 10).mod
        (rd AffTraits lazy_tree.m_data 10).val :=
  ⟨Reachable.update _ 0 5 (2, 1) (Reachable.from_iter _ (by decide)), by decide, by decide,
    by decide, by decide, by decide, by decide⟩

end Claims5

/-! ## Checked execution agrees with the plain one -/

section Checked

variable {Val Mod : Type} (T : Traits Val Mod)

theorem rdC_eq (N : Nat) (d : List (Node Val Mod)) (i : Nat) (h1 : 1 ≤ i) (h2 : i < 2 * N)
    (h3 : d.length = 2 * N) : rdC T N d i = some (rd T d i) := by
  unfold rdC
  rw [if_pos ⟨h1, h2, by omega⟩]

theorem setValC_eq (N : Nat) (d : List (Node Val Mod)) (i : Nat) (v : Val) (h1 : 1 ≤ i)
    (h2 : i < 2 * N) (h3 : d.length = 2 * N) : setValC T N d i v = some (setVal T d i v) := by
  unfold setValC
  rw [if_pos ⟨h1, h2, by omega⟩]

theorem setModC_eq (N : Nat) (d : List (Node Val Mod)) (i : Nat) (m : Mod) (h1 : 1 ≤ i)
    (h2 : i < 2 * N) (h3 : d.length = 2 * N) : setModC T N d i m = some (setMod T d i m) := by
  unfold setModC
  rw [if_pos ⟨h1, h2, by omega⟩]

theorem ite_some_some {α : Type} (c : Prop) [Decidable c] (a b : α) :
    (if c then some a else some b) = some (if c then a else b) := by
  split <;> rfl

theorem recalcC_eq (N : Nat) (d : List (Node Val Mod)) (w : Nat) (h1 : 1 ≤ w) (h2 : w < N)
    (h3 : d.length = 2 * N) : recalcC T N d w = some (recalc T d w) := by
  unfold recalcC recalc
  rw [if_pos h2, rdC_eq T N d _ (by omega) (by omega) h3, Option.some_bind,
    rdC_eq T N d _ (by omega) (by omega) h3, Option.some_bind,
    setValC_eq T N d _ _ h1 (by omega) h3]

theorem downpropC_eq (N : Nat) (d : List (Node Val Mod)) (w : Nat) (h1 : 1 ≤ w) (h2 : w < N)
    (h3 : d.length = 2 * N) : downpropC T N d w false = some (downprop T d w false) := by
  unfold downpropC downprop
  simp only [Bool.false_eq_true, if_false]
  rw [if_pos h2, Option.some_bind, rdC_eq T N d _ h1 (by omega) h3, Option.some_bind,
    rdC_eq T N d _ (by omega) (by omega) h3, Option.some_bind,
    setModC_eq T N d _ _ (by omega) (by omega) h3, Option.some_bind,
    rdC_eq T N _ _ h1 (by omega) (by rw [length_setMod]; exact h3), Option.some_bind,
    rdC_eq T N _ _ (by omega) (by omega) (by rw [length_setMod]; exact h3), Option.some_bind,
    setModC_eq T N _ _ _ (by omega) (by omega) (by rw [length_setMod]; exact h3),
    Option.some_bind,
    setModC_eq T N _ _ _ h1 (by omega) (by rw [length_setMod, length_setMod]; exact h3)]

theorem push_singleC_eq (N p : Nat) (i : Nat) (d : List (Node Val Mod))
    (h : ∀ j, 1 ≤ j → j ≤ i → 1 ≤ p >>> j ∧ p >>> j < N) (hlen : d.length = 2 * N) :
    push_singleC T N p i d = some (push_single T p i d) := by
  induction i generalizing d with
  | zero => rfl
  | succ i ih =>
    obtain ⟨a, b⟩ := h (i + 1) (by omega) (le_refl _)
    rw [push_singleC, push_single, downpropC_eq T N d _ a b hlen, Option.some_bind]
    exact ih _ (fun j hj1 hj2 => h j hj1 (by omega)) (by rw [length_downprop]; exact hlen)

theorem push_pairC_eq (N p q : Nat) (i : Nat) (d : List (Node Val Mod))
    (h : ∀ j, 1 ≤ j → j ≤ i → (1 ≤ p >>> j ∧ p >>> j < N) ∧ (1 ≤ q >>> j ∧ q >>> j < N))
    (hlen : d.length = 2 * N) :
    push_pairC T N p q i d = some (push_pair T p q i d) := by
  induction i generalizing d with
  | zero => rfl
  | succ i ih =>
    obtain ⟨⟨a, b⟩, a2, b2⟩ := h (i + 1) (by omega) (le_refl _)
    rw [push_pairC, push_pair, downpropC_eq T N d _ a b hlen, Option.some_bind,
      downpropC_eq T N _ _ a2 b2 (by rw [length_downprop]; exact hlen), Option.some_bind]
    exact ih _ (fun j hj1 hj2 => h j hj1 (by omega))
      (by rw [length_downprop, length_downprop]; exact hlen)

theorem push_lcaC_eq (N lca k : Nat) (hk : k < 2 ^ 64) (i fuel : Nat)
    (d : List (Node Val Mod)) (hi : i < k) (hf : i + 2 ≤ fuel)
    (h : ∀ j, j ≤ i → 1 ≤ lca >>> j ∧ lca >>> j < N) (hlen : d.length = 2 * N) :
    push_lcaC T N lca k fuel i d = some (push_lca T lca k fuel i d) := by
  induction i generalizing d fuel with
  | zero =>
    obtain ⟨f, rfl⟩ : ∃ f, fuel = f + 2 := ⟨fuel - 2, by omega⟩
    have hw : ¬ wrap_dec 0 < k := by unfold wrap_dec; omega
    obtain ⟨a, b⟩ := h 0 (le_refl _)
    simp only [push_lcaC, push_lca, if_pos hi, if_neg hw, downpropC_eq T N d _ a b hlen,
      Option.some_bind]
  | succ i ih =>
    obtain ⟨f, rfl⟩ : ∃ f, fuel = f + 1 := ⟨fuel - 1, by omega⟩
    have hw : wrap_dec (i + 1) = i := by unfold wrap_dec; omega
    obtain ⟨a, b⟩ := h (i + 1) (le_refl _)
    rw [push_lcaC, push_lca, if_pos hi, if_pos hi, hw, downpropC_eq T N d _ a b hlen,
      Option.some_bind]
    exact ih f _ (by omega) (by omega) (fun j hj => h j (by omega))
      (by rw [length_downprop]; exact hlen)

theorem shift_bounds {D p : Nat} (hp : Lvl D p) (j : Nat) (h1 : 1 ≤ j) (h2 : j ≤ D) :
    1 ≤ p >>> j ∧ p >>> j < 2 ^ D := by
  rw [Nat.shiftRight_eq_div_pow]
  have hl := path_lvl hp j h2
  refine ⟨hl.pos, ?_⟩
  have := hl.2
  have := Nat.pow_le_pow_right (n := 2) (by norm_num) (show D - j + 1 ≤ D by omega)
  omega

theorem push_phaseC_eq (d : List (Node Val Mod)) {D p q : Nat} (hp : Lvl D p) (hq : Lvl D q)
    (hD : D ≤ 62) (hlen : d.length = 2 * 2 ^ D) :
    push_phaseC T (2 ^ D) d p q = some (push_phase T d p q) := by
  unfold push_phaseC push_phase clzllC
  by_cases hpq : p = q
  · have hp0 : p ≠ 0 := by have := hp.pos; omega
    rw [if_pos hpq, if_pos hpq, if_neg hp0, Option.some_bind]
    simp only []
    rw [bitlen_eq hp (by omega), wrap_dec_succ D (by omega)]
    exact push_singleC_eq T _ _ _ _ (fun j h1 h2 => shift_bounds hp j h1 h2) hlen
  · obtain ⟨e, he, hx, _⟩ := xor_lvl hp hq hpq
    have hm := bitlen_eq hx (by omega)
    have hl : Lvl (D - (e + 1)) (p >>> (e + 1)) := by
      rw [Nat.shiftRight_eq_div_pow]
      exact path_lvl hp (e + 1) (by omega)
    have hk := bitlen_eq hl (by omega)
    have hx0 : p ^^^ q ≠ 0 := by have := hx.pos; omega
    have hl0 : p >>> (e + 1) ≠ 0 := by have := hl.pos; omega
    rw [if_neg hpq, if_neg hpq, if_neg hx0, Option.some_bind]
    simp only []
    rw [hm, if_neg hl0, Option.some_bind, hk, wrap_dec_succ _ (by omega),
      wrap_dec_succ _ (by omega)]
    have hb : ∀ j, j ≤ D - (e + 1) →
        1 ≤ (p >>> (e + 1)) >>> j ∧ (p >>> (e + 1)) >>> j < 2 ^ D := by
      intro j hj
      rw [← Nat.shiftRight_add]
      exact shift_bounds hp _ (by omega) (by omega)
    rw [push_lcaC_eq T _ _ _ (by omega) _ _ _ (by omega) (by omega) hb hlen, Option.some_bind]
    apply push_pairC_eq
    · intro j h1 h2
      exact ⟨shift_bounds hp j h1 (by omega), shift_bounds hq j h1 (by omega)⟩
    · rw [push_lca_eq T _ _ (by omega) _ _ _ (by omega) (by omega), length_pushList]
      exact hlen

end Checked
section Checked2

variable {Val Mod : Type} (T : Traits Val Mod)

theorem pow_succ_two (D : Nat) : 2 ^ (D + 1) = 2 * 2 ^ D := by
  rw [pow_succ]; omega

theorem Lvl.lt_size {e D v : Nat} (h : Lvl e v) (he : e ≤ D) : v < 2 * 2 ^ D := by
  have := h.2
  have := Nat.pow_le_pow_right (n := 2) (by norm_num) (show e + 1 ≤ D + 1 by omega)
  have := pow_succ_two D
  omega

theorem Lvl.lt_internal {e D v : Nat} (h : Lvl e v) (he : e + 1 ≤ D) : v < 2 ^ D := by
  have := h.2
  have := Nat.pow_le_pow_right (n := 2) (by norm_num) he
  omega

theorem query_climbC_eq (D : Nat) (d : List (Node Val Mod)) (hlen : d.length = 2 * 2 ^ D) :
    ∀ (e fuel p : Nat) (x : Val), Lvl e p → e ≤ D → p ≤ fuel →
      query_climbC T (2 ^ D) d fuel p x = some (query_climb T d fuel p x) := by
  intro e
  induction e with
  | zero =>
    intro fuel p x hp _ hf
    have hp1 := lvl_zero_eq hp
    subst hp1
    obtain ⟨fuel, rfl⟩ : ∃ f0, fuel = f0 + 1 := ⟨fuel - 1, by omega⟩
    simp only [query_climbC, query_climb]
    rfl
  | succ e ih =>
    intro fuel p x hp heD hf
    have hh := hp.half
    have hpos := hh.pos
    obtain ⟨fuel, rfl⟩ : ∃ f0, fuel = f0 + 1 := ⟨fuel - 1, by have := hp.pos; omega⟩
    simp only [query_climbC, query_climb]
    rw [if_pos (by omega), if_pos (by omega),
      rdC_eq T _ d _ hpos (hh.lt_size (by omega)) hlen, Option.some_bind]
    exact ih fuel (p / 2) _ hh (by omega) (by omega)

theorem query_loopC_eq (D : Nat) (d : List (Node Val Mod)) (hlen : d.length = 2 * 2 ^ D) :
    ∀ (fuel e p q : Nat) (l r : Val), Lvl e p → Lvl e q → p < q → p + q ≤ fuel → e ≤ D →
      ((query_loopC T (2 ^ D) d fuel p q l r).bind fun s =>
          query_climbC T (2 ^ D) d s.1 s.1 (T.join s.2.2.1 s.2.2.2)) =
        some (query_climb T d (query_loop T d fuel p q l r).1 (query_loop T d fuel p q l r).1
          (T.join (query_loop T d fuel p q l r).2.2.1 (query_loop T d fuel p q l r).2.2.2)) := by
  intro fuel
  induction fuel with
  | zero =>
    intro e p q l r hp hq hpq hf _
    have := hp.pos
    omega
  | succ fuel ih =>
    intro e p q l r hp hq hpq hf heD
    by_cases hne : p / 2 ≠ q / 2
    · obtain ⟨e, rfl⟩ : ∃ e0, e = e0 + 1 := by
        cases e with
        | zero =>
          have := lvl_zero_eq hp
          have := lvl_zero_eq hq
          omega
        | succ e0 => exact ⟨e0, rfl⟩
      have hp2 := hp.half
      have hq2 := hq.half
      have hpp := hp.pos
      have h1 := rdC_eq T _ d (p + 1) (by omega) (by have := hq.lt_size heD; omega) hlen
      have h2 := rdC_eq T _ d (q - 1) (by omega) (by have := hq.lt_size heD; omega) hlen
      have h3 := rdC_eq T _ d (p / 2) hp2.pos (hp2.lt_size (by omega)) hlen
      have h4 := rdC_eq T _ d (q / 2) hq2.pos (hq2.lt_size (by omega)) hlen
      simp only [query_loopC, query_loop]
      rw [if_pos hne, if_pos hne, h1, h2, h3, h4, Option.map_some', Option.map_some',
        ite_some_some, ite_some_some, Option.some_bind, Option.some_bind, Option.some_bind,
        Option.some_bind]
      exact ih e (p / 2) (q / 2) _ _ hp2 hq2 (by omega) (by omega) (by omega)
    · simp only [query_loopC, query_loop]
      rw [if_neg hne, if_neg hne, Option.some_bind]
      exact query_climbC_eq T D d hlen e p p _ hp heD (le_refl _)

theorem update_climbC_eq (D : Nat) :
    ∀ (e fuel p : Nat) (d : List (Node Val Mod)), Lvl e p → e ≤ D → p ≤ fuel →
      d.length = 2 * 2 ^ D →
      update_climbC T (2 ^ D) fuel p d = some (update_climb T fuel p d) := by
  intro e
  induction e with
  | zero =>
    intro fuel p d hp _ hf _
    have hp1 := lvl_zero_eq hp
    subst hp1
    obtain ⟨fuel, rfl⟩ : ∃ f0, fuel = f0 + 1 := ⟨fuel - 1, by omega⟩
    simp only [update_climbC, update_climb]
    rfl
  | succ e ih =>
    intro fuel p d hp heD hf hlen
    have hh := hp.half
    have hpos := hh.pos
    obtain ⟨fuel, rfl⟩ : ∃ f0, fuel = f0 + 1 := ⟨fuel - 1, by have := hp.pos; omega⟩
    simp only [update_climbC, update_climb]
    rw [if_pos (by omega), if_pos (by omega),
      recalcC_eq T _ d _ hpos (hh.lt_internal (by omega)) hlen, Option.some_bind]
    exact ih fuel (p / 2) _ hh (by omega) (by omega) (by rw [length_recalc]; exact hlen)

theorem update_loopC_eq (D : Nat) (f : Mod) :
    ∀ (fuel e p q : Nat) (d : List (Node Val Mod)), Lvl e p → Lvl e q → p < q → p + q ≤ fuel →
      e ≤ D → d.length = 2 * 2 ^ D →
      ((update_loopC T (2 ^ D) f fuel p q d).bind fun s =>
          update_climbC T (2 ^ D) s.1 s.1 s.2) =
        some (update_climb T (update_loop T f fuel p q d).1 (update_loop T f fuel p q d).1
          (update_loop T f fuel p q d).2) := by
  intro fuel
  induction fuel with
  | zero =>
    intro e p q d hp hq hpq hf _ _
    have := hp.pos
    omega
  | succ fuel ih =>
    intro e p q d hp hq hpq hf heD hlen
    by_cases hne : p / 2 ≠ q / 2
    · obtain ⟨e, rfl⟩ : ∃ e0, e = e0 + 1 := by
        cases e with
        | zero =>
          have := lvl_zero_eq hp
          have := lvl_zero_eq hq
          omega
        | succ e0 => exact ⟨e0, rfl⟩
      have hp2 := hp.half
      have hq2 := hq.half
      have hpp := hp.pos
      have hqs := hq.lt_size heD
      obtain ⟨d1, hd1, hl1, hc1⟩ : ∃ d1, d1 = (if p % 2 = 0 then
            setMod T d (p + 1) (T.compose f (rd T d (p + 1)).mod) else d) ∧
          d1.length = 2 * 2 ^ D ∧
          (if p % 2 = 0 then
            (rdC T (2 ^ D) d (p + 1)).bind fun nd =>
              setModC T (2 ^ D) d (p + 1) (T.compose f nd.mod)
            else some d) = some d1 := by
        refine ⟨_, rfl, ?_, ?_⟩
        · split
          · rw [length_setMod]; exact hlen
          · exact hlen
        · rw [rdC_eq T _ d (p + 1) (by omega) (by omega) hlen, Option.some_bind,
            setModC_eq T _ d (p + 1) _ (by omega) (by omega) hlen, ite_some_some]
      obtain ⟨d2, hd2, hl2, hc2⟩ : ∃ d2, d2 = (if q % 2 = 1 then
            setMod T d1 (q - 1) (T.compose f (rd T d1 (q - 1)).mod) else d1) ∧
          d2.length = 2 * 2 ^ D ∧
          (if q % 2 = 1 then
            (rdC T (2 ^ D) d1 (q - 1)).bind fun nd =>
              setModC T (2 ^ D) d1 (q - 1) (T.compose f nd.mod)
            else some d1) = some d2 := by
        refine ⟨_, rfl, ?_, ?_⟩
        · split
          · rw [length_setMod]; exact hl1
          · exact hl1
        · rw [rdC_eq T _ d1 (q - 1) (by omega) (by omega) hl1, Option.some_bind,
            setModC_eq T _ d1 (q - 1) _ (by omega) (by omega) hl1, ite_some_some]
      simp only [update_loopC, update_loop]
      rw [if_pos hne, if_pos hne, hc1, Option.some_bind, hc2, Option.some_bind, ← hd1, ← hd2,
        recalcC_eq T _ d2 _ hp2.pos (hp2.lt_internal (by omega)) hl2, Option.some_bind,
        recalcC_eq T _ _ _ hq2.pos (hq2.lt_internal (by omega))
          (by rw [length_recalc]; exact hl2), Option.some_bind]
      exact ih e (p / 2) (q / 2) _ hp2 hq2 (by omega) (by omega) (by omega)
        (by rw [length_recalc, length_recalc]; exact hl2)
    · simp only [update_loopC, update_loop]
      rw [if_neg hne, if_neg hne, Option.some_bind]
      exact update_climbC_eq T D e p p d hp heD (le_refl _) hlen

theorem bind_map_of_bind {α β γ : Type} (x : Option α) (g : α → Option β) (h : β → γ) (b : β)
    (hxg : x.bind g = some b) : (x.bind fun r => (g r).map h) = some (h b) := by
  cases x with
  | none => simp at hxg
  | some a =>
    rw [Option.some_bind] at hxg
    rw [Option.some_bind, hxg, Option.map_some']

theorem clamp_eq_min (last len : Nat) : (if last > len then len else last) = min last len := by
  split <;> omega

theorem queryC_eq {t : SegTree Val Mod} {D : Nat} (hs : Shape t D) (first last : Nat) :
    t.queryC T first last = some (t.query T first last) := by
  unfold SegTree.queryC SegTree.query
  simp only [clamp_eq_min]
  by_cases hemp : min last t.m_length ≤ first
  · rw [if_pos hemp, if_pos hemp]
  · obtain ⟨hp, hq, hpq⟩ := hs.leaves first last (by omega)
    have hlen : t.m_data.length = 2 * 2 ^ D := by rw [hs.size_eq, hs.nleaves_eq]
    rw [if_neg hemp, if_neg hemp, hs.nleaves_eq] at *
    rw [rdC_eq T _ _ _ hp.pos (hp.lt_size (le_refl _)) hlen, Option.some_bind]
    by_cases hne : 2 ^ D + first ≠ 2 ^ D + min last t.m_length - 1
    · rw [if_pos hne, if_pos hne, rdC_eq T _ _ _ hq.pos (hq.lt_size (le_refl _)) hlen,
        Option.some_bind]
      exact query_loopC_eq T D _ hlen _ D _ _ _ _ hp hq (by omega) (le_refl _) (le_refl _)
    · rw [if_neg hne, if_neg hne]
      exact query_climbC_eq T D _ hlen D _ _ _ hp (le_refl _) (le_refl _)

theorem updateC_eq {t : SegTree Val Mod} {D : Nat} (hs : Shape t D) (first last : Nat)
    (f : Mod) : t.updateC T first last f = some (t.update T first last f) := by
  unfold SegTree.updateC SegTree.update
  simp only [clamp_eq_min]
  by_cases hemp : min last t.m_length ≤ first
  · rw [if_pos hemp, if_pos hemp]
  · obtain ⟨hp, hq, hpq⟩ := hs.leaves first last (by omega)
    have hlen : t.m_data.length = 2 * 2 ^ D := by rw [hs.size_eq, hs.nleaves_eq]
    rw [if_neg hemp, if_neg hemp, hs.nleaves_eq] at *
    have hl0 : (push_phase T t.m_data (2 ^ D + first)
        (2 ^ D + min last t.m_length - 1)).length = 2 * 2 ^ D := by
      rw [push_phase_eq T _ hp hq hs.depth_le, length_pushList]
      exact hlen
    rw [push_phaseC_eq T _ hp hq hs.depth_le hlen, Option.some_bind,
      rdC_eq T _ _ _ hp.pos (hp.lt_size (le_refl _)) hl0, Option.some_bind,
      setModC_eq T _ _ _ _ hp.pos (hp.lt_size (le_refl _)) hl0, Option.some_bind]
    by_cases hne : 2 ^ D + first ≠ 2 ^ D + min last t.m_length - 1
    · rw [if_pos hne, if_pos hne,
        rdC_eq T _ _ _ hq.pos (hq.lt_size (le_refl _)) (by rw [length_setMod]; exact hl0),
        Option.some_bind,
        setModC_eq T _ _ _ _ hq.pos (hq.lt_size (le_refl _))
          (by rw [length_setMod]; exact hl0), Option.some_bind]
      refine bind_map_of_bind _
        (fun (s : Nat × List (Node Val Mod)) => update_climbC T (2 ^ D) s.1 s.1 s.2) _ _ ?_
      apply update_loopC_eq T D f _ D _ _ _ hp hq (by omega) (le_refl _) (le_refl _)
      rw [length_setMod, length_setMod]
      exact hl0
    · rw [if_neg hne, if_neg hne,
        update_climbC_eq T D D _ _ _ hp (le_refl _) (le_refl _)
          (by rw [length_setMod]; exact hl0), Option.map_some']

end Checked2
section Claims6

variable {Val Mod : Type} (T : Traits Val Mod)

theorem calc_nleavesC_eq (n : Nat) : calc_nleavesC n = some (calc_nleaves n) := by
  unfold calc_nleavesC calc_nleaves clzllC
  by_cases h : n ≤ 4
  · rw [if_pos h, if_pos h]
  · rw [if_neg h, if_neg h, if_neg (by omega), Option.map_some']

/-- The checks of the checked execution are effective: on the tree of the
length-only constructor for length `2 ^ 62 + 1`, whose vector is empty because
`2 * m_nleaves` wraps to 0, the first access of `query(0, 1)` is rejected. -/
theorem queryC_rejects_wrapped :
    (SegTree.new_length MyTraits (2 ^ 62 + 1)).queryC MyTraits 0 1 = none := by
  decide

/-- C19.  Safety of `query` and `update`.  In the checked execution a vector
access outside `[1, 2 * m_nleaves)` (or outside the vector), a call of `recalc` or
`downprop` on a node that is not internal, `__builtin_clzll(0)`, and a loop still
running when its fuel is used up (the halving loops and the wrapping loop
`for (i = k - 1; i < k; --i)`) all yield `none`.  On every tree built by a
constructor with length at most `2 ^ 62`, also after any updates, and for all
arguments, the checked `query` and `update` succeed and return what the plain
functions return; `calc_nleaves` never applies `__builtin_clzll` to 0. -/
theorem query_update_safe (t : SegTree Val Mod) (ht : Reachable T t) (first last : Nat)
    (f : Mod) :
    t.queryC T first last = some (t.query T first last) ∧
    t.updateC T first last f = some (t.update T first last f) ∧
    ∀ n, calc_nleavesC n = some (calc_nleaves n) := by
  obtain ⟨D, hs⟩ := ht.exists_shape T
  exact ⟨queryC_eq T hs first last, updateC_eq T hs first last f, calc_nleavesC_eq⟩

/-- C19, instance: the sample tree, range `[1, 4)`, modification `(3, 0)`. -/
theorem query_update_safe_witness :
    Reachable AffTraits sample_tree ∧
    sample_tree.queryC AffTraits 1 4 = some [5, 7, 9] ∧
    (sample_tree.updateC AffTraits 1 4 (3, 0)).map (fun t => t.query AffTraits 0 5) =
      some [1, 15, 21, 27, 5] :=
  ⟨sample_tree_reachable,
    (query_update_safe AffTraits sample_tree sample_tree_reachable 1 4 (3, 0)).1.trans
      (by decide),
    (congrArg (Option.map fun t => t.query AffTraits 0 5)
      (query_update_safe AffTraits sample_tree sample_tree_reachable 1 4 (3, 0)).2.1).trans
      (by decide)⟩

end Claims6

/-! ## The discrete Fourier transform -/

section BitReverse

theorem bitrev_lt (k i : Nat) : bitrev k i < 2 ^ k := by
  induction k with
  | zero => simp [bitrev]
  | succ k ih =>
    have h := Nat.mod_lt (i / 2 ^ k) (show 0 < 2 by norm_num)
    have := pow_succ_two k
    simp only [bitrev]
    omega

/-- Peeling the lowest bit of the argument: it becomes the highest bit of the
result. -/
theorem bitrev_succ_low (k i : Nat) :
    bitrev (k + 1) i = (i % 2) * 2 ^ k + bitrev k (i / 2) := by
  induction k with
  | zero => simp [bitrev]
  | succ k ih =>
    have h1 : i / 2 ^ (k + 1) = i / 2 / 2 ^ k := by
      rw [Nat.div_div_eq_div_mul, pow_succ']
    have h2 := pow_succ_two k
    rw [bitrev, ih, h1]
    conv_rhs => rw [bitrev]
    rw [h2]
    ring

theorem bitrev_double (k b : Nat) : bitrev (k + 1) (2 * b) = bitrev k b := by
  rw [bitrev_succ_low]
  have h1 : 2 * b % 2 = 0 := by omega
  have h2 : 2 * b / 2 = b := by omega
  rw [h1, h2]
  simp

theorem bitrev_double_succ (k b : Nat) : bitrev (k + 1) (2 * b + 1) = 2 ^ k + bitrev k b := by
  rw [bitrev_succ_low]
  have h1 : (2 * b + 1) % 2 = 1 := by omega
  have h2 : (2 * b + 1) / 2 = b := by omega
  rw [h1, h2]
  simp

/-- The result depends only on the `k` low bits of the argument. -/
theorem bitrev_add_mul (k : Nat) : ∀ x y, bitrev k (x * 2 ^ k + y) = bitrev k y := by
  induction k with
  | zero => intro x y; rfl
  | succ k ih =>
    intro x y
    rw [bitrev_succ_low, bitrev_succ_low k y]
    have h : x * 2 ^ (k + 1) = 2 * (x * 2 ^ k) := by rw [pow_succ_two]; ring
    have e1 : (x * 2 ^ (k + 1) + y) % 2 = y % 2 := by omega
    have e2 : (x * 2 ^ (k + 1) + y) / 2 = x * 2 ^ k + y / 2 := by omega
    rw [e1, e2, ih]

/-- Reversing twice gives back the `k` low bits. -/
theorem bitrev_bitrev (k : Nat) : ∀ i, i < 2 ^ k → bitrev k (bitrev k i) = i := by
  induction k with
  | zero =>
    intro i hi
    simp at hi
    simp [bitrev, hi]
  | succ k ih =>
    intro i hi
    have h2 := pow_succ_two k
    have hlt := bitrev_lt k (i / 2)
    have he : i % 2 < 2 := Nat.mod_lt _ (by norm_num)
    have hdiv : ((i % 2) * 2 ^ k + bitrev k (i / 2)) / 2 ^ k = i % 2 := by
      rw [Nat.add_comm, Nat.add_mul_div_right _ _ (Nat.two_pow_pos k), Nat.div_eq_of_lt hlt]
      simp
    rw [bitrev_succ_low k i, bitrev, bitrev_add_mul, ih _ (by omega), hdiv]
    omega

/-- The bits of `bitrev k i` are the `k` low bits of `i` in reverse order. -/
theorem testBit_bitrev (k i b : Nat) (hb : b < k) :
    (bitrev k i).testBit b = i.testBit (k - 1 - b) := by
  induction k generalizing b with
  | zero => omega
  | succ k ih =>
    have hc : i / 2 ^ k % 2 < 2 := Nat.mod_lt _ (by norm_num)
    rw [bitrev]
    cases b with
    | zero =>
      rw [Nat.testBit_zero, Nat.testBit_to_div_mod]
      have : (2 * bitrev k i + i / 2 ^ k % 2) % 2 = i / 2 ^ k % 2 := by omega
      rw [this]
      simp
    | succ b =>
      rw [Nat.testBit_succ]
      have : (2 * bitrev k i + i / 2 ^ k % 2) / 2 = bitrev k i := by omega
      rw [this, ih b (by omega)]
      congr 1
      omega

/-- The inner loop of `dft_permute` computes `bitrev`. -/
theorem revbits_loop_eq (i : Nat) : ∀ (cnt b : Nat), b + cnt ≤ 64 →
    revbits_loop i cnt b (bitrev b i) = bitrev (b + cnt) i := by
  intro cnt
  induction cnt with
  | zero => intro b _; rfl
  | succ cnt ih =>
    intro b hb
    have hlt := bitrev_lt b i
    have h64 : 2 ^ (b + 1) ≤ 2 ^ 64 := Nat.pow_le_pow_right (by norm_num) (by omega)
    have h2 := pow_succ_two b
    have hc : i / 2 ^ b % 2 < 2 := Nat.mod_lt _ (by norm_num)
    have hstep : ((bitrev b i <<< 1) % 2 ^ 64) ||| ((i >>> b) &&& 1) = bitrev (b + 1) i := by
      have hor : (2 ^ 1 * bitrev b i) ||| (i / 2 ^ b % 2) = 2 ^ 1 * bitrev b i + i / 2 ^ b % 2 :=
        (Nat.mul_add_lt_is_or (by simpa using hc) _).symm
      rw [Nat.mod_eq_of_lt (by rw [Nat.shiftLeft_eq]; omega), Nat.and_one_is_mod,
        Nat.shiftRight_eq_div_pow, Nat.shiftLeft_eq, Nat.mul_comm, hor, bitrev]
      omega
    rw [revbits_loop, hstep, ih (b + 1) (by omega)]
    congr 1
    omega

theorem revbits_eq (k i : Nat) (hk : k ≤ 64) : revbits_loop i k 0 0 = bitrev k i := by
  have := revbits_loop_eq i k 0 (by omega)
  simpa [bitrev] using this

end BitReverse

section Permute

variable {R : Type}

theorem swap_apply (A : Nat → R) (i j x : Nat) :
    swap A i j x = if x = j then A i else if x = i then A j else A x := by
  unfold swap
  rw [Function.update_apply, Function.update_apply]

/-- The swap loop of `dft_permute` after the indices below `i`: every position
that has met its partner holds the partner's original element. -/
theorem permute_loop_spec (k : Nat) (hk : k ≤ 63) (A0 : Nat → R) :
    ∀ (cnt i : Nat) (A : Nat → R), i + cnt = 2 ^ k →
      (∀ x, x < 2 ^ k → A x = if x < i ∨ bitrev k x < i then A0 (bitrev k x) else A0 x) →
      (∀ x, 2 ^ k ≤ x → A x = A0 x) →
      (∀ x, x < 2 ^ k → permute_loop k cnt i A x = A0 (bitrev k x)) ∧
      (∀ x, 2 ^ k ≤ x → permute_loop k cnt i A x = A0 x) := by
  intro cnt
  induction cnt with
  | zero =>
    intro i A hi hA hB
    refine ⟨fun x hx => ?_, hB⟩
    rw [permute_loop, hA x hx, if_pos (Or.inl (by omega))]
  | succ cnt ih =>
    intro i A hi hA hB
    have hik : i < 2 ^ k := by omega
    have hj := bitrev_lt k i
    have hjj := bitrev_bitrev k i hik
    have hAi := hA i hik
    have hAj := hA _ hj
    rw [hjj] at hAj
    simp only [permute_loop, revbits_eq k i (by omega)]
    apply ih (i + 1) _ (by omega)
    · intro x hx
      have hxx := bitrev_bitrev k x hx
      have hAx := hA x hx
      by_cases hlt : i < bitrev k i
      · rw [if_pos hlt, swap_apply]
        rw [if_neg (by omega)] at hAi hAj
        by_cases h1 : x = bitrev k i
        · rw [if_pos h1, hAi, if_pos (Or.inr (by rw [h1, hjj]; omega)), h1, hjj]
        · rw [if_neg h1]
          by_cases h2 : x = i
          · rw [if_pos h2, hAj, if_pos (Or.inl (by omega)), h2]
          · have h3 : bitrev k x ≠ i := by
              intro h
              rw [h] at hxx
              exact h1 hxx.symm
            rw [if_neg h2, hAx]
            by_cases hc : x < i ∨ bitrev k x < i
            · rw [if_pos hc, if_pos (by omega)]
            · rw [if_neg hc, if_neg (by omega)]
      · rw [if_neg hlt]
        by_cases h2 : x = i
        · subst h2
          rw [if_pos (Or.inl (by omega)), hAi]
          by_cases hc : bitrev k x < x
          · rw [if_pos (Or.inr hc)]
          · have : bitrev k x = x := by omega
            rw [if_neg (by omega), this]
        · rw [hAx]
          by_cases hc : x < i ∨ bitrev k x < i
          · rw [if_pos hc, if_pos (by omega)]
          · have h3 : bitrev k x ≠ i := by
              intro h
              rw [h] at hxx
              omega
            rw [if_neg hc, if_neg (by omega)]
    · intro x hx
      by_cases hlt : i < bitrev k i
      · rw [if_pos hlt, swap_apply, if_neg (by omega), if_neg (by omega)]
        exact hB x hx
      · rw [if_neg hlt]
        exact hB x hx

/-- `dft_permute(k, A)` puts `A[bitrev k i]` at position `i` and leaves the
elements from `2 ^ k` on alone. -/
theorem dft_permute_spec (k : Nat) (hk : k ≤ 63) (A : Nat → R) :
    (∀ x, x < 2 ^ k → dft_permute k A x = A (bitrev k x)) ∧
    (∀ x, 2 ^ k ≤ x → dft_permute k A x = A x) := by
  have h64 : 2 ^ k < 2 ^ 64 := Nat.pow_lt_pow_right (by norm_num) (by omega)
  unfold dft_permute
  simp only [Nat.shiftLeft_eq, Nat.one_mul, Nat.mod_eq_of_lt h64]
  apply permute_loop_spec k hk A (2 ^ k) 0 A (by omega)
  · intro x _
    rw [if_neg (by omega)]
  · intro x _
    rfl

end Permute

section Butterflies

variable {R : Type} [CommRing R]

/-- The precomputation loop: `omegas[l] = omega ^ (2 ^ (k - l))` for `1 ≤ l ≤ k`. -/
theorem omegas_loop_spec (k : Nat) (omega : R) :
    ∀ (lvl : Nat) (om : Nat → R), lvl + 1 ≤ k →
      (∀ l, lvl < l → l ≤ k → om l = omega ^ 2 ^ (k - l)) →
      ∀ l, 1 ≤ l → l ≤ k → omegas_loop lvl om l = omega ^ 2 ^ (k - l) := by
  intro lvl
  induction lvl with
  | zero =>
    intro om _ h l h1 h2
    exact h l (by omega) h2
  | succ lvl ih =>
    intro om hk h l h1 h2
    rw [omegas_loop]
    apply ih _ (by omega) _ l h1 h2
    intro l2 h3 h4
    rw [Function.update_apply]
    by_cases he : l2 = lvl + 1
    · rw [if_pos he, h (lvl + 1 + 1) (by omega) (by omega), he, ← pow_two, ← pow_mul]
      congr 1
      rw [← pow_succ]
      congr 1
      omega
    · rw [if_neg he]
      exact h l2 (by omega) h4

/-- The innermost loop of `dft` on one block: the butterflies not yet done are
carried out on the current array, everything else is left alone. -/
theorem butterfly_loop_spec (w : R) (i half : Nat) :
    ∀ (cnt j : Nat) (A : Nat → R), j + cnt ≤ half → ∀ x,
      butterfly_loop w i half cnt j (w ^ j) A x =
        if i + j ≤ x ∧ x < i + j + cnt then A x + w ^ (x - i) * A (x + half)
        else if i + half + j ≤ x ∧ x < i + half + j + cnt then
          A (x - half) - w ^ (x - half - i) * A x
        else A x := by
  intro cnt
  induction cnt with
  | zero =>
    intro j A _ x
    rw [butterfly_loop, if_neg (by omega), if_neg (by omega)]
  | succ cnt ih =>
    intro j A hj x
    simp only [butterfly_loop]
    rw [← pow_succ, ih (j + 1) _ (by omega) x]
    simp only [Function.update_apply]
    by_cases h1 : i + j ≤ x ∧ x < i + j + (cnt + 1)
    · rw [if_pos h1]
      by_cases h2 : x = i + j
      · subst h2
        rw [if_neg (by omega), if_neg (by omega), if_neg (by omega), if_pos rfl]
        have e1 : i + j - i = j := by omega
        have e2 : i + j + half = i + half + j := by omega
        rw [e1, e2]
      · rw [if_pos (by omega), if_neg (by omega), if_neg h2, if_neg (by omega),
          if_neg (by omega)]
    · rw [if_neg h1]
      by_cases h3 : i + half + j ≤ x ∧ x < i + half + j + (cnt + 1)
      · rw [if_pos h3]
        by_cases h4 : x = i + half + j
        · subst h4
          rw [if_neg (by omega), if_neg (by omega), if_pos rfl]
          have e1 : i + half + j - half = i + j := by omega
          have e2 : i + j - i = j := by omega
          rw [e1, e2]
        · rw [if_neg (by omega), if_pos (by omega), if_neg h4, if_neg (by omega)]
          have e2 : x - half ≠ i + j := by omega
          rw [if_neg e2, if_neg (by omega)]
      · rw [if_neg h3, if_neg (by omega), if_neg (by omega), if_neg (by omega),
          if_neg (by omega)]

end Butterflies

section Blocks

variable {R : Type} [CommRing R]

/-- One level of `dft`: the loop over the blocks of size `2 * h` carries out the
butterflies of every block from block `c` on, and never runs out of fuel when
given at least one unit per remaining block. -/
theorem block_loop_spec (h M : Nat) (w : R) (hM : M * (2 * h) < 2 ^ 64) (hh : 1 ≤ h) :
    ∀ (fuel c : Nat) (A : Nat → R), c ≤ M → M - c ≤ fuel →
      ∃ A1, block_loop (M * (2 * h)) (2 * h) w fuel (c * (2 * h)) A = some A1 ∧
        (∀ b j, c ≤ b → b < M → j < h →
          A1 (b * (2 * h) + j) = A (b * (2 * h) + j) + w ^ j * A (b * (2 * h) + h + j) ∧
          A1 (b * (2 * h) + h + j) = A (b * (2 * h) + j) - w ^ j * A (b * (2 * h) + h + j)) ∧
        (∀ x, x < c * (2 * h) ∨ M * (2 * h) ≤ x → A1 x = A x) := by
  intro fuel
  induction fuel with
  | zero =>
    intro c A hc hf
    have hcM : c = M := by omega
    subst hcM
    refine ⟨A, ?_, ?_, fun _ _ => rfl⟩
    · rw [block_loop, if_neg (by omega)]
    · intro b j h1 h2
      omega
  | succ fuel ih =>
    intro c A hc hf
    by_cases hcM : c = M
    · subst hcM
      refine ⟨A, ?_, ?_, fun _ _ => rfl⟩
      · rw [block_loop, if_neg (by omega)]
      · intro b j h1 h2
        omega
    · have hlt : c + 1 ≤ M := by omega
      have hmul : (c + 1) * (2 * h) ≤ M * (2 * h) := Nat.mul_le_mul_right _ hlt
      have hsucc : (c + 1) * (2 * h) = c * (2 * h) + 2 * h := by ring
      have hdiv : 2 * h / 2 = h := by omega
      obtain ⟨A1, e1, s1, f1⟩ := ih (c + 1)
        (butterfly_loop w (c * (2 * h)) h h 0 1 A) hlt (by omega)
      have hb : ∀ x, butterfly_loop w (c * (2 * h)) h h 0 1 A x =
          if c * (2 * h) + 0 ≤ x ∧ x < c * (2 * h) + 0 + h then
            A x + w ^ (x - c * (2 * h)) * A (x + h)
          else if c * (2 * h) + h + 0 ≤ x ∧ x < c * (2 * h) + h + 0 + h then
            A (x - h) - w ^ (x - h - c * (2 * h)) * A x
          else A x := by
        intro x
        have := butterfly_loop_spec w (c * (2 * h)) h h 0 A (by omega) x
        rwa [pow_zero] at this
      refine ⟨A1, ?_, ?_, ?_⟩
      · rw [block_loop, if_pos (by omega), hdiv, Nat.mod_eq_of_lt (by omega), ← hsucc]
        exact e1
      · intro b j h1 h2 h3
        by_cases hbc : b = c
        · subst hbc
          rw [f1 _ (Or.inl (by omega)), f1 _ (Or.inl (by omega)), hb, hb,
            if_pos (by omega), if_neg (by omega), if_pos (by omega)]
          have e2 : b * (2 * h) + j - b * (2 * h) = j := by omega
          have e3 : b * (2 * h) + j + h = b * (2 * h) + h + j := by omega
          have e4 : b * (2 * h) + h + j - h = b * (2 * h) + j := by omega
          rw [e2, e3, e4, e2]
          exact ⟨rfl, rfl⟩
        · have hge : (c + 1) * (2 * h) ≤ b * (2 * h) :=
            Nat.mul_le_mul_right _ (by omega)
          obtain ⟨r1, r2⟩ := s1 b j (by omega) h2 h3
          rw [r1, r2, hb, hb, if_neg (by omega), if_neg (by omega), if_neg (by omega),
            if_neg (by omega)]
          exact ⟨rfl, rfl⟩
      · intro x hx
        rw [f1 x (by omega), hb, if_neg (by omega), if_neg (by omega)]

end Blocks

section Levels

variable {R : Type} [CommRing R]

theorem sum_range_two_mul (f : Nat → R) (m : Nat) :
    Finset.sum (Finset.range (2 * m)) f =
      Finset.sum (Finset.range m) (fun t => f (2 * t)) +
        Finset.sum (Finset.range m) (fun t => f (2 * t + 1)) := by
  induction m with
  | zero => simp
  | succ m ih =>
    rw [show 2 * (m + 1) = 2 * m + 1 + 1 by ring, Finset.sum_range_succ, Finset.sum_range_succ,
      ih, Finset.sum_range_succ, Finset.sum_range_succ]
    ring

theorem pow_even_shift (W : R) (L t j : Nat) (h : W ^ L = -1) :
    W ^ (2 * t * (L + j)) = (W ^ 2) ^ (t * j) := by
  have e : W ^ (2 * t * (L + j)) = (W ^ L) ^ (2 * t) * (W ^ 2) ^ (t * j) := by ring
  rw [e, h, Even.neg_one_pow ⟨t, by ring⟩, one_mul]

theorem pow_odd_shift (W : R) (L t j : Nat) (h : W ^ L = -1) :
    W ^ ((2 * t + 1) * (L + j)) = -(W ^ j * (W ^ 2) ^ (t * j)) := by
  have e : W ^ ((2 * t + 1) * (L + j)) = (W ^ L) ^ (2 * t + 1) * (W ^ j * (W ^ 2) ^ (t * j)) := by
    ring
  rw [e, h, Odd.neg_one_pow ⟨t, rfl⟩]
  ring

/-- One level of butterflies turns the invariant of level `l` into that of level
`l + 1`. -/
theorem level_step (a : Nat → R) (omega : R) (l m : Nat) (hom : omega ^ 2 ^ (l + m) = -1)
    (A A1 : Nat → R) (hInv : DftInv a omega l (m + 1) A)
    (hstep : ∀ b j, b < 2 ^ m → j < 2 ^ l →
      A1 (b * (2 * 2 ^ l) + j) =
        A (b * (2 * 2 ^ l) + j) + (omega ^ 2 ^ m) ^ j * A (b * (2 * 2 ^ l) + 2 ^ l + j) ∧
      A1 (b * (2 * 2 ^ l) + 2 ^ l + j) =
        A (b * (2 * 2 ^ l) + j) - (omega ^ 2 ^ m) ^ j * A (b * (2 * 2 ^ l) + 2 ^ l + j)) :
    DftInv a omega (l + 1) m A1 := by
  have hW2 : omega ^ 2 ^ (m + 1) = (omega ^ 2 ^ m) ^ 2 := by rw [← pow_mul, pow_succ]
  have hW1 : (omega ^ 2 ^ m) ^ 2 ^ l = -1 := by
    rw [← pow_mul, ← pow_add, Nat.add_comm]
    exact hom
  unfold DftInv at hInv ⊢
  simp only [hW2] at hInv
  generalize omega ^ 2 ^ m = W at hInv hstep hW1 ⊢
  have hm2 := pow_succ_two m
  have hl2 := pow_succ_two l
  intro b j hb hj
  have hE : ∀ j2, j2 < 2 ^ l → A (b * (2 * 2 ^ l) + j2) =
      Finset.sum (Finset.range (2 ^ l))
        (fun t => a (2 * t * 2 ^ m + bitrev m b) * (W ^ 2) ^ (t * j2)) := by
    intro j2 hj2
    have h := hInv (2 * b) j2 (by omega) hj2
    rw [bitrev_double, show 2 * b * 2 ^ l + j2 = b * (2 * 2 ^ l) + j2 by ring] at h
    rw [h]
    apply Finset.sum_congr rfl
    intro t _
    rw [show t * 2 ^ (m + 1) = 2 * t * 2 ^ m by rw [hm2]; ring]
  have hO : ∀ j2, j2 < 2 ^ l → A (b * (2 * 2 ^ l) + 2 ^ l + j2) =
      Finset.sum (Finset.range (2 ^ l))
        (fun t => a ((2 * t + 1) * 2 ^ m + bitrev m b) * (W ^ 2) ^ (t * j2)) := by
    intro j2 hj2
    have h := hInv (2 * b + 1) j2 (by omega) hj2
    rw [bitrev_double_succ,
      show (2 * b + 1) * 2 ^ l + j2 = b * (2 * 2 ^ l) + 2 ^ l + j2 by ring] at h
    rw [h]
    apply Finset.sum_congr rfl
    intro t _
    rw [show t * 2 ^ (m + 1) + (2 ^ m + bitrev m b) = (2 * t + 1) * 2 ^ m + bitrev m b by
      rw [hm2]; ring]
  rw [hl2, sum_range_two_mul]
  by_cases hjl : j < 2 ^ l
  · obtain ⟨r1, _⟩ := hstep b j hb hjl
    rw [r1, hE j hjl, hO j hjl, Finset.mul_sum]
    congr 1
    · apply Finset.sum_congr rfl
      intro t _
      ring
    · apply Finset.sum_congr rfl
      intro t _
      ring
  · obtain ⟨j2, rfl⟩ : ∃ j2, j = 2 ^ l + j2 := ⟨j - 2 ^ l, by omega⟩
    obtain ⟨_, r2⟩ := hstep b j2 hb (by omega)
    rw [← Nat.add_assoc, r2, hE j2 (by omega), hO j2 (by omega), Finset.mul_sum, sub_eq_add_neg,
      ← Finset.sum_neg_distrib]
    congr 1
    · apply Finset.sum_congr rfl
      intro t _
      rw [pow_even_shift W _ t j2 hW1]
    · apply Finset.sum_congr rfl
      intro t _
      rw [pow_odd_shift W _ t j2 hW1]
      ring

/-- The loop over the levels of `dft`, entered at level `l + 1` with the
invariant of level `l`, ends with the invariant of level `k`. -/
theorem level_loop_spec (a : Nat → R) (omega : R) (k : Nat) (hk : k ≤ 63)
    (hom : 1 ≤ k → omega ^ 2 ^ (k - 1) = -1) (omegas : Nat → R)
    (hos : ∀ l, 1 ≤ l → l ≤ k → omegas l = omega ^ 2 ^ (k - l)) :
    ∀ (cnt l : Nat) (A : Nat → R), l + cnt = k → DftInv a omega l cnt A →
      (∀ x, 2 ^ k ≤ x → A x = a x) →
      ∃ A1, level_loop (2 ^ k) omegas cnt (l + 1) A = some A1 ∧ DftInv a omega k 0 A1 ∧
        (∀ x, 2 ^ k ≤ x → A1 x = a x) := by
  intro cnt
  induction cnt with
  | zero =>
    intro l A hl hInv hf
    have : l = k := by omega
    subst this
    exact ⟨A, rfl, hInv, hf⟩
  | succ cnt ih =>
    intro l A hl hInv hf
    have h64 : 2 ^ k < 2 ^ 64 := Nat.pow_lt_pow_right (by norm_num) (by omega)
    have hl64 : 2 ^ (l + 1) ≤ 2 ^ k := Nat.pow_le_pow_right (by norm_num) (by omega)
    have hl2 := pow_succ_two l
    have hn : 2 ^ k = 2 ^ cnt * (2 * 2 ^ l) := by
      rw [← hl2, ← pow_add]
      congr 1
      omega
    have hM : 2 ^ cnt ≤ 2 ^ k := Nat.pow_le_pow_right (by norm_num) (by omega)
    obtain ⟨A1, e1, s1, f1⟩ := block_loop_spec (2 ^ l) (2 ^ cnt) (omegas (l + 1))
      (by rw [← hn]; exact h64) Nat.one_le_two_pow (2 ^ k) 0 A (Nat.zero_le _) (by omega)
    rw [Nat.zero_mul, ← hn] at e1
    rw [level_loop, Nat.shiftLeft_eq, Nat.one_mul, Nat.mod_eq_of_lt (by omega), hl2, e1,
      Option.some_bind]
    have hw : omegas (l + 1) = omega ^ 2 ^ cnt := by
      rw [hos (l + 1) (by omega) (by omega)]
      congr 2
      omega
    rw [hw] at s1
    have hInv2 : DftInv a omega (l + 1) cnt A1 := by
      apply level_step a omega l cnt _ A A1 hInv
      · intro b j hb hj
        exact s1 b j (Nat.zero_le _) hb hj
      · have := hom (by omega)
        rwa [show k - 1 = l + cnt by omega] at this
    apply ih (l + 1) A1 (by omega) hInv2
    intro x hx
    rw [f1 x (Or.inr (by rw [← hn]; exact hx)), hf x hx]

/-- What `dft` computes: for `n = 2 ^ k` the call passes its assertion, all its
loops finish, and the array then holds the transform of the input at `omega`;
elements from `n` on are untouched. -/
theorem dft_eq_sum (k : Nat) (hk : k ≤ 63) (A : Nat → R) (omega : R)
    (hom : 1 ≤ k → omega ^ (2 ^ k / 2) = -1) :
    ∃ A1, dft (2 ^ k) A omega = some A1 ∧ (∀ j, j < 2 ^ k → A1 j = dft_sum (2 ^ k) A omega j) ∧
      (∀ x, 2 ^ k ≤ x → A1 x = A x) := by
  cases k with
  | zero =>
    refine ⟨A, ?_, ?_, fun _ _ => rfl⟩
    · rw [dft, if_pos (by norm_num)]
    · intro j hj
      have : j = 0 := by simpa using hj
      subst this
      simp [dft_sum]
  | succ k =>
    have h2 := pow_succ_two k
    have hpos := Nat.two_pow_pos k
    have h64 : 2 ^ (k + 1) < 2 ^ 64 := Nat.pow_lt_pow_right (by norm_num) (by omega)
    have hlvl : Lvl k (2 ^ (k + 1) - 1) := ⟨by omega, by omega⟩
    have hbit := bitlen_eq hlvl (by omega)
    have hom2 : 1 ≤ k + 1 → omega ^ 2 ^ (k + 1 - 1) = -1 := by
      intro h
      have := hom h
      rwa [show 2 ^ (k + 1) / 2 = 2 ^ (k + 1 - 1) by
        rw [h2, Nat.add_sub_cancel]; omega] at this
    obtain ⟨p1, p2⟩ := dft_permute_spec (k + 1) hk A
    have hos := omegas_loop_spec (k + 1) omega k
      (Function.update (fun _ => (0 : R)) (k + 1) omega) (le_refl _)
      (by
        intro l h1 h3
        have : l = k + 1 := by omega
        subst this
        rw [Function.update_same, Nat.sub_self, pow_zero, pow_one])
    have hInv0 : DftInv A omega 0 (k + 1) (dft_permute (k + 1) A) := by
      intro b j hb hj
      have : j = 0 := by simpa using hj
      subst this
      simp only [pow_zero, Nat.mul_one, Nat.add_zero, Finset.range_one, Finset.sum_singleton,
        Nat.zero_mul, Nat.zero_add, mul_one]
      exact p1 b hb
    obtain ⟨A1, e1, s1, f1⟩ := level_loop_spec A omega (k + 1) hk hom2 _ hos (k + 1) 0
      (dft_permute (k + 1) A) (by omega) hInv0 p2
    refine ⟨A1, ?_, ?_, f1⟩
    · rw [dft, if_neg (by omega)]
      simp only [hbit, Nat.shiftLeft_eq, Nat.one_mul, Nat.mod_eq_of_lt h64, if_true,
        wrap_dec_succ k (by omega)]
      exact e1
    · intro j hj
      have := s1 0 j (by norm_num) hj
      simp only [Nat.zero_mul, Nat.zero_add, pow_zero, Nat.mul_one, bitrev, Nat.add_zero,
        pow_one] at this
      rw [this]
      rfl

end Levels

section Inverse

variable {R : Type} [CommRing R]

/-- The powers of a root of `-1` of order `2 ^ K` sum to zero along every step
`d` that is not a multiple of the period. -/
theorem geom_sum_zero (K : Nat) : ∀ (z : R) (d : Nat), z ^ 2 ^ K = -1 → 0 < d → d < 2 ^ (K + 1) →
    Finset.sum (Finset.range (2 ^ (K + 1))) (fun j => z ^ (d * j)) = 0 := by
  induction K with
  | zero =>
    intro z d hz h0 h1
    have hd : d = 1 := by
      simp at h1
      omega
    subst hd
    simp only [pow_zero, pow_one] at hz
    simp [Finset.sum_range_succ, hz]
  | succ K ih =>
    intro z d hz h0 h1
    have h2 := pow_succ_two (K + 1)
    have h3 := pow_succ_two K
    rw [show 2 ^ (K + 1 + 1) = 2 ^ (K + 1) + 2 ^ (K + 1) by omega, Finset.sum_range_add]
    rcases Nat.even_or_odd' d with ⟨c, rfl | rfl⟩
    · have hz2 : (z ^ 2) ^ 2 ^ K = -1 := by
        rw [← pow_mul, ← pow_succ']
        exact hz
      have hs := ih (z ^ 2) c hz2 (by omega) (by omega)
      have e1 : Finset.sum (Finset.range (2 ^ (K + 1))) (fun j => z ^ (2 * c * j)) = 0 := by
        rw [← hs]
        apply Finset.sum_congr rfl
        intro j _
        ring
      have e2 : Finset.sum (Finset.range (2 ^ (K + 1))) (fun j => z ^ (2 * c * (2 ^ (K + 1) + j))) =
          z ^ (2 * c * 2 ^ (K + 1)) *
            Finset.sum (Finset.range (2 ^ (K + 1))) (fun j => z ^ (2 * c * j)) := by
        rw [Finset.mul_sum]
        apply Finset.sum_congr rfl
        intro j _
        ring
      rw [e2, e1]
      simp
    · rw [← Finset.sum_add_distrib]
      apply Finset.sum_eq_zero
      intro j _
      have e : z ^ ((2 * c + 1) * (2 ^ (K + 1) + j)) =
          (z ^ 2 ^ (K + 1)) ^ (2 * c + 1) * z ^ ((2 * c + 1) * j) := by ring
      rw [e, hz, Odd.neg_one_pow ⟨c, rfl⟩]
      ring

/-- Orthogonality of the characters used by `dft` and its inverse. -/
theorem dft_kernel (k : Nat) (omega w : R) (hom : 1 ≤ k → omega ^ (2 ^ k / 2) = -1)
    (hw : omega * w = 1) (i l : Nat) (hi : i < 2 ^ k) (hl : l < 2 ^ k) :
    Finset.sum (Finset.range (2 ^ k)) (fun j => omega ^ (i * j) * w ^ (j * l)) =
      if i = l then ((2 ^ k : Nat) : R) else 0 := by
  by_cases hil : i = l
  · subst hil
    rw [if_pos rfl]
    have : ∀ j ∈ Finset.range (2 ^ k), omega ^ (i * j) * w ^ (j * i) = 1 := by
      intro j _
      rw [Nat.mul_comm j i, ← mul_pow, hw, one_pow]
    rw [Finset.sum_congr rfl this]
    simp
  · rw [if_neg hil]
    obtain ⟨K, rfl⟩ : ∃ K, k = K + 1 := by
      cases k with
      | zero =>
        simp at hi hl
        omega
      | succ K => exact ⟨K, rfl⟩
    have h2 := pow_succ_two K
    have hhalf : 2 ^ (K + 1) / 2 = 2 ^ K := by omega
    have ho := hom (by omega)
    rw [hhalf] at ho
    have hwK : w ^ 2 ^ K = -1 := by
      have h1 : omega ^ 2 ^ K * w ^ 2 ^ K = 1 := by rw [← mul_pow, hw, one_pow]
      rw [ho] at h1
      have h3 : w ^ 2 ^ K = -(-1 * w ^ 2 ^ K) := by ring
      rw [h3, h1]
    rcases Nat.lt_or_gt_of_ne hil with h | h
    · obtain ⟨d, rfl⟩ : ∃ d, l = i + d := ⟨l - i, by omega⟩
      rw [← geom_sum_zero K w d hwK (by omega) (by omega)]
      apply Finset.sum_congr rfl
      intro j _
      have e : omega ^ (i * j) * w ^ (j * (i + d)) = (omega * w) ^ (i * j) * w ^ (d * j) := by ring
      rw [e, hw, one_pow, one_mul]
    · obtain ⟨d, rfl⟩ : ∃ d, i = l + d := ⟨i - l, by omega⟩
      rw [← geom_sum_zero K omega d ho (by omega) (by omega)]
      apply Finset.sum_congr rfl
      intro j _
      have e : omega ^ ((l + d) * j) * w ^ (j * l) = (omega * w) ^ (j * l) * omega ^ (d * j) := by
        ring
      rw [e, hw, one_pow, one_mul]

/-- Transforming a transform at the inverse root multiplies the array by `n`. -/
theorem dft_sum_dft_sum (k : Nat) (A : Nat → R) (omega w : R)
    (hom : 1 ≤ k → omega ^ (2 ^ k / 2) = -1) (hw : omega * w = 1) (l : Nat) (hl : l < 2 ^ k) :
    Finset.sum (Finset.range (2 ^ k)) (fun j => dft_sum (2 ^ k) A omega j * w ^ (j * l)) =
      A l * ((2 ^ k : Nat) : R) := by
  unfold dft_sum
  simp only [Finset.sum_mul]
  rw [Finset.sum_comm]
  have : ∀ i ∈ Finset.range (2 ^ k),
      Finset.sum (Finset.range (2 ^ k)) (fun j => A i * omega ^ (i * j) * w ^ (j * l)) =
        A i * (if i = l then ((2 ^ k : Nat) : R) else 0) := by
    intro i hi
    rw [← dft_kernel k omega w hom hw i l (Finset.mem_range.mp hi) hl, Finset.mul_sum]
    apply Finset.sum_congr rfl
    intro j _
    ring
  rw [Finset.sum_congr rfl this]
  simp only [mul_ite, mul_zero]
  rw [Finset.sum_ite_eq' (Finset.range (2 ^ k)) l, if_pos (Finset.mem_range.mpr hl)]

theorem inv_root_half (k : Nat) (omega w : R) (hom : 1 ≤ k → omega ^ (2 ^ k / 2) = -1)
    (hw : omega * w = 1) : 1 ≤ k → w ^ (2 ^ k / 2) = -1 := by
  intro h
  have h1 : omega ^ (2 ^ k / 2) * w ^ (2 ^ k / 2) = 1 := by rw [← mul_pow, hw, one_pow]
  rw [hom h] at h1
  have h3 : w ^ (2 ^ k / 2) = -(-1 * w ^ (2 ^ k / 2)) := by ring
  rw [h3, h1]

end Inverse

section Claims7

variable {R : Type} [CommRing R]

/-- C12.  Over a commutative ring, for `n = 2 ^ k` (any `k` a `size_t` length
allows, `k ≤ 63`) and `omega` with `omega ^ (n / 2) = -1` when `n ≥ 2`, the call
`dft(n, A, omega)` passes its assertion, finishes, and leaves in `A[j]`, for every
`j < n`, the sum over `i < n` of `A[i] * omega ^ (i * j)` taken on the input.  On
the way `dft_permute(k, A)` puts `A[r(i)]` at position `i`, where `r(i) < n` is the
result of the bit loop of `dft_permute` and its bit `b` is bit `k - 1 - b` of `i`. -/
theorem dft_correct (k : Nat) (hk : k ≤ 63) (A : Nat → R) (omega : R)
    (hom : 1 ≤ k → omega ^ (2 ^ k / 2) = -1) :
    (∃ A1, dft (2 ^ k) A omega = some A1 ∧
      ∀ j, j < 2 ^ k →
        A1 j = Finset.sum (Finset.range (2 ^ k)) (fun i => A i * omega ^ (i * j))) ∧
    (∀ i, i < 2 ^ k → dft_permute k A i = A (revbits_loop i k 0 0)) ∧
    (∀ i, revbits_loop i k 0 0 < 2 ^ k) ∧
    (∀ i b, b < k → (revbits_loop i k 0 0).testBit b = i.testBit (k - 1 - b)) := by
  obtain ⟨A1, e1, s1, _⟩ := dft_eq_sum k hk A omega hom
  refine ⟨⟨A1, e1, s1⟩, ?_, ?_, ?_⟩
  · intro i hi
    rw [revbits_eq k i (by omega)]
    exact (dft_permute_spec k hk A).1 i hi
  · intro i
    rw [revbits_eq k i (by omega)]
    exact bitrev_lt k i
  · intro i b hb
    rw [revbits_eq k i (by omega)]
    exact testBit_bitrev k i b hb

/-- C12, instance: length 4 over the integers modulo 5 with `omega = 2`
(`2 ^ 2 = -1`), input `1, 2, 3, 4`. -/
theorem dft_correct_witness :
    (2 ≤ 63) ∧ (1 ≤ 2 → (2 : ZMod 5) ^ (2 ^ 2 / 2) = -1) ∧
    (∃ A1, dft (2 ^ 2) (fun i => ((i + 1 : Nat) : ZMod 5)) 2 = some A1 ∧
      ∀ j, j < 2 ^ 2 →
        A1 j = Finset.sum (Finset.range (2 ^ 2))
          (fun i => ((i + 1 : Nat) : ZMod 5) * 2 ^ (i * j))) ∧
    (dft (2 ^ 2) (fun i => ((i + 1 : Nat) : ZMod 5)) 2).map (fun A1 => (List.range 4).map A1) =
      some [0, 4, 3, 2] :=
  ⟨by decide, by decide,
    (dft_correct 2 (by decide) (fun i => ((i + 1 : Nat) : ZMod 5)) 2 (by decide)).1, by decide⟩

/-- C11.  Over a commutative ring, for `n = 2 ^ k` (`k ≤ 63`) with an inverse
`ninv` of `n`, and `omega` with `omega ^ (n / 2) = -1` when `n ≥ 2` and inverse
`w`: running `dft(n, A, omega)`, then `dft(n, A, w)` on the result, then
multiplying every element by `ninv` gives back the original `A[0..n)`. -/
theorem dft_inverse (k : Nat) (hk : k ≤ 63) (A : Nat → R) (omega w ninv : R)
    (hom : 1 ≤ k → omega ^ (2 ^ k / 2) = -1) (hw : omega * w = 1)
    (hn : ((2 ^ k : Nat) : R) * ninv = 1) :
    ∃ A1 A2, dft (2 ^ k) A omega = some A1 ∧ dft (2 ^ k) A1 w = some A2 ∧
      ∀ l, l < 2 ^ k → A2 l * ninv = A l := by
  obtain ⟨A1, e1, s1, _⟩ := dft_eq_sum k hk A omega hom
  obtain ⟨A2, e2, s2, _⟩ := dft_eq_sum k hk A1 w (inv_root_half k omega w hom hw)
  refine ⟨A1, A2, e1, e2, ?_⟩
  intro l hl
  have h1 : A2 l = Finset.sum (Finset.range (2 ^ k))
      (fun j => dft_sum (2 ^ k) A omega j * w ^ (j * l)) := by
    rw [s2 l hl]
    unfold dft_sum
    apply Finset.sum_congr rfl
    intro j hj
    rw [s1 j (Finset.mem_range.mp hj)]
    rfl
  rw [h1, dft_sum_dft_sum k A omega w hom hw l hl, mul_assoc, hn, mul_one]

/-- C11, instance: length 4 over the integers modulo 5 with `omega = 2`,
`w = 3`, `ninv = 4`, input `1, 2, 3, 4`. -/
theorem dft_inverse_witness :
    (2 ≤ 63) ∧ (1 ≤ 2 → (2 : ZMod 5) ^ (2 ^ 2 / 2) = -1) ∧ ((2 : ZMod 5) * 3 = 1) ∧
    (((2 ^ 2 : Nat) : ZMod 5) * 4 = 1) ∧
    ∃ A1 A2, dft (2 ^ 2) (fun i => ((i + 1 : Nat) : ZMod 5)) 2 = some A1 ∧
      dft (2 ^ 2) A1 3 = some A2 ∧
      ∀ l, l < 2 ^ 2 → A2 l * 4 = ((l + 1 : Nat) : ZMod 5) :=
  ⟨by decide, by decide, by decide, by decide,
    dft_inverse 2 (by decide) (fun i => ((i + 1 : Nat) : ZMod 5)) 2 3 4 (by decide) (by decide)
      (by decide)⟩

end Claims7

end Efgen
